import Mathlib

/-!
# Assignment tree of themis-cli (`src/tree/tree.go`)

The Go code works on heap-allocated `AssignmentNode`s linked by pointers and
mutated in place.  The embedding keeps that shape: a `World` holds the heap
(address to node), the allocation pointer, the list of page requests made so
far and the lines handed to the logger.  Every Go function becomes a function
that takes a `World` and returns the new one together with its Go results.

* a `*AssignmentNode` that is not nil is an address, a natural number;
  `Option Nat` is a pointer that may be nil;
* a Go `error` is its message (`err.Error()`), `nil` is `none`;
* `depth` is an `Int`: the code only computes `depth - 1` from a `depth` that
  is at least 0, so a Go `int` never wraps around here;
* `parser.GetAssignmentsOnPage` lives in another package: it is a parameter.
  Its answer may depend on the requests made before (the remote side may
  change between two requests), so it receives them;
* `json.Encoder.Encode`, `os.Create` and `file.Close` are parameters as well;
  an `Encode` that fails may have written the beginning of its record, which
  stays in the file; `jsonEncode` is the encoder the code configures, with the
  layout of Go's `encoding/json` under `SetIndent("", "    ")`;
* `BuildTreeFromJSON` has an empty body in the source; the loader here is the
  one the specification asks for, and marked as such;
* the two recursive functions recurse on `depth`, which Lean does not accept
  as it stands for an `Int`; they are defined with a bound on the nesting of
  calls, the public functions supply a bound that is never reached
  (`pull_total`, `encode_eq_inOrder`).
-/

namespace Themis

/-- Go: `type AssignmentNode struct { Parent; Name; URL; children }`. -/
structure AssignmentNode where
  Parent : Option Nat
  Name : String
  URL : String
  children : List Nat
  deriving DecidableEq

/-- Go: one element of the slice returned by `parser.GetAssignmentsOnPage`, a
`map[string]string`; a key that is absent reads as the empty string. -/
abbrev Assignment := String → String

/-- The fetch capability `parser.GetAssignmentsOnPage(client, URL)`: given the
URLs requested so far and the URL requested now, a listing or an error. -/
abbrev Fetch := List String → String → Except String (List Assignment)

/-- Program state: heap, allocation pointer (addresses below `next` are
allocated), page requests in the order they were made, logger lines. -/
structure World where
  heap : Nat → AssignmentNode
  next : Nat
  requests : List String
  log : List String

/-- Store `v` at address `p`. -/
def setNode (h : Nat → AssignmentNode) (p : Nat) (v : AssignmentNode) : Nat → AssignmentNode :=
  fun q => if q = p then v else h q

/-- Go: `func (n *AssignmentNode) AppendChild(c *AssignmentNode)`: log, then
`c.Parent = n`, then `n.children = append(n.children, c)`. -/
def AppendChild (n c : Nat) (w : World) : World :=
  let line := "Appending child " ++ (w.heap c).Name ++ " to parent " ++ (w.heap n).Name
  let h1 := setNode w.heap c { w.heap c with Parent := some n }
  let h2 := setNode h1 n { h1 n with children := (h1 n).children ++ [c] }
  { w with heap := h2, log := w.log ++ [line] }

/-- Go: `BuildAssignmentNode(parent, name, url)`: log, allocate a node with the
three fields set and a nil `children` slice, return its address. -/
def BuildAssignmentNode (parent : Option Nat) (name url : String) (w : World) : Nat × World :=
  let node : AssignmentNode := { Parent := parent, Name := name, URL := url, children := [] }
  (w.next, { w with heap := setNode w.heap w.next node, next := w.next + 1,
                    log := w.log ++ ["Building node " ++ name] })

/-- Go: `BuildRootAssignmentNode(name, url)`. -/
def BuildRootAssignmentNode (name url : String) (w : World) : Nat × World :=
  BuildAssignmentNode none name url w

/-- Go, lines 59-62: the first loop of `PullAssignmentsFromThemisAndBuildTree`,
one `BuildAssignmentNode` and one `AppendChild` per listed assignment. -/
def appendAssignments (rootNode : Nat) : List Assignment → World → World
  | [], w => w
  | assignment :: rest, w =>
    let built := BuildAssignmentNode (some rootNode) (assignment "name") (assignment "url") w
    appendAssignments rootNode rest (AppendChild rootNode built.1 built.2)

/-- Go, lines 66-71: the second loop, over the children slice as it was when
the loop started.  `recur` is the recursive call; the loop stops at the first
child whose call returns an error and wraps that error. -/
def buildChildren (recur : String → Nat → World → Option (Except String Nat × World)) :
    List Nat → World → Option (Option String × World)
  | [], w => some (none, w)
  | child :: rest, w =>
    match recur (w.heap child).URL child w with
    | none => none
    | some (Except.error err, w1) => some (some ("error building tree: " ++ err), w1)
    | some (Except.ok _, w1) => buildChildren recur rest w1

/-- Go: `PullAssignmentsFromThemisAndBuildTree`, with a bound on the number of
nested calls (`none` when the bound is reached). -/
def pullFuel (fetch : Fetch) : Nat → String → Nat → Int → World →
    Option (Except String Nat × World)
  | 0, _, _, _, _ => none
  | fuel + 1, URL, rootNode, depth, w =>
    let w0 : World := { w with requests := w.requests ++ [URL] }
    match fetch w.requests URL with
    | Except.error err => some (Except.error ("error getting assignments on page: " ++ err), w0)
    | Except.ok assignments =>
      let w1 := appendAssignments rootNode assignments w0
      if depth > 0 then
        match buildChildren (fun u c => pullFuel fetch fuel u c (depth - 1))
            (w1.heap rootNode).children w1 with
        | none => none
        | some (some err, w2) => some (Except.error err, w2)
        | some (none, w2) => some (Except.ok rootNode, w2)
      else
        some (Except.ok rootNode, w1)

/-- Go: `PullAssignmentsFromThemisAndBuildTree(client, URL, rootNode, depth)`.
The result is `(nil, err)` as `Except.error err` and `(rootNode, nil)` as
`Except.ok rootNode`, next to the world the call leaves behind.  The nesting of
calls is at most `depth + 1` deep, which is the bound given to `pullFuel`. -/
def PullAssignmentsFromThemisAndBuildTree (fetch : Fetch) (URL : String) (rootNode : Nat)
    (depth : Int) (w : World) : Option (Except String Nat × World) :=
  pullFuel fetch (depth.toNat + 1) URL rootNode depth w

/-- A failed `encoder.Encode(node)`: the error, and the part of the record
that had reached the file when it failed.  `Encode` marshals the value and
then writes the text to the file: nothing is written when the value cannot
be marshalled, the beginning of the record may be when the write fails. -/
structure EncodeFailure where
  err : String
  written : String
  deriving DecidableEq

/-- The encode capability `encoder.Encode(node)`: given the nodes passed to the
encoder before and the node passed now, the record it writes or a failure. -/
abbrev Encode := List Nat → Nat → Except EncodeFailure String

/-- What a `json.Encoder` on the output file has seen and done: the nodes
passed to `Encode`, in order, the records written to the file and, after
them, what a failed `Encode` left of its record. -/
structure Encoder where
  calls : List Nat
  out : List String
  torn : String
  deriving DecidableEq

/-- Go, lines 110-115: the loop of `encodeAssignmentTree` over the children;
it stops at the first child whose call returns an error and returns it as is. -/
def encodeChildren (recur : Nat → Encoder → Option (Option String × Encoder)) :
    List Nat → Encoder → Option (Option String × Encoder)
  | [], e => some (none, e)
  | child :: rest, e =>
    match recur child e with
    | none => none
    | some (some err, e1) => some (some err, e1)
    | some (none, e1) => encodeChildren recur rest e1

/-- Go: `encodeAssignmentTree`, with a bound on the number of nested calls. -/
def encodeFuel (enc : Encode) (heap : Nat → AssignmentNode) : Nat → Nat → Int → Encoder →
    Option (Option String × Encoder)
  | 0, _, _, _ => none
  | fuel + 1, node, depth, e =>
    if depth < 0 then
      some (none, e)
    else
      match enc e.calls node with
      | Except.error failure =>
        some (some ("error encoding node " ++ (heap node).Name ++ ": " ++ failure.err),
              { e with calls := e.calls ++ [node], torn := e.torn ++ failure.written })
      | Except.ok record =>
        encodeChildren (fun c => encodeFuel enc heap fuel c (depth - 1)) (heap node).children
          { e with calls := e.calls ++ [node], out := e.out ++ [record] }

/-- Go: `encodeAssignmentTree(encoder, node, depth)`; the nesting of calls is
at most `depth + 2` deep (one call when `depth` is negative). -/
def encodeAssignmentTree (enc : Encode) (heap : Nat → AssignmentNode) (node : Nat) (depth : Int)
    (e : Encoder) : Option (Option String × Encoder) :=
  encodeFuel enc heap ((depth + 1).toNat + 1) node depth e

/-- Outcome of `SaveAssignmentTreeToJSON`: the returned error, the state of the
output file (`none` when it was not created) and the lines logged. -/
structure SaveResult where
  err : Option String
  file : Option Encoder
  log : List String
  deriving DecidableEq

/-- Go: `SaveAssignmentTreeToJSON(rootNode, depth)`.  `create` is the outcome
of `os.Create`, `close` the outcome of the deferred `file.Close()`, whose
error is only logged. -/
def SaveAssignmentTreeToJSON (create close : Except String Unit) (enc : Encode)
    (heap : Nat → AssignmentNode) (rootNode : Nat) (depth : Int) : Option SaveResult :=
  match create with
  | Except.error err => some { err := some ("error creating file: " ++ err), file := none, log := [] }
  | Except.ok _ =>
    let closeLog : List String :=
      match close with
      | Except.error closeErr => ["error closing file: " ++ closeErr]
      | Except.ok _ => []
    match encodeAssignmentTree enc heap rootNode depth { calls := [], out := [], torn := "" } with
    | none => none
    | some (some err, e) =>
      some { err := some ("error encoding assignment tree: " ++ err), file := some e, log := closeLog }
    | some (none, e) => some { err := none, file := some e, log := closeLog }

/-! ## Vocabulary of the properties -/

/-- The nodes `k` edges below `p`, from left to right (a node reached along
two paths is listed twice). -/
def levelNodes (h : Nat → AssignmentNode) (p : Nat) : Nat → List Nat
  | 0 => [p]
  | k + 1 => (h p).children.flatMap (fun c => levelNodes h c k)

/-- The nodes at levels `0..d` below `p` in pre-order: the node, then the
subtree of each child in child order. -/
def preorderWithin (h : Nat → AssignmentNode) (p : Nat) : Nat → List Nat
  | 0 => [p]
  | d + 1 => p :: (h p).children.flatMap (fun c => preorderWithin h c d)

/-- The number of nodes at levels `0..d` below `p`. -/
def countWithin (h : Nat → AssignmentNode) (p : Nat) (d : Nat) : Nat :=
  ((List.range (d + 1)).map (fun k => (levelNodes h p k).length)).sum

/-- The nodes `encodeAssignmentTree` is to visit for a given depth, by the
words of the specification: none when the depth is negative, otherwise the
nodes at levels `0..depth` in pre-order. -/
def visited (h : Nat → AssignmentNode) (p : Nat) (depth : Int) : List Nat :=
  if depth < 0 then [] else preorderWithin h p depth.toNat

/-- Passing the nodes of a list to the encoder one after the other, up to and
including the first one that fails; the error names that node. -/
def encodeInOrder (enc : Encode) (h : Nat → AssignmentNode) : List Nat → Encoder →
    Option String × Encoder
  | [], e => (none, e)
  | p :: rest, e =>
    match enc e.calls p with
    | Except.error failure =>
      (some ("error encoding node " ++ (h p).Name ++ ": " ++ failure.err),
       { e with calls := e.calls ++ [p], torn := e.torn ++ failure.written })
    | Except.ok record =>
      encodeInOrder enc h rest { e with calls := e.calls ++ [p], out := e.out ++ [record] }

/-- The `n` allocated nodes of the heap hold a tree with root `root`: children
are allocated, no node is listed twice by one parent, no node is listed by two
parents, and no node lists `root`. -/
def TreeShaped (h : Nat → AssignmentNode) (root n : Nat) : Prop :=
  root < n ∧
  (∀ a, a < n → ∀ c ∈ (h a).children, c < n) ∧
  (∀ a, a < n → (h a).children.Nodup) ∧
  (∀ a, a < n → ∀ b, b < n → ∀ c ∈ (h a).children, c ∈ (h b).children → a = b) ∧
  (∀ a, a < n → root ∉ (h a).children)

/-! ## Concrete worlds and capabilities -/

/-- The empty heap cell. -/
def blank : AssignmentNode := { Parent := none, Name := "", URL := "", children := [] }

/-- The world before anything is allocated. -/
def emptyWorld : World := { heap := fun _ => blank, next := 0, requests := [], log := [] }

/-- The world a call leaves behind. -/
def worldOf {α : Type} (r : Option (α × World)) : World :=
  match r with
  | some (_, w) => w
  | none => emptyWorld

/-- One listed assignment with the two keys the builder reads. -/
def entry (name url : String) : Assignment :=
  fun key => if key = "name" then name else if key = "url" then url else ""

/-- The course of the scenario: CS101 lists HW1 and HW2, each of them lists
one Submission, a Submission lists nothing. -/
def courseFetch : Fetch := fun _ url =>
  if url = "/cs101" then Except.ok [entry "HW1" "/hw1", entry "HW2" "/hw2"]
  else if url = "/hw1" ∨ url = "/hw2" then Except.ok [entry "Submission" (url ++ "/sub")]
  else Except.ok []

/-- The world in which only the root `CS101` exists, at address 0. -/
def courseStart : World := (BuildRootAssignmentNode "CS101" "/cs101" emptyWorld).2

/-- The scenario's build, with `depth = 2`. -/
def courseBuilt : Option (Except String Nat × World) :=
  PullAssignmentsFromThemisAndBuildTree courseFetch "/cs101" 0 2 courseStart

/-- The world after the scenario's build. -/
def courseWorld : World := worldOf courseBuilt

/-- A remote whose every page lists itself once. -/
def selfFetch : Fetch := fun _ url => Except.ok [entry "again" url]

/-- The build against the self-listing remote, with `depth = 2`. -/
def selfBuilt : Option (Except String Nat × World) :=
  PullAssignmentsFromThemisAndBuildTree selfFetch "/cs101" 0 2 courseStart

/-- A remote that cannot be reached. -/
def downFetch : Fetch := fun _ _ => Except.error "connection refused"

/-- A remote on which the page of the second of three assignments fails. -/
def flakyFetch : Fetch := fun _ url =>
  if url = "/cs101" then Except.ok [entry "HW1" "/hw1", entry "HW2" "/hw2", entry "HW3" "/hw3"]
  else if url = "/hw2" then Except.error "timeout"
  else Except.ok [entry "Submission" (url ++ "/sub")]

/-- The flaky remote, after the root's three assignments were appended. -/
def flakyListed : World :=
  appendAssignments 0 [entry "HW1" "/hw1", entry "HW2" "/hw2", entry "HW3" "/hw3"]
    { courseStart with requests := courseStart.requests ++ ["/cs101"] }

/-- The flaky remote, after the first child was built. -/
def flakyFirst : World :=
  worldOf (buildChildren
    (fun u c => PullAssignmentsFromThemisAndBuildTree flakyFetch u c (1 - 1)) [1] flakyListed)

/-- The flaky remote, after the build of the second child failed. -/
def flakyFailed : World :=
  worldOf (PullAssignmentsFromThemisAndBuildTree flakyFetch "/hw2" 2 (1 - 1) flakyFirst)

/-- A root at address 0 that already has one child, at address 1. -/
def grownWorld : World :=
  { heap := fun p =>
      if p = 0 then { Parent := none, Name := "CS101", URL := "/cs101", children := [1] }
      else if p = 1 then { Parent := some 0, Name := "Old", URL := "/old", children := [] }
      else blank,
    next := 2, requests := [], log := [] }

/-- An encoder that writes the name of the node. -/
def nameEncode (h : Nat → AssignmentNode) : Encode := fun _ p => Except.ok (h p).Name

/-- An encoder whose third call fails before anything is written. -/
def thirdFails (h : Nat → AssignmentNode) : Encode := fun calls p =>
  if calls.length = 2 then Except.error { err := "disk full", written := "" }
  else Except.ok (h p).Name

/-- The encoder `enc` on a file that runs full: in call `k + 1` the file
takes only the first `n` characters of the record and the write fails. -/
def tornWrite (enc : Encode) (k n : Nat) : Encode := fun calls p =>
  if calls.length = k then
    match enc calls p with
    | Except.error failure => Except.error failure
    | Except.ok record =>
      Except.error { err := "write assignment_tree.json: no space left on device",
                     written := String.mk (record.data.take n) }
  else enc calls p

/-- The bytes of the output file: the records, then what a failed `Encode`
left. -/
def fileText (e : Encoder) : String := String.join e.out ++ e.torn

end Themis

namespace Themis

/-! ## Invariants of the heap -/

/-- No dangling pointers: the children of an allocated node are allocated. -/
def WF (w : World) : Prop :=
  ∀ p, p < w.next → ∀ c ∈ (w.heap p).children, c < w.next

/-- Node `b` can be reached from node `a` by following `children` zero or more
times. -/
def Reach (h : Nat → AssignmentNode) : Nat → Nat → Prop :=
  Relation.ReflTransGen (fun a b => b ∈ (h a).children)

/-- World `v` comes after world `w`: nodes are only added, the nodes of `w`
keep their name, URL and parent and only gain children allocated after `w`,
and the nodes allocated after `w` only have children allocated after `w`. -/
structure Grows (w v : World) : Prop where
  next_le : w.next ≤ v.next
  old : ∀ p, p < w.next →
    (v.heap p).Name = (w.heap p).Name ∧ (v.heap p).URL = (w.heap p).URL ∧
    (v.heap p).Parent = (w.heap p).Parent ∧
    ∃ extra, (v.heap p).children = (w.heap p).children ++ extra ∧
      ∀ c ∈ extra, w.next ≤ c ∧ c < v.next
  fresh : ∀ p, w.next ≤ p → p < v.next → ∀ c ∈ (v.heap p).children, w.next ≤ c ∧ c < v.next
  reqs : w.requests <+: v.requests

end Themis

namespace Themis

/-! ## The builder by the words of the specification -/

/-- The builder as the specification words its third step: after the fetch
and the first loop, the recursion goes into the children appended by this call
only, which are the nodes allocated by the first loop, in order.  The recursive
calls themselves are calls of the code. -/
def pullNewChildrenOnly (fetch : Fetch) (URL : String) (rootNode : Nat) (depth : Int)
    (w : World) : Option (Except String Nat × World) :=
  match fetch w.requests URL with
  | Except.error err =>
    some (Except.error ("error getting assignments on page: " ++ err),
          { w with requests := w.requests ++ [URL] })
  | Except.ok assignments =>
    let w1 := appendAssignments rootNode assignments { w with requests := w.requests ++ [URL] }
    if depth > 0 then
      match buildChildren (fun u c => PullAssignmentsFromThemisAndBuildTree fetch u c (depth - 1))
          (List.range' w.next assignments.length) w1 with
      | none => none
      | some (some err, w2) => some (Except.error err, w2)
      | some (none, w2) => some (Except.ok rootNode, w2)
    else
      some (Except.ok rootNode, w1)

end Themis

namespace Themis

/-! ## The tree a build leaves below a childless node -/

/-- Below the node `r`, the nodes at the addresses `lo ≤ p < hi` (those
allocated by a build that started with `lo` as allocation pointer) form a
tree with consistent back-references: every node of the tree lists children of
the tree only, lists none twice, was allocated before its children and is
their `Parent`; and every node of the tree but `r` is listed by a node of the
tree. -/
def Built (h : Nat → AssignmentNode) (r lo hi : Nat) : Prop :=
  r < lo ∧
  (∀ q, (q = r ∨ (lo ≤ q ∧ q < hi)) →
    (h q).children.Nodup ∧
    ∀ c ∈ (h q).children, lo ≤ c ∧ c < hi ∧ q < c ∧ (h c).Parent = some q) ∧
  (∀ p, lo ≤ p → p < hi → ∃ q, (q = r ∨ (lo ≤ q ∧ q < hi)) ∧ p ∈ (h q).children)

end Themis

namespace Themis

/-! ## The records of the output file -/

/-- The indentation of nesting level `k` under `encoder.SetIndent("", "    ")`. -/
def indent (k : Nat) : String := String.join (List.replicate k "    ")

/-- Modelled from the spec: the text `json.Encoder.Encode` produces for a
pointer to a node, which is code of Go's `encoding/json` and not of the
repository.  The record "serializes the node's exported fields as one JSON
object", "indented with 4 spaces per level": the fields `Parent`, `Name` and
`URL` in the order of the struct (`children` is not exported), each on a line
of its own; a nil `Parent` is `null`, another one is the object of the parent
node, one level deeper.  `quote` writes a string as a JSON string.  The
pointers are followed at most `limit` times: a longer chain of parents is
reported as the cycle it is when `limit` is the number of nodes. -/
def marshalNode (quote : String → String) (h : Nat → AssignmentNode) :
    Nat → Nat → Option Nat → Except String String
  | _, _, none => Except.ok "null"
  | 0, _, some _ =>
    Except.error "json: unsupported value: encountered a cycle via *tree.AssignmentNode"
  | limit + 1, k, some p =>
    match marshalNode quote h limit (k + 1) (h p).Parent with
    | Except.error err => Except.error err
    | Except.ok parent =>
      Except.ok ("\x7b\n" ++ indent (k + 1) ++ "\"Parent\": " ++ parent ++ ",\n" ++
        indent (k + 1) ++ "\"Name\": " ++ quote (h p).Name ++ ",\n" ++
        indent (k + 1) ++ "\"URL\": " ++ quote (h p).URL ++ "\n" ++ indent k ++ "\x7d")

/-- The encoder of `SaveAssignmentTreeToJSON`: `json.NewEncoder(file)` with
`SetIndent("", "    ")`, on a file that takes every write; `Encode` writes the
text of the value and a newline, and nothing when the value cannot be
marshalled. -/
def jsonEncode (quote : String → String) (h : Nat → AssignmentNode) (limit : Nat) : Encode :=
  fun _ p =>
    match marshalNode quote h limit 0 (some p) with
    | Except.error err => Except.error { err := err, written := "" }
    | Except.ok text => Except.ok (text ++ "\n")

/-- The record `jsonEncode` writes for a node (empty when it fails). -/
def recordOf (quote : String → String) (h : Nat → AssignmentNode) (limit : Nat) (p : Nat) :
    String :=
  match marshalNode quote h limit 0 (some p) with
  | Except.error _ => ""
  | Except.ok text => text ++ "\n"

/-- A string between double quotes: the JSON string of a string in which
nothing has to be escaped, as the names and URLs of the scenario. -/
def plainQuote (s : String) : String := "\"" ++ s ++ "\""

/-- The number of lines of a text: the number of its newline characters. -/
def lineCount (s : String) : Nat := s.data.count (Char.ofNat 10)

end Themis

namespace Themis

/-! ## Loading -/

/-- Modelled from the spec: what the loader, missing in the source, takes
from one record of the file to "track current depth": the number of objects
nested in it (the node, its parent, the parent of the parent and so on, each
one indentation level deeper), and the `Name` and `URL` of the node. -/
structure NodeRecord where
  level : Nat
  name : String
  url : String
  deriving DecidableEq

/-- Modelled from the spec: the decode capability of the loader, missing in
the source: Go's JSON decoder on the text of one record, `none` when the text
is not a record. -/
abbrev Decode := String → Option NodeRecord

/-- Modelled from the spec: the texts the loader, missing in the source,
finds in the file a save left, in file order: the records and, after them,
what a failed `Encode` left of its record. -/
def fileRecords (e : Encoder) : List String :=
  if e.torn = "" then e.out else e.out ++ [e.torn]

/-- Modelled from the spec: the loader, missing in the source, decoding the
texts of the file in file order; a "malformed" record is an error. -/
def decodeRecords (decode : Decode) : List String → Except String (List NodeRecord)
  | [] => Except.ok []
  | text :: rest =>
    match decode text with
    | none => Except.error "error decoding record: malformed record"
    | some r =>
      match decodeRecords decode rest with
      | Except.error err => Except.error err
      | Except.ok records => Except.ok (r :: records)

/-- Modelled from the spec: the loop of the loader `BuildTreeFromJSON`, whose
body is missing in the source.  By the spec the reader has to "read records
in file order" and "track current depth while consuming records", "via an
explicit stack of 'current ancestor at level d'", "to correctly re-attach
each record to its parent".  `stack` holds the current ancestors, the node of
the record read last first, the root last; the root is at level `base`.  A
record at level `k` is attached, with `BuildAssignmentNode` and `AppendChild`,
to the current ancestor at level `k - 1`, and is then the current ancestor at
level `k`.  A record that is not below the root or that is "nested deeper than
its predecessor's depth + 1" is an error. -/
def attachRecords (base : Nat) : List NodeRecord → List Nat → World → Except String World
  | [], _, w => Except.ok w
  | r :: rest, stack, w =>
    if r.level ≤ base then
      Except.error ("inconsistent record " ++ r.name ++ ": not below the root")
    else if stack.length < r.level - base then
      Except.error ("inconsistent record " ++ r.name ++
        ": nested deeper than the depth of its predecessor + 1")
    else
      match stack.drop (stack.length - (r.level - base)) with
      | [] => Except.error ("inconsistent record " ++ r.name ++ ": no ancestor")
      | parent :: above =>
        let built := BuildAssignmentNode (some parent) r.name r.url w
        attachRecords base rest (built.1 :: parent :: above)
          (AppendChild parent built.1 built.2)

/-- Modelled from the spec: the body of `BuildTreeFromJSON(fileName)`, which
is empty in the source (the spec's `LoadTreeFromFile`).  `files` is the file
system: what a save left in the file of a name, `none` for a file that is
missing or unreadable.  By the spec the loader "must fail with a descriptive
error (not merely return a zero-value node silently) when the file is
missing, unreadable, or contains malformed/inconsistent records", and
otherwise has to rebuild the tree from the pre-order record stream: the first
record is the root, built with `BuildRootAssignmentNode`, the others are
attached below it by `attachRecords`.  The result is the root and the state
with the nodes built. -/
def BuildTreeFromJSON (decode : Decode) (files : String → Option Encoder) (fileName : String)
    (w : World) : Except String (Nat × World) :=
  match files fileName with
  | none => Except.error ("error opening file " ++ fileName)
  | some file =>
    match decodeRecords decode (fileRecords file) with
    | Except.error err => Except.error err
    | Except.ok [] => Except.error ("error reading file " ++ fileName ++ ": no record")
    | Except.ok (r :: rest) =>
      let built := BuildRootAssignmentNode r.name r.url w
      match attachRecords r.level rest [built.1] built.2 with
      | Except.error err => Except.error err
      | Except.ok w2 => Except.ok (built.1, w2)

/-- The rest of a text after its start, when the text starts so. -/
def afterStart : List Char → List Char → Option (List Char)
  | [], text => some text
  | _ :: _, [] => none
  | c :: cs, d :: ds => if c = d then afterStart cs ds else none

/-- The lines of a text. -/
def linesOf : List Char → List (List Char)
  | [] => [[]]
  | c :: cs =>
    if c = Char.ofNat 10 then [] :: linesOf cs
    else
      match linesOf cs with
      | [] => [[c]]
      | line :: lines => (c :: line) :: lines

/-- The string value of a field of the outermost object of a record written
with `plainQuote`: the text between the quotes on the line of the field. -/
def plainField (key : String) (lines : List (List Char)) : Option String :=
  (lines.filterMap (afterStart ("    \"" ++ key ++ "\": \"").data)).head?.map
    (fun value => String.mk (value.takeWhile (fun c => c ≠ Char.ofNat 34)))

/-- A decoder for the records written with `plainQuote`, whose names and URLs
hold no quote, brace or newline: a text that ends with the closing brace of
the outermost object and a newline is read as a record, with one level for
each opening brace. -/
def plainDecode : Decode := fun text =>
  if (linesOf text.data).reverse.take 2 = ["".data, "\x7d".data] then
    match plainField "Name" (linesOf text.data), plainField "URL" (linesOf text.data) with
    | some name, some url =>
      some { level := text.data.count (Char.ofNat 123), name := name, url := url }
    | _, _ => none
  else none

/-- The file system after the scenario's tree was saved with a depth through
the JSON encoder `enc`: the output file of the save and no other file. -/
def courseFiles (enc : Encode) (depth : Int) : String → Option Encoder := fun name =>
  if name = "assignment_tree.json" then
    (SaveAssignmentTreeToJSON (Except.ok ()) (Except.ok ()) enc courseWorld.heap 0 depth).bind
      (fun r => r.file)
  else none

end Themis

namespace Themis

/-! ## Unfolding the two recursive functions -/

theorem setNode_same (h : Nat → AssignmentNode) (p : Nat) (v : AssignmentNode) :
    setNode h p v p = v := by
  simp [setNode]

theorem setNode_other (h : Nat → AssignmentNode) (p q : Nat) (v : AssignmentNode) (hq : q ≠ p) :
    setNode h p v q = h q := by
  simp [setNode, hq]

theorem pullFuel_succ (fetch : Fetch) (fuel : Nat) (URL : String) (rootNode : Nat) (depth : Int)
    (w : World) :
    pullFuel fetch (fuel + 1) URL rootNode depth w =
      match fetch w.requests URL with
      | Except.error err =>
        some (Except.error ("error getting assignments on page: " ++ err),
              { w with requests := w.requests ++ [URL] })
      | Except.ok assignments =>
        if depth > 0 then
          match buildChildren (fun u c => pullFuel fetch fuel u c (depth - 1))
              ((appendAssignments rootNode assignments
                  { w with requests := w.requests ++ [URL] }).heap rootNode).children
              (appendAssignments rootNode assignments { w with requests := w.requests ++ [URL] }) with
          | none => none
          | some (some err, w2) => some (Except.error err, w2)
          | some (none, w2) => some (Except.ok rootNode, w2)
        else
          some (Except.ok rootNode,
                appendAssignments rootNode assignments { w with requests := w.requests ++ [URL] }) :=
  rfl

theorem pullFuel_enough (fetch : Fetch) :
    ∀ (fuel : Nat) (URL : String) (rootNode : Nat) (depth : Int) (w : World),
      depth.toNat < fuel →
      pullFuel fetch fuel URL rootNode depth w =
        pullFuel fetch (depth.toNat + 1) URL rootNode depth w := by
  intro fuel
  induction fuel with
  | zero => intro _ _ _ _ h; omega
  | succ f ih =>
    intro URL rootNode depth w hlt
    by_cases hd : depth > 0
    · have h1 : depth.toNat = (depth - 1).toNat + 1 := by omega
      have hrec : (fun u c => pullFuel fetch f u c (depth - 1)) =
          (fun u c => pullFuel fetch ((depth - 1).toNat + 1) u c (depth - 1)) := by
        funext u c v
        exact ih u c (depth - 1) v (by omega)
      rw [h1, pullFuel_succ, pullFuel_succ, hrec]
    · have h0 : depth.toNat = 0 := by omega
      rw [h0]
      simp only [pullFuel, if_neg hd]

theorem pull_recur_eq (fetch : Fetch) (depth : Int) (hd : depth > 0) :
    (fun u c => pullFuel fetch depth.toNat u c (depth - 1)) =
      (fun u c => PullAssignmentsFromThemisAndBuildTree fetch u c (depth - 1)) := by
  funext u c v
  unfold PullAssignmentsFromThemisAndBuildTree
  exact pullFuel_enough fetch depth.toNat u c (depth - 1) v (by omega)

theorem pull_of_fetch_error (fetch : Fetch) (URL : String) (rootNode : Nat) (depth : Int)
    (w : World) (cause : String) (hf : fetch w.requests URL = Except.error cause) :
    PullAssignmentsFromThemisAndBuildTree fetch URL rootNode depth w =
      some (Except.error ("error getting assignments on page: " ++ cause),
            { w with requests := w.requests ++ [URL] }) := by
  simp only [PullAssignmentsFromThemisAndBuildTree, pullFuel, hf]

theorem pull_of_leaf (fetch : Fetch) (URL : String) (rootNode : Nat) (depth : Int)
    (w : World) (assignments : List Assignment)
    (hf : fetch w.requests URL = Except.ok assignments) (hd : ¬ depth > 0) :
    PullAssignmentsFromThemisAndBuildTree fetch URL rootNode depth w =
      some (Except.ok rootNode,
            appendAssignments rootNode assignments { w with requests := w.requests ++ [URL] }) := by
  simp only [PullAssignmentsFromThemisAndBuildTree, pullFuel, hf, if_neg hd]

theorem pull_of_step (fetch : Fetch) (URL : String) (rootNode : Nat) (depth : Int)
    (w : World) (assignments : List Assignment)
    (hf : fetch w.requests URL = Except.ok assignments) (hd : depth > 0) :
    PullAssignmentsFromThemisAndBuildTree fetch URL rootNode depth w =
      match buildChildren (fun u c => PullAssignmentsFromThemisAndBuildTree fetch u c (depth - 1))
          ((appendAssignments rootNode assignments
              { w with requests := w.requests ++ [URL] }).heap rootNode).children
          (appendAssignments rootNode assignments { w with requests := w.requests ++ [URL] }) with
      | none => none
      | some (some err, w2) => some (Except.error err, w2)
      | some (none, w2) => some (Except.ok rootNode, w2) := by
  unfold PullAssignmentsFromThemisAndBuildTree
  rw [pullFuel_succ, hf]
  simp only [if_pos hd]
  have h := pull_recur_eq fetch depth hd
  unfold PullAssignmentsFromThemisAndBuildTree at h
  rw [h]

theorem encodeFuel_succ (enc : Encode) (heap : Nat → AssignmentNode) (fuel : Nat) (node : Nat)
    (depth : Int) (e : Encoder) :
    encodeFuel enc heap (fuel + 1) node depth e =
      if depth < 0 then
        some (none, e)
      else
        match enc e.calls node with
        | Except.error failure =>
          some (some ("error encoding node " ++ (heap node).Name ++ ": " ++ failure.err),
                { e with calls := e.calls ++ [node], torn := e.torn ++ failure.written })
        | Except.ok record =>
          encodeChildren (fun c => encodeFuel enc heap fuel c (depth - 1)) (heap node).children
            { e with calls := e.calls ++ [node], out := e.out ++ [record] } :=
  rfl

theorem encodeFuel_enough (enc : Encode) (heap : Nat → AssignmentNode) :
    ∀ (fuel : Nat) (node : Nat) (depth : Int) (e : Encoder),
      (depth + 1).toNat < fuel →
      encodeFuel enc heap fuel node depth e =
        encodeFuel enc heap ((depth + 1).toNat + 1) node depth e := by
  intro fuel
  induction fuel with
  | zero => intro _ _ _ h; omega
  | succ f ih =>
    intro node depth e hlt
    by_cases hd : depth < 0
    · simp only [encodeFuel, if_pos hd]
    · have h1 : (depth + 1).toNat = (depth - 1 + 1).toNat + 1 := by omega
      have hrec : (fun c => encodeFuel enc heap f c (depth - 1)) =
          (fun c => encodeFuel enc heap ((depth - 1 + 1).toNat + 1) c (depth - 1)) := by
        funext c e1
        exact ih c (depth - 1) e1 (by omega)
      rw [h1, encodeFuel_succ, encodeFuel_succ, hrec]

theorem encode_of_negative (enc : Encode) (heap : Nat → AssignmentNode) (node : Nat) (depth : Int)
    (e : Encoder) (hd : depth < 0) :
    encodeAssignmentTree enc heap node depth e = some (none, e) := by
  unfold encodeAssignmentTree
  rw [encodeFuel_succ, if_pos hd]

theorem encode_of_nonneg (enc : Encode) (heap : Nat → AssignmentNode) (node : Nat) (depth : Int)
    (e : Encoder) (hd : ¬ depth < 0) :
    encodeAssignmentTree enc heap node depth e =
      match enc e.calls node with
      | Except.error failure =>
        some (some ("error encoding node " ++ (heap node).Name ++ ": " ++ failure.err),
              { e with calls := e.calls ++ [node], torn := e.torn ++ failure.written })
      | Except.ok record =>
        encodeChildren (fun c => encodeAssignmentTree enc heap c (depth - 1)) (heap node).children
          { e with calls := e.calls ++ [node], out := e.out ++ [record] } := by
  have hrec : (fun c => encodeFuel enc heap (depth + 1).toNat c (depth - 1)) =
      (fun c => encodeAssignmentTree enc heap c (depth - 1)) := by
    funext c e1
    unfold encodeAssignmentTree
    exact encodeFuel_enough enc heap _ c (depth - 1) e1 (by omega)
  unfold encodeAssignmentTree
  rw [encodeFuel_succ, if_neg hd, hrec]
  rfl

end Themis

namespace Themis

/-! ## Worlds that grow -/

theorem grows_refl (w : World) : Grows w w where
  next_le := le_refl _
  old := fun p _ => ⟨rfl, rfl, rfl, [], by simp, by simp⟩
  fresh := fun p h1 h2 => by omega
  reqs := List.prefix_refl _

theorem grows_trans {a b c : World} (hab : Grows a b) (hbc : Grows b c) : Grows a c where
  next_le := le_trans hab.next_le hbc.next_le
  old := by
    intro p hp
    obtain ⟨n1, u1, p1, e1, hc1, he1⟩ := hab.old p hp
    obtain ⟨n2, u2, p2, e2, hc2, he2⟩ := hbc.old p (lt_of_lt_of_le hp hab.next_le)
    refine ⟨n2.trans n1, u2.trans u1, p2.trans p1, e1 ++ e2, ?_, ?_⟩
    · rw [hc2, hc1, List.append_assoc]
    · intro x hx
      rcases List.mem_append.mp hx with h | h
      · have := he1 x h
        have := hbc.next_le
        omega
      · have := he2 x h
        have := hab.next_le
        omega
  fresh := by
    intro p h1 h2 x hx
    by_cases hp : p < b.next
    · obtain ⟨_, _, _, e2, hc2, he2⟩ := hbc.old p hp
      rw [hc2] at hx
      rcases List.mem_append.mp hx with h | h
      · have := hab.fresh p h1 hp x h
        have := hbc.next_le
        omega
      · have := he2 x h
        have := hab.next_le
        omega
    · have := hbc.fresh p (by omega) h2 x hx
      have := hab.next_le
      omega
  reqs := List.IsPrefix.trans hab.reqs hbc.reqs

theorem wf_of_grows {w v : World} (hw : WF w) (hg : Grows w v) : WF v := by
  intro p hp x hx
  by_cases hpw : p < w.next
  · obtain ⟨_, _, _, e, hc, he⟩ := hg.old p hpw
    rw [hc] at hx
    rcases List.mem_append.mp hx with h | h
    · have := hw p hpw x h
      have := hg.next_le
      omega
    · exact (he x h).2
  · exact (hg.fresh p (by omega) hp x hx).2

theorem grows_request (w : World) (u : String) :
    Grows w { w with requests := w.requests ++ [u] } where
  next_le := le_refl _
  old := fun p _ => ⟨rfl, rfl, rfl, [], by simp, by simp⟩
  fresh := fun p h1 h2 => by simp only at h2; omega
  reqs := List.prefix_append _ _

/-- The heap after one round of the first loop: a node is built and attached
to `r`. -/
theorem attach_heap (r : Nat) (name url : String) (w : World) (hr : r < w.next) (q : Nat) :
    (AppendChild r (BuildAssignmentNode (some r) name url w).1
        (BuildAssignmentNode (some r) name url w).2).heap q =
      if q = r then { w.heap r with children := (w.heap r).children ++ [w.next] }
      else if q = w.next then { Parent := some r, Name := name, URL := url, children := [] }
      else w.heap q := by
  have hne : r ≠ w.next := by omega
  by_cases h1 : q = r
  · subst h1
    simp [AppendChild, BuildAssignmentNode, setNode, hne]
  · by_cases h2 : q = w.next
    · subst h2
      simp [AppendChild, BuildAssignmentNode, setNode, h1]
    · simp [AppendChild, BuildAssignmentNode, setNode, h1, h2]

theorem attach_next (r : Nat) (name url : String) (w : World) :
    (AppendChild r (BuildAssignmentNode (some r) name url w).1
        (BuildAssignmentNode (some r) name url w).2).next = w.next + 1 := rfl

theorem attach_requests (r : Nat) (name url : String) (w : World) :
    (AppendChild r (BuildAssignmentNode (some r) name url w).1
        (BuildAssignmentNode (some r) name url w).2).requests = w.requests := rfl

theorem attach_grows (r : Nat) (name url : String) (w : World) (hr : r < w.next) :
    Grows w (AppendChild r (BuildAssignmentNode (some r) name url w).1
        (BuildAssignmentNode (some r) name url w).2) where
  next_le := by rw [attach_next]; omega
  old := by
    intro p hp
    rw [attach_heap r name url w hr p, attach_next]
    by_cases h1 : p = r
    · subst h1
      simp
    · have h2 : p ≠ w.next := by omega
      simp [h1, h2]
  fresh := by
    intro p h1 h2 x hx
    rw [attach_next] at h2
    have hp : p = w.next := by omega
    rw [attach_heap r name url w hr p] at hx
    have h3 : p ≠ r := by omega
    rw [if_neg h3, if_pos hp] at hx
    simp at hx
  reqs := by rw [attach_requests]

theorem appendAssignments_cons (r : Nat) (a : Assignment) (rest : List Assignment) (w : World) :
    appendAssignments r (a :: rest) w =
      appendAssignments r rest (AppendChild r (BuildAssignmentNode (some r) (a "name") (a "url") w).1
        (BuildAssignmentNode (some r) (a "name") (a "url") w).2) := rfl

theorem appendAssignments_next (r : Nat) (as : List Assignment) :
    ∀ w : World, (appendAssignments r as w).next = w.next + as.length := by
  induction as with
  | nil => intro w; rfl
  | cons a rest ih =>
    intro w
    rw [appendAssignments_cons, ih, attach_next, List.length_cons]
    omega

theorem appendAssignments_requests (r : Nat) (as : List Assignment) :
    ∀ w : World, (appendAssignments r as w).requests = w.requests := by
  induction as with
  | nil => intro w; rfl
  | cons a rest ih =>
    intro w
    rw [appendAssignments_cons, ih, attach_requests]

theorem appendAssignments_grows (r : Nat) (as : List Assignment) :
    ∀ w : World, r < w.next → Grows w (appendAssignments r as w) := by
  induction as with
  | nil => intro w _; exact grows_refl w
  | cons a rest ih =>
    intro w hr
    rw [appendAssignments_cons]
    refine grows_trans (attach_grows r (a "name") (a "url") w hr) (ih _ ?_)
    rw [attach_next]
    omega

theorem appendAssignments_other (r : Nat) (as : List Assignment) :
    ∀ w : World, r < w.next → ∀ q, q ≠ r → (q < w.next ∨ w.next + as.length ≤ q) →
      (appendAssignments r as w).heap q = w.heap q := by
  induction as with
  | nil => intro w _ q _ _; rfl
  | cons a rest ih =>
    intro w hr q hq hrange
    rw [appendAssignments_cons, ih _ (by rw [attach_next]; omega) q hq
      (by rw [attach_next]; simp only [List.length_cons] at hrange; omega),
      attach_heap r _ _ w hr q]
    have h2 : q ≠ w.next := by simp only [List.length_cons] at hrange; omega
    simp [hq, h2]

theorem appendAssignments_root (r : Nat) (as : List Assignment) :
    ∀ w : World, r < w.next →
      (appendAssignments r as w).heap r =
        { w.heap r with children := (w.heap r).children ++ List.range' w.next as.length } := by
  induction as with
  | nil => intro w _; simp [appendAssignments]
  | cons a rest ih =>
    intro w hr
    rw [appendAssignments_cons, ih _ (by rw [attach_next]; omega), attach_heap r _ _ w hr r,
      attach_next]
    simp [List.range'_succ]

theorem appendAssignments_new (r : Nat) (as : List Assignment) :
    ∀ w : World, r < w.next → ∀ (i : Nat) (hi : i < as.length),
      (appendAssignments r as w).heap (w.next + i) =
        { Parent := some r, Name := as[i] "name", URL := as[i] "url", children := [] } := by
  induction as with
  | nil => intro w _ i hi; simp at hi
  | cons a rest ih =>
    intro w hr i hi
    rw [appendAssignments_cons]
    cases i with
    | zero =>
      rw [appendAssignments_other r rest _ (by rw [attach_next]; omega) _ (by omega)
        (by rw [attach_next]; omega), attach_heap r _ _ w hr]
      have h3 : w.next + 0 ≠ r := by omega
      rw [if_neg h3, if_pos (by omega)]
      simp
    | succ j =>
      have hj : j < rest.length := by simpa using hi
      have := ih (AppendChild r (BuildAssignmentNode (some r) (a "name") (a "url") w).1
        (BuildAssignmentNode (some r) (a "name") (a "url") w).2) (by rw [attach_next]; omega) j hj
      rw [attach_next] at this
      have e : w.next + (j + 1) = w.next + 1 + j := by omega
      rw [e, this]
      simp

end Themis

namespace Themis

/-! ## Reachability and the frame of a build -/

theorem reach_head {h : Nat → AssignmentNode} {a b c : Nat} (hab : b ∈ (h a).children)
    (hbc : Reach h b c) : Reach h a c :=
  Relation.ReflTransGen.head hab hbc

theorem reach_lt {w : World} (hw : WF w) {a b : Nat} (hab : Reach w.heap a b)
    (ha : a < w.next) : b < w.next := by
  induction hab with
  | refl => exact ha
  | tail _ hbc ih => exact hw _ ih _ hbc

/-- From a childless node only the node itself is reached. -/
theorem reach_childless {h : Nat → AssignmentNode} {a b : Nat} (hc : (h a).children = [])
    (hab : Reach h a b) : b = a := by
  induction hab using Relation.ReflTransGen.head_induction_on with
  | refl => rfl
  | head hstep _ _ => rw [hc] at hstep; simp at hstep

/-- A path of the later world that ends in a node of the earlier world is a
path of the earlier world. -/
theorem reach_old_of_grows {w v : World} (hg : Grows w v) (hv : WF v) {a p : Nat}
    (hr : Reach v.heap a p) (hp : p < w.next) :
    a < v.next → a < w.next ∧ Reach w.heap a p := by
  induction hr using Relation.ReflTransGen.head_induction_on with
  | refl => intro _; exact ⟨hp, Relation.ReflTransGen.refl⟩
  | @head a b hab _ ih =>
    intro ha
    obtain ⟨_, hreach⟩ := ih (hv _ ha _ hab)
    by_cases haw : a < w.next
    · obtain ⟨_, _, _, e, hc, he⟩ := hg.old a haw
      rw [hc] at hab
      rcases List.mem_append.mp hab with h | h
      · exact ⟨haw, reach_head h hreach⟩
      · have := (he _ h).1
        have := (ih (hv _ ha _ (by rw [hc]; exact List.mem_append_right _ h))).1
        omega
    · have := (hg.fresh a (by omega) ha _ hab).1
      have := (ih (hv _ ha _ hab)).1
      omega

/-- What lies below a node of the later world that was childless in the
earlier world is the node itself or was allocated in between. -/
theorem reach_fresh_of_grows {w v : World} (hg : Grows w v) {r q : Nat}
    (hr : r < w.next) (hc : (w.heap r).children = []) (hq : Reach v.heap r q) :
    q = r ∨ (w.next ≤ q ∧ q < v.next) := by
  induction hq with
  | refl => exact Or.inl rfl
  | @tail a b _ hstep ih =>
    rcases ih with h | h
    · subst h
      obtain ⟨_, _, _, e, hce, he⟩ := hg.old a hr
      rw [hce, hc, List.nil_append] at hstep
      exact Or.inr (he _ hstep)
    · exact Or.inr (hg.fresh a h.1 h.2 _ hstep)

theorem buildChildren_nil (recur : String → Nat → World → Option (Except String Nat × World))
    (w : World) : buildChildren recur [] w = some (none, w) := rfl

theorem buildChildren_cons (recur : String → Nat → World → Option (Except String Nat × World))
    (child : Nat) (rest : List Nat) (w : World) :
    buildChildren recur (child :: rest) w =
      match recur (w.heap child).URL child w with
      | none => none
      | some (Except.error err, w1) => some (some ("error building tree: " ++ err), w1)
      | some (Except.ok _, w1) => buildChildren recur rest w1 := rfl

/-- The second loop changes no node of the starting world that none of the
listed children reaches, provided each call behaves so. -/
theorem buildChildren_frame
    (recur : String → Nat → World → Option (Except String Nat × World))
    (hrec : ∀ u c v res v1, WF v → c < v.next → recur u c v = some (res, v1) →
      Grows v v1 ∧ ∀ p, p < v.next → ¬ Reach v.heap c p → v1.heap p = v.heap p) :
    ∀ (cs : List Nat) (v : World) (res : Option String) (v2 : World), WF v →
      (∀ c ∈ cs, c < v.next) → buildChildren recur cs v = some (res, v2) →
      Grows v v2 ∧ ∀ p, p < v.next → (∀ c ∈ cs, ¬ Reach v.heap c p) → v2.heap p = v.heap p := by
  intro cs
  induction cs with
  | nil =>
    intro v res v2 _ _ hb
    rw [buildChildren_nil] at hb
    simp only [Option.some.injEq, Prod.mk.injEq] at hb
    obtain ⟨-, rfl⟩ := hb
    exact ⟨grows_refl v, fun _ _ _ => rfl⟩
  | cons c rest ih =>
    intro v res v2 hv hlt hb
    rw [buildChildren_cons] at hb
    cases hcall : recur (v.heap c).URL c v with
    | none => rw [hcall] at hb; simp at hb
    | some pr =>
      obtain ⟨res1, v1⟩ := pr
      obtain ⟨hg1, hf1⟩ := hrec _ c v res1 v1 hv (hlt c (List.mem_cons_self _ _)) hcall
      rw [hcall] at hb
      cases res1 with
      | error e =>
        simp only [Option.some.injEq, Prod.mk.injEq] at hb
        obtain ⟨-, rfl⟩ := hb
        exact ⟨hg1, fun p hp hn => hf1 p hp (hn c (List.mem_cons_self _ _))⟩
      | ok x =>
        simp only at hb
        have hv1 : WF v1 := wf_of_grows hv hg1
        have hlt1 : ∀ c1 ∈ rest, c1 < v1.next := fun c1 h1 =>
          lt_of_lt_of_le (hlt c1 (List.mem_cons_of_mem _ h1)) hg1.next_le
        obtain ⟨hg2, hf2⟩ := ih v1 res v2 hv1 hlt1 hb
        refine ⟨grows_trans hg1 hg2, ?_⟩
        intro p hp hn
        rw [hf2 p (lt_of_lt_of_le hp hg1.next_le), hf1 p hp (hn c (List.mem_cons_self _ _))]
        intro c1 h1 hreach
        exact hn c1 (List.mem_cons_of_mem _ h1)
          (reach_old_of_grows hg1 hv1 hreach hp (hlt1 c1 h1)).2

theorem wf_request {w : World} (hw : WF w) (u : String) :
    WF { w with requests := w.requests ++ [u] } := hw

/-- A build only adds to the world, and changes no node of the starting world
that cannot be reached from the node it was given. -/
theorem pull_grows_frame (fetch : Fetch) (depth : Int) :
    ∀ (url : String) (r : Nat) (w : World) (res : Except String Nat) (w2 : World),
      WF w → r < w.next →
      PullAssignmentsFromThemisAndBuildTree fetch url r depth w = some (res, w2) →
      Grows w w2 ∧ ∀ p, p < w.next → ¬ Reach w.heap r p → w2.heap p = w.heap p := by
  generalize hn : depth.toNat = n
  induction n using Nat.strong_induction_on generalizing depth with
  | _ n ih =>
    intro url r w res w2 hw hr hp
    cases hf : fetch w.requests url with
    | error e =>
      rw [pull_of_fetch_error fetch url r depth w e hf] at hp
      simp only [Option.some.injEq, Prod.mk.injEq] at hp
      obtain ⟨-, rfl⟩ := hp
      exact ⟨grows_request w url, fun _ _ _ => rfl⟩
    | ok as =>
      have hg1 : Grows w (appendAssignments r as { w with requests := w.requests ++ [url] }) :=
        grows_trans (grows_request w url)
          (appendAssignments_grows r as { w with requests := w.requests ++ [url] } hr)
      have hf1 : ∀ p, p < w.next → ¬ Reach w.heap r p →
          (appendAssignments r as { w with requests := w.requests ++ [url] }).heap p = w.heap p := by
        intro p hp hnr
        have hpr : p ≠ r := fun h => hnr (h ▸ Relation.ReflTransGen.refl)
        exact appendAssignments_other r as { w with requests := w.requests ++ [url] } hr p hpr
          (Or.inl hp)
      by_cases hd : depth > 0
      · rw [pull_of_step fetch url r depth w as hf hd] at hp
        have hw1 := wf_of_grows hw hg1
        have hr1 : r < (appendAssignments r as { w with requests := w.requests ++ [url] }).next :=
          lt_of_lt_of_le hr hg1.next_le
        have hloop := buildChildren_frame
          (fun u c => PullAssignmentsFromThemisAndBuildTree fetch u c (depth - 1))
          (fun u c v res v1 hv hc hcall =>
            ih (depth - 1).toNat (by omega) (depth - 1) rfl u c v res v1 hv hc hcall)
          ((appendAssignments r as { w with requests := w.requests ++ [url] }).heap r).children
          (appendAssignments r as { w with requests := w.requests ++ [url] })
        have hfin : ∀ resb v2,
            buildChildren (fun u c => PullAssignmentsFromThemisAndBuildTree fetch u c (depth - 1))
              ((appendAssignments r as { w with requests := w.requests ++ [url] }).heap r).children
              (appendAssignments r as { w with requests := w.requests ++ [url] }) = some (resb, v2) →
            Grows w v2 ∧ ∀ p, p < w.next → ¬ Reach w.heap r p → v2.heap p = w.heap p := by
          intro resb v2 hb
          obtain ⟨hg2, hf2⟩ := hloop resb v2 hw1 (fun c hc => hw1 r hr1 c hc) hb
          refine ⟨grows_trans hg1 hg2, ?_⟩
          intro p hp hnr
          rw [hf2 p (lt_of_lt_of_le hp hg1.next_le), hf1 p hp hnr]
          intro c hc hreach
          obtain ⟨hcw, hrw⟩ := reach_old_of_grows hg1 hw1 hreach hp (hw1 r hr1 c hc)
          rw [appendAssignments_root r as { w with requests := w.requests ++ [url] } hr] at hc
          simp only [List.mem_append, List.mem_range'_1] at hc
          rcases hc with h | h
          · exact hnr (reach_head h hrw)
          · have := h.1
            simp only at this
            omega
        cases hb : buildChildren
            (fun u c => PullAssignmentsFromThemisAndBuildTree fetch u c (depth - 1))
            ((appendAssignments r as { w with requests := w.requests ++ [url] }).heap r).children
            (appendAssignments r as { w with requests := w.requests ++ [url] }) with
        | none => rw [hb] at hp; simp at hp
        | some pr =>
          obtain ⟨resb, v2⟩ := pr
          rw [hb] at hp
          cases resb with
          | none =>
            simp only [Option.some.injEq, Prod.mk.injEq] at hp
            obtain ⟨-, rfl⟩ := hp
            exact hfin _ _ hb
          | some e =>
            simp only [Option.some.injEq, Prod.mk.injEq] at hp
            obtain ⟨-, rfl⟩ := hp
            exact hfin _ _ hb
      · rw [pull_of_leaf fetch url r depth w as hf hd] at hp
        simp only [Option.some.injEq, Prod.mk.injEq] at hp
        obtain ⟨-, rfl⟩ := hp
        exact ⟨hg1, hf1⟩

end Themis

namespace Themis

/-! ## Levels and counts -/

theorem mem_levelNodes_reach {h : Nat → AssignmentNode} :
    ∀ (k p q : Nat), q ∈ levelNodes h p k → Reach h p q := by
  intro k
  induction k with
  | zero =>
    intro p q hq
    simp only [levelNodes, List.mem_singleton] at hq
    subst hq
    exact Relation.ReflTransGen.refl
  | succ k ih =>
    intro p q hq
    simp only [levelNodes, List.mem_flatMap] at hq
    obtain ⟨c, hc, hq⟩ := hq
    exact reach_head hc (ih c q hq)

/-- The levels below a node only depend on the nodes reached from it. -/
theorem levelNodes_congr {h h2 : Nat → AssignmentNode} :
    ∀ (k p : Nat), (∀ q, Reach h p q → h2 q = h q) → levelNodes h2 p k = levelNodes h p k := by
  intro k
  induction k with
  | zero => intro p _; rfl
  | succ k ih =>
    intro p hagree
    simp only [levelNodes]
    rw [hagree p Relation.ReflTransGen.refl]
    exact List.flatMap_congr (fun c hc => ih c (fun q hq => hagree q (reach_head hc hq)))

theorem countWithin_congr {h h2 : Nat → AssignmentNode} (p d : Nat)
    (hagree : ∀ q, Reach h p q → h2 q = h q) : countWithin h2 p d = countWithin h p d := by
  unfold countWithin
  congr 1
  exact List.map_congr_left (fun k _ => by rw [levelNodes_congr k p hagree])

theorem levelNodes_succ_right (h : Nat → AssignmentNode) :
    ∀ (k p : Nat), levelNodes h p (k + 1) = (levelNodes h p k).flatMap (fun q => (h q).children) := by
  intro k
  induction k with
  | zero => intro p; simp [levelNodes]
  | succ k ih =>
    intro p
    have h1 : levelNodes h p (k + 1 + 1) =
        (h p).children.flatMap (fun c => levelNodes h c (k + 1)) := rfl
    have h2 : levelNodes h p (k + 1) = (h p).children.flatMap (fun c => levelNodes h c k) := rfl
    rw [h1, h2, List.flatMap_assoc]
    exact List.flatMap_congr (fun c _ => ih c)

theorem levelNodes_nil_of_childless (h : Nat → AssignmentNode) (p k : Nat)
    (hk : ∀ q ∈ levelNodes h p k, (h q).children = []) :
    ∀ j, k < j → levelNodes h p j = [] := by
  intro j hj
  induction j with
  | zero => omega
  | succ j ih =>
    rw [levelNodes_succ_right]
    by_cases hjk : k = j
    · subst hjk
      exact List.flatMap_eq_nil_iff.mpr hk
    · rw [ih (by omega)]
      rfl

theorem sum_map_sum_swap {α β : Type} (f : α → β → Nat) (cs : List α) (ks : List β) :
    (ks.map (fun k => (cs.map (fun c => f c k)).sum)).sum =
      (cs.map (fun c => (ks.map (fun k => f c k)).sum)).sum := by
  induction cs with
  | nil => simp
  | cons c rest ih =>
    simp only [List.map_cons, List.sum_cons]
    rw [List.sum_map_add, ih]

theorem countWithin_zero (h : Nat → AssignmentNode) (p : Nat) : countWithin h p 0 = 1 := by
  simp [countWithin, levelNodes, List.range_succ]

theorem countWithin_succ (h : Nat → AssignmentNode) (p d : Nat) :
    countWithin h p (d + 1) = 1 + ((h p).children.map (fun c => countWithin h c d)).sum := by
  unfold countWithin
  rw [List.range_succ_eq_map (d + 1), List.map_cons, List.sum_cons, List.map_map]
  have h1 : (levelNodes h p 0).length = 1 := rfl
  have h2 : ((fun k => (levelNodes h p k).length) ∘ Nat.succ) =
      (fun k => ((h p).children.map (fun c => (levelNodes h c k).length)).sum) := by
    funext k
    simp only [Function.comp, levelNodes, List.length_flatMap]
    rfl
  rw [h1, h2, sum_map_sum_swap]

end Themis

namespace Themis

/-! ## Building below a childless node -/

/-- The second loop over children that are all childless when it starts: each
subtree ends `n + 1` levels down and costs one request per node at levels
`0..n`. -/
theorem buildChildren_childless
    (recur : String → Nat → World → Option (Except String Nat × World)) (n : Nat)
    (hframe : ∀ u c v res v1, WF v → c < v.next → recur u c v = some (res, v1) →
      Grows v v1 ∧ ∀ p, p < v.next → ¬ Reach v.heap c p → v1.heap p = v.heap p)
    (hrec : ∀ u c v x v1, WF v → c < v.next → (v.heap c).children = [] →
      recur u c v = some (Except.ok x, v1) →
      (∀ p ∈ levelNodes v1.heap c (n + 1), (v1.heap p).children = []) ∧
      v1.requests.length = v.requests.length + countWithin v1.heap c n) :
    ∀ (cs : List Nat) (v v2 : World), WF v → cs.Nodup →
      (∀ c ∈ cs, c < v.next ∧ (v.heap c).children = []) →
      buildChildren recur cs v = some (none, v2) →
      Grows v v2 ∧ (∀ p, p < v.next → p ∉ cs → v2.heap p = v.heap p) ∧
      (∀ c ∈ cs, ∀ p ∈ levelNodes v2.heap c (n + 1), (v2.heap p).children = []) ∧
      v2.requests.length = v.requests.length + (cs.map (fun c => countWithin v2.heap c n)).sum := by
  intro cs
  induction cs with
  | nil =>
    intro v v2 _ _ _ hb
    rw [buildChildren_nil] at hb
    simp only [Option.some.injEq, Prod.mk.injEq, true_and] at hb
    subst hb
    exact ⟨grows_refl v, fun _ _ _ => rfl, fun c hc => by simp at hc, by simp⟩
  | cons c rest ih =>
    intro v v2 hv hnd hcs hb
    rw [buildChildren_cons] at hb
    obtain ⟨hcv, hcc⟩ := hcs c (List.mem_cons_self _ _)
    obtain ⟨hcrest, hndrest⟩ := List.nodup_cons.mp hnd
    cases hcall : recur (v.heap c).URL c v with
    | none => rw [hcall] at hb; simp at hb
    | some pr =>
      obtain ⟨res1, v1⟩ := pr
      rw [hcall] at hb
      cases res1 with
      | error e => simp at hb
      | ok x =>
        simp only at hb
        obtain ⟨hg1, hf1⟩ := hframe _ c v _ v1 hv hcv hcall
        obtain ⟨hlev1, hreq1⟩ := hrec _ c v x v1 hv hcv hcc hcall
        have hv1 : WF v1 := wf_of_grows hv hg1
        have hsame1 : ∀ p, p < v.next → p ≠ c → v1.heap p = v.heap p := fun p hp hpc =>
          hf1 p hp (fun hreach => hpc (reach_childless hcc hreach))
        have hcs1 : ∀ c1 ∈ rest, c1 < v1.next ∧ (v1.heap c1).children = [] := by
          intro c1 h1
          obtain ⟨hlt, hch⟩ := hcs c1 (List.mem_cons_of_mem _ h1)
          have hne : c1 ≠ c := fun h => hcrest (h ▸ h1)
          exact ⟨lt_of_lt_of_le hlt hg1.next_le, by rw [hsame1 c1 hlt hne]; exact hch⟩
        obtain ⟨hg2, hf2, hlev2, hreq2⟩ := ih v1 v2 hv1 hndrest hcs1 hb
        have hagree : ∀ q, Reach v1.heap c q → v2.heap q = v1.heap q := by
          intro q hq
          have hqlt : q < v1.next := reach_lt hv1 hq (lt_of_lt_of_le hcv hg1.next_le)
          refine hf2 q hqlt ?_
          intro hmem
          rcases reach_fresh_of_grows hg1 hcv hcc hq with h | h
          · exact hcrest (h ▸ hmem)
          · have := (hcs q (List.mem_cons_of_mem _ hmem)).1
            omega
        refine ⟨grows_trans hg1 hg2, ?_, ?_, ?_⟩
        · intro p hp hpn
          rw [hf2 p (lt_of_lt_of_le hp hg1.next_le) (fun h => hpn (List.mem_cons_of_mem _ h)),
            hsame1 p hp (fun h => hpn (h ▸ List.mem_cons_self _ _))]
        · intro c1 h1 p hp
          rcases List.mem_cons.mp h1 with h | h
          · subst h
            rw [levelNodes_congr (n + 1) c1 hagree] at hp
            rw [hagree p (mem_levelNodes_reach _ _ _ hp)]
            exact hlev1 p hp
          · exact hlev2 c1 h p hp
        · rw [List.map_cons, List.sum_cons, countWithin_congr c n hagree, hreq2, hreq1]
          omega

/-- A successful build below a childless node: the nodes `depth + 1` levels
down are childless, and one request was made per node at levels `0..depth`. -/
theorem pull_childless (fetch : Fetch) (depth : Int) :
    ∀ (url : String) (r : Nat) (w : World) (x : Nat) (w2 : World),
      WF w → r < w.next → (w.heap r).children = [] →
      PullAssignmentsFromThemisAndBuildTree fetch url r depth w = some (Except.ok x, w2) →
      (∀ p ∈ levelNodes w2.heap r (depth.toNat + 1), (w2.heap p).children = []) ∧
      w2.requests.length = w.requests.length + countWithin w2.heap r depth.toNat := by
  generalize hn : depth.toNat = n
  induction n using Nat.strong_induction_on generalizing depth with
  | _ n ih =>
    intro url r w x w2 hw hr hc hp
    cases hf : fetch w.requests url with
    | error e =>
      rw [pull_of_fetch_error fetch url r depth w e hf] at hp
      simp at hp
    | ok as =>
      have hroot := appendAssignments_root r as { w with requests := w.requests ++ [url] } hr
      have hnew := appendAssignments_new r as { w with requests := w.requests ++ [url] } hr
      have hnext := appendAssignments_next r as { w with requests := w.requests ++ [url] }
      have hreqs := appendAssignments_requests r as { w with requests := w.requests ++ [url] }
      have hg1 := appendAssignments_grows r as { w with requests := w.requests ++ [url] } hr
      have hw1 : WF (appendAssignments r as { w with requests := w.requests ++ [url] }) :=
        wf_of_grows (wf_request hw url) hg1
      simp only at hroot hnew hnext hreqs
      rw [hc, List.nil_append] at hroot
      have hkids : ∀ c ∈ List.range' w.next as.length,
          c < (appendAssignments r as { w with requests := w.requests ++ [url] }).next ∧
          ((appendAssignments r as { w with requests := w.requests ++ [url] }).heap c).children
            = [] := by
        intro c hcm
        rw [List.mem_range'_1] at hcm
        refine ⟨by rw [hnext]; exact hcm.2, ?_⟩
        have hi : c - w.next < as.length := by omega
        have := hnew (c - w.next) hi
        rw [show w.next + (c - w.next) = c by omega] at this
        rw [this]
      by_cases hd : depth > 0
      · rw [pull_of_step fetch url r depth w as hf hd] at hp
        obtain ⟨m, hm⟩ : ∃ m, n = m + 1 := ⟨n - 1, by omega⟩
        have hdm : (depth - 1).toNat = m := by omega
        cases hb : buildChildren
            (fun u c => PullAssignmentsFromThemisAndBuildTree fetch u c (depth - 1))
            ((appendAssignments r as { w with requests := w.requests ++ [url] }).heap r).children
            (appendAssignments r as { w with requests := w.requests ++ [url] }) with
        | none => rw [hb] at hp; simp at hp
        | some pr =>
          obtain ⟨resb, v2⟩ := pr
          rw [hb] at hp
          cases resb with
          | some e => simp at hp
          | none =>
            simp only [Option.some.injEq, Prod.mk.injEq] at hp
            obtain ⟨-, rfl⟩ := hp
            rw [hroot] at hb
            obtain ⟨hg2, hf2, hlev2, hreq2⟩ := buildChildren_childless
              (fun u c => PullAssignmentsFromThemisAndBuildTree fetch u c (depth - 1)) m
              (fun u c v res v1 hv hcv hcall => pull_grows_frame fetch (depth - 1) u c v res v1 hv hcv hcall)
              (fun u c v x v1 hv hcv hcc hcall => by
                have := ih m (by omega) (depth - 1) hdm u c v x v1 hv hcv hcc hcall
                exact this)
              (List.range' w.next as.length) _ v2 hw1 (List.nodup_range' _ _) hkids hb
            have hrsame : v2.heap r =
                (appendAssignments r as { w with requests := w.requests ++ [url] }).heap r := by
              refine hf2 r (lt_of_lt_of_le hr hg1.next_le) ?_
              intro hmem
              rw [List.mem_range'_1] at hmem
              omega
            have hkids2 : (v2.heap r).children = List.range' w.next as.length := by
              rw [hrsame, hroot]
            constructor
            · intro p hp
              rw [hm] at hp
              have hunf : levelNodes v2.heap r (m + 1 + 1) =
                  (v2.heap r).children.flatMap (fun c => levelNodes v2.heap c (m + 1)) := rfl
              rw [hunf, hkids2, List.mem_flatMap] at hp
              obtain ⟨c, hcm, hpc⟩ := hp
              exact hlev2 c hcm p hpc
            · rw [hm, countWithin_succ, hkids2, hreq2, hreqs]
              simp only [List.length_append, List.length_singleton]
              omega
      · rw [pull_of_leaf fetch url r depth w as hf hd] at hp
        simp only [Option.some.injEq, Prod.mk.injEq] at hp
        obtain ⟨-, rfl⟩ := hp
        have hn0 : n = 0 := by omega
        subst hn0
        constructor
        · intro p hp
          have hunf : levelNodes
              (appendAssignments r as { w with requests := w.requests ++ [url] }).heap r (0 + 1) =
              ((appendAssignments r as { w with requests := w.requests ++ [url] }).heap r).children.flatMap
                (fun c => [c]) := rfl
          rw [hunf, hroot] at hp
          simp only [List.mem_flatMap, List.mem_singleton] at hp
          obtain ⟨c, hcm, rfl⟩ := hp
          exact (hkids p hcm).2
        · rw [countWithin_zero, hreqs]
          simp

end Themis

namespace Themis

/-! ## The root after a build, the point of failure, totality -/

/-- A successful build returns the node it was given. -/
theorem pull_ok_root (fetch : Fetch) (depth : Int) (url : String) (r : Nat) (w : World)
    (x : Nat) (w2 : World)
    (hp : PullAssignmentsFromThemisAndBuildTree fetch url r depth w = some (Except.ok x, w2)) :
    x = r := by
  cases hf : fetch w.requests url with
  | error e => rw [pull_of_fetch_error fetch url r depth w e hf] at hp; simp at hp
  | ok as =>
    by_cases hd : depth > 0
    · rw [pull_of_step fetch url r depth w as hf hd] at hp
      cases hb : buildChildren
          (fun u c => PullAssignmentsFromThemisAndBuildTree fetch u c (depth - 1))
          ((appendAssignments r as { w with requests := w.requests ++ [url] }).heap r).children
          (appendAssignments r as { w with requests := w.requests ++ [url] }) with
      | none => rw [hb] at hp; simp at hp
      | some pr =>
        obtain ⟨resb, v2⟩ := pr
        rw [hb] at hp
        cases resb with
        | some e => simp at hp
        | none =>
          simp only [Option.some.injEq, Prod.mk.injEq, Except.ok.injEq] at hp
          exact hp.1.symm
    · rw [pull_of_leaf fetch url r depth w as hf hd] at hp
      simp only [Option.some.injEq, Prod.mk.injEq, Except.ok.injEq] at hp
      exact hp.1.symm

/-- The node given to a build whose fetch listed `as`, after the build,
whether the build met an error further down or not: it keeps its name, URL and
parent; it has gained one child per listed assignment, allocated in listing
order, each with the listed name and URL and with the node as parent; what it
gained beyond these (`extra`) was appended by nested calls that reached the
node again, and there is none when its children did not reach it. -/
theorem pull_root_state (fetch : Fetch) (depth : Int) (url : String) (r : Nat) (w : World)
    (res : Except String Nat) (w2 : World) (as : List Assignment) (hw : WF w) (hr : r < w.next)
    (hf : fetch w.requests url = Except.ok as)
    (hp : PullAssignmentsFromThemisAndBuildTree fetch url r depth w = some (res, w2)) :
    (w2.heap r).Name = (w.heap r).Name ∧ (w2.heap r).URL = (w.heap r).URL ∧
    (w2.heap r).Parent = (w.heap r).Parent ∧
    (∃ extra, (w2.heap r).children =
        (w.heap r).children ++ List.range' w.next as.length ++ extra ∧
      ((∀ c ∈ (w.heap r).children, ¬ Reach w.heap c r) → extra = [])) ∧
    ∀ (i : Nat) (hi : i < as.length),
      (w2.heap (w.next + i)).Name = as[i] "name" ∧ (w2.heap (w.next + i)).URL = as[i] "url" ∧
      (w2.heap (w.next + i)).Parent = some r := by
  have hroot := appendAssignments_root r as { w with requests := w.requests ++ [url] } hr
  have hnew := appendAssignments_new r as { w with requests := w.requests ++ [url] } hr
  have hnext := appendAssignments_next r as { w with requests := w.requests ++ [url] }
  have hg1 : Grows w (appendAssignments r as { w with requests := w.requests ++ [url] }) :=
    grows_trans (grows_request w url)
      (appendAssignments_grows r as { w with requests := w.requests ++ [url] } hr)
  have hw1 := wf_of_grows hw hg1
  have hr1 := lt_of_lt_of_le hr hg1.next_le
  simp only at hroot hnew hnext
  -- the state after the first loop, and what any later growth keeps of it
  have hkeep : ∀ v2 : World,
      Grows (appendAssignments r as { w with requests := w.requests ++ [url] }) v2 →
      ((∀ c ∈ (w.heap r).children, ¬ Reach w.heap c r) →
        v2.heap r = (appendAssignments r as { w with requests := w.requests ++ [url] }).heap r) →
      (v2.heap r).Name = (w.heap r).Name ∧ (v2.heap r).URL = (w.heap r).URL ∧
      (v2.heap r).Parent = (w.heap r).Parent ∧
      (∃ extra, (v2.heap r).children =
          (w.heap r).children ++ List.range' w.next as.length ++ extra ∧
        ((∀ c ∈ (w.heap r).children, ¬ Reach w.heap c r) → extra = [])) ∧
      ∀ (i : Nat) (hi : i < as.length),
        (v2.heap (w.next + i)).Name = as[i] "name" ∧ (v2.heap (w.next + i)).URL = as[i] "url" ∧
        (v2.heap (w.next + i)).Parent = some r := by
    intro v2 hg2 hsame
    obtain ⟨hn, hu, hpar, extra, hkids, -⟩ := hg2.old r hr1
    rw [hroot] at hn hu hpar hkids
    simp only at hn hu hpar hkids
    refine ⟨hn, hu, hpar, ⟨extra, hkids, ?_⟩, ?_⟩
    · intro hacyc
      have h := hsame hacyc
      rw [hroot] at h
      rw [h] at hkids
      simp only at hkids
      exact List.self_eq_append_right.mp hkids
    · intro i hi
      obtain ⟨hn, hu, hpar, -⟩ := hg2.old (w.next + i) (by rw [hnext]; omega)
      rw [hnew i hi] at hn hu hpar
      exact ⟨hn, hu, hpar⟩
  by_cases hd : depth > 0
  · rw [pull_of_step fetch url r depth w as hf hd] at hp
    have hfin : ∀ resb v2,
        buildChildren (fun u c => PullAssignmentsFromThemisAndBuildTree fetch u c (depth - 1))
          ((appendAssignments r as { w with requests := w.requests ++ [url] }).heap r).children
          (appendAssignments r as { w with requests := w.requests ++ [url] }) = some (resb, v2) →
        Grows (appendAssignments r as { w with requests := w.requests ++ [url] }) v2 ∧
        ((∀ c ∈ (w.heap r).children, ¬ Reach w.heap c r) →
          v2.heap r =
            (appendAssignments r as { w with requests := w.requests ++ [url] }).heap r) := by
      intro resb v2 hb
      obtain ⟨hg2, hf2⟩ := buildChildren_frame
        (fun u c => PullAssignmentsFromThemisAndBuildTree fetch u c (depth - 1))
        (fun u c v res v1 hv hcv hcall =>
          pull_grows_frame fetch (depth - 1) u c v res v1 hv hcv hcall)
        _ _ resb v2 hw1 (fun c hc => hw1 r hr1 c hc) hb
      refine ⟨hg2, fun hacyc => hf2 r hr1 ?_⟩
      intro c hc hreach
      obtain ⟨hcw, hrw⟩ := reach_old_of_grows hg1 hw1 hreach hr (hw1 r hr1 c hc)
      rw [hroot] at hc
      simp only [List.mem_append, List.mem_range'_1] at hc
      rcases hc with h | h
      · exact hacyc c h hrw
      · omega
    cases hb : buildChildren
        (fun u c => PullAssignmentsFromThemisAndBuildTree fetch u c (depth - 1))
        ((appendAssignments r as { w with requests := w.requests ++ [url] }).heap r).children
        (appendAssignments r as { w with requests := w.requests ++ [url] }) with
    | none => rw [hb] at hp; simp at hp
    | some pr =>
      obtain ⟨resb, v2⟩ := pr
      rw [hb] at hp
      obtain ⟨hg2, hsame⟩ := hfin resb v2 hb
      cases resb with
      | some e =>
        simp only [Option.some.injEq, Prod.mk.injEq] at hp
        obtain ⟨-, rfl⟩ := hp
        exact hkeep v2 hg2 hsame
      | none =>
        simp only [Option.some.injEq, Prod.mk.injEq] at hp
        obtain ⟨-, rfl⟩ := hp
        exact hkeep v2 hg2 hsame
  · rw [pull_of_leaf fetch url r depth w as hf hd] at hp
    simp only [Option.some.injEq, Prod.mk.injEq] at hp
    obtain ⟨-, rfl⟩ := hp
    exact hkeep _ (grows_refl _) (fun _ => rfl)

/-- The second loop over a list in two parts: the second part only runs when
the first part met no error. -/
theorem buildChildren_append
    (recur : String → Nat → World → Option (Except String Nat × World)) :
    ∀ (pre rest : List Nat) (w : World),
      buildChildren recur (pre ++ rest) w =
        match buildChildren recur pre w with
        | none => none
        | some (some err, v) => some (some err, v)
        | some (none, v) => buildChildren recur rest v := by
  intro pre
  induction pre with
  | nil => intro rest w; rfl
  | cons c pre ih =>
    intro rest w
    rw [List.cons_append, buildChildren_cons, buildChildren_cons]
    cases hcall : recur (w.heap c).URL c w with
    | none => rfl
    | some pr =>
      obtain ⟨res1, v1⟩ := pr
      cases res1 with
      | error e => rfl
      | ok x => exact ih rest v1

theorem buildChildren_total
    (recur : String → Nat → World → Option (Except String Nat × World))
    (hrec : ∀ u c v, (recur u c v).isSome) :
    ∀ (cs : List Nat) (w : World), (buildChildren recur cs w).isSome := by
  intro cs
  induction cs with
  | nil => intro w; rfl
  | cons c rest ih =>
    intro w
    rw [buildChildren_cons]
    have h := hrec (w.heap c).URL c w
    cases hcall : recur (w.heap c).URL c w with
    | none => rw [hcall] at h; simp at h
    | some pr =>
      obtain ⟨res1, v1⟩ := pr
      cases res1 with
      | error e => rfl
      | ok x => exact ih v1

/-- The build returns for every depth, every fetch and every world. -/
theorem pull_total (fetch : Fetch) (depth : Int) :
    ∀ (url : String) (r : Nat) (w : World),
      (PullAssignmentsFromThemisAndBuildTree fetch url r depth w).isSome := by
  generalize hn : depth.toNat = n
  induction n using Nat.strong_induction_on generalizing depth with
  | _ n ih =>
    intro url r w
    cases hf : fetch w.requests url with
    | error e => rw [pull_of_fetch_error fetch url r depth w e hf]; rfl
    | ok as =>
      by_cases hd : depth > 0
      · rw [pull_of_step fetch url r depth w as hf hd]
        have h := buildChildren_total
          (fun u c => PullAssignmentsFromThemisAndBuildTree fetch u c (depth - 1))
          (fun u c v => ih (depth - 1).toNat (by omega) (depth - 1) rfl u c v)
          ((appendAssignments r as { w with requests := w.requests ++ [url] }).heap r).children
          (appendAssignments r as { w with requests := w.requests ++ [url] })
        cases hb : buildChildren
            (fun u c => PullAssignmentsFromThemisAndBuildTree fetch u c (depth - 1))
            ((appendAssignments r as { w with requests := w.requests ++ [url] }).heap r).children
            (appendAssignments r as { w with requests := w.requests ++ [url] }) with
        | none => rw [hb] at h; simp at h
        | some pr =>
          obtain ⟨resb, v2⟩ := pr
          cases resb with
          | some e => rfl
          | none => rfl
      · rw [pull_of_leaf fetch url r depth w as hf hd]; rfl

end Themis

namespace Themis

/-! ## Saving is encoding the bounded pre-order -/

theorem encodeInOrder_nil (enc : Encode) (h : Nat → AssignmentNode) (e : Encoder) :
    encodeInOrder enc h [] e = (none, e) := rfl

theorem encodeInOrder_cons (enc : Encode) (h : Nat → AssignmentNode) (p : Nat) (rest : List Nat)
    (e : Encoder) :
    encodeInOrder enc h (p :: rest) e =
      match enc e.calls p with
      | Except.error failure =>
        (some ("error encoding node " ++ (h p).Name ++ ": " ++ failure.err),
         { e with calls := e.calls ++ [p], torn := e.torn ++ failure.written })
      | Except.ok record =>
        encodeInOrder enc h rest { e with calls := e.calls ++ [p], out := e.out ++ [record] } := rfl

theorem encodeInOrder_append (enc : Encode) (h : Nat → AssignmentNode) :
    ∀ (xs ys : List Nat) (e : Encoder),
      encodeInOrder enc h (xs ++ ys) e =
        match encodeInOrder enc h xs e with
        | (none, e1) => encodeInOrder enc h ys e1
        | (some err, e1) => (some err, e1) := by
  intro xs
  induction xs with
  | nil => intro ys e; rfl
  | cons p rest ih =>
    intro ys e
    rw [List.cons_append, encodeInOrder_cons, encodeInOrder_cons]
    cases henc : enc e.calls p with
    | error err => rfl
    | ok record => exact ih ys _

theorem encodeChildren_nil (recur : Nat → Encoder → Option (Option String × Encoder))
    (e : Encoder) : encodeChildren recur [] e = some (none, e) := rfl

theorem encodeChildren_cons (recur : Nat → Encoder → Option (Option String × Encoder))
    (child : Nat) (rest : List Nat) (e : Encoder) :
    encodeChildren recur (child :: rest) e =
      match recur child e with
      | none => none
      | some (some err, e1) => some (some err, e1)
      | some (none, e1) => encodeChildren recur rest e1 := rfl

/-- The loop over the children, when each call encodes the nodes of a list in
order, encodes the lists of the children one after the other. -/
theorem encodeChildren_inOrder (enc : Encode) (h : Nat → AssignmentNode)
    (recur : Nat → Encoder → Option (Option String × Encoder)) (f : Nat → List Nat)
    (hrec : ∀ c e, recur c e = some (encodeInOrder enc h (f c) e)) :
    ∀ (cs : List Nat) (e : Encoder),
      encodeChildren recur cs e = some (encodeInOrder enc h (cs.flatMap f) e) := by
  intro cs
  induction cs with
  | nil => intro e; rfl
  | cons c rest ih =>
    intro e
    rw [encodeChildren_cons, hrec c e, List.flatMap_cons, encodeInOrder_append]
    cases hc : encodeInOrder enc h (f c) e with
    | mk res e1 =>
      cases res with
      | none => exact ih e1
      | some err => rfl

theorem visited_of_negative (h : Nat → AssignmentNode) (p : Nat) (depth : Int) (hd : depth < 0) :
    visited h p depth = [] := by
  simp [visited, hd]

theorem visited_of_nonneg (h : Nat → AssignmentNode) (p : Nat) (depth : Int) (hd : ¬ depth < 0) :
    visited h p depth = p :: (h p).children.flatMap (fun c => visited h c (depth - 1)) := by
  by_cases h0 : depth = 0
  · subst h0
    have : ∀ c, visited h c ((0 : Int) - 1) = [] := fun c => visited_of_negative h c _ (by omega)
    simp [visited, this, preorderWithin]
  · have h1 : depth.toNat = (depth - 1).toNat + 1 := by omega
    have h2 : ¬ depth - 1 < 0 := by omega
    simp only [visited, if_neg hd, if_neg h2, h1, preorderWithin]

/-- The recursive save passes to the encoder the nodes at levels `0..depth` in
pre-order, up to and including the first one that fails; it always returns. -/
theorem encode_eq_inOrder (enc : Encode) (h : Nat → AssignmentNode) (depth : Int) :
    ∀ (node : Nat) (e : Encoder),
      encodeAssignmentTree enc h node depth e =
        some (encodeInOrder enc h (visited h node depth) e) := by
  generalize hn : (depth + 1).toNat = n
  induction n using Nat.strong_induction_on generalizing depth with
  | _ n ih =>
    intro node e
    by_cases hd : depth < 0
    · rw [encode_of_negative enc h node depth e hd, visited_of_negative h node depth hd]
      rfl
    · rw [encode_of_nonneg enc h node depth e hd, visited_of_nonneg h node depth hd,
        encodeInOrder_cons]
      cases henc : enc e.calls node with
      | error err => rfl
      | ok record =>
        exact encodeChildren_inOrder enc h _ (fun c => visited h c (depth - 1))
          (fun c e1 => ih (depth - 1 + 1).toNat (by omega) (depth - 1) rfl c e1) _ _

/-- When every node of the list encodes, all of them are passed to the encoder
and one record is written for each. -/
theorem encodeInOrder_ok (enc : Encode) (h : Nat → AssignmentNode) :
    ∀ (l : List Nat) (e : Encoder),
      (∀ calls, ∀ p ∈ l, ∃ record, enc calls p = Except.ok record) →
      ∃ records, encodeInOrder enc h l e =
          (none, { e with calls := e.calls ++ l, out := e.out ++ records }) ∧
        records.length = l.length := by
  intro l
  induction l with
  | nil => intro e _; exact ⟨[], by simp [encodeInOrder], rfl⟩
  | cons p rest ih =>
    intro e hok
    obtain ⟨record, hrec⟩ := hok e.calls p (List.mem_cons_self _ _)
    obtain ⟨records, hrest, hlen⟩ := ih { e with calls := e.calls ++ [p], out := e.out ++ [record] }
      (fun calls q hq => hok calls q (List.mem_cons_of_mem _ hq))
    refine ⟨record :: records, ?_, by simp [hlen]⟩
    rw [encodeInOrder_cons, hrec]
    simp only
    rw [hrest]
    simp

/-- When the node at position `i` of the list is the first that fails to
encode, the nodes up to and including it are passed to the encoder, the
records of the `i` nodes before it are written, followed by what the failed
call wrote of its record, and the error names the node. -/
theorem encodeInOrder_fail (enc : Encode) (h : Nat → AssignmentNode) (cause : EncodeFailure) :
    ∀ (l : List Nat) (e : Encoder) (i : Nat) (hi : i < l.length),
      (∀ (j : Nat) (hj : j < i), ∃ record, enc (e.calls ++ l.take j) l[j] = Except.ok record) →
      enc (e.calls ++ l.take i) l[i] = Except.error cause →
      ∃ records, encodeInOrder enc h l e =
          (some ("error encoding node " ++ (h l[i]).Name ++ ": " ++ cause.err),
           { calls := e.calls ++ l.take (i + 1), out := e.out ++ records,
             torn := e.torn ++ cause.written }) ∧
        records.length = i ∧
        ∀ (j : Nat) (hj : j < i) (hr : j < records.length),
          enc (e.calls ++ l.take j) l[j] = Except.ok records[j] := by
  intro l
  induction l with
  | nil => intro e i hi; simp at hi
  | cons p rest ih =>
    intro e i hi hbefore hfail
    cases i with
    | zero =>
      refine ⟨[], ?_, rfl, fun j hj => by omega⟩
      simp only [List.take_zero, List.append_nil, List.getElem_cons_zero] at hfail
      rw [encodeInOrder_cons, hfail]
      simp
    | succ i =>
      obtain ⟨record, hrec⟩ := hbefore 0 (by omega)
      simp only [List.take_zero, List.append_nil, List.getElem_cons_zero] at hrec
      have hi2 : i < rest.length := by simpa using hi
      obtain ⟨records, hrest, hlen, hrecs⟩ :=
        ih { e with calls := e.calls ++ [p], out := e.out ++ [record] } i hi2
          (fun j hj => by
            have := hbefore (j + 1) (by omega)
            simpa [List.append_assoc] using this)
          (by simpa [List.append_assoc] using hfail)
      refine ⟨record :: records, ?_, by simp [hlen], ?_⟩
      · rw [encodeInOrder_cons, hrec]
        simp only
        rw [hrest]
        simp
      · intro j hj hr
        cases j with
        | zero => simpa using hrec
        | succ j =>
          have := hrecs j (by omega) (by simpa using hr)
          simpa [List.append_assoc] using this

/-- When every node of the list encodes, given the nodes encoded before it,
all of them are passed to the encoder and the file holds their records, the
record of each as the encoder returned it, in the order of the list. -/
theorem encodeInOrder_ok_records (enc : Encode) (h : Nat → AssignmentNode) :
    ∀ (l : List Nat) (e : Encoder),
      (∀ (j : Nat) (hj : j < l.length),
        ∃ record, enc (e.calls ++ l.take j) l[j] = Except.ok record) →
      ∃ records, encodeInOrder enc h l e =
          (none, { e with calls := e.calls ++ l, out := e.out ++ records }) ∧
        records.length = l.length ∧
        ∀ (j : Nat) (hj : j < l.length) (hr : j < records.length),
          enc (e.calls ++ l.take j) l[j] = Except.ok records[j] := by
  intro l
  induction l with
  | nil => intro e _; exact ⟨[], by simp [encodeInOrder], rfl, fun j hj => by simp at hj⟩
  | cons p rest ih =>
    intro e hok
    obtain ⟨record, hrec⟩ := hok 0 (by simp)
    simp only [List.take_zero, List.append_nil, List.getElem_cons_zero] at hrec
    obtain ⟨records, hrest, hlen, hrecs⟩ :=
      ih { e with calls := e.calls ++ [p], out := e.out ++ [record] }
        (fun j hj => by
          have := hok (j + 1) (by simpa using hj)
          simpa [List.append_assoc] using this)
    refine ⟨record :: records, ?_, by simp [hlen], ?_⟩
    · rw [encodeInOrder_cons, hrec]
      simp only
      rw [hrest]
      simp
    · intro j hj hr
      cases j with
      | zero => simpa using hrec
      | succ j =>
        have := hrecs j (by simpa using hj) (by simpa using hr)
        simpa [List.append_assoc] using this

/-- A save through an encoder that takes every node it is given: the nodes of
the depth-bounded pre-order are passed to the encoder, the file holds one
record for each, the one the encoder returned, and no error is returned. -/
theorem save_ok_records (close : Except String Unit) (enc : Encode)
    (h : Nat → AssignmentNode) (root : Nat) (depth : Int)
    (hencodes : ∀ calls p, ∃ record, enc calls p = Except.ok record) :
    ∃ records,
      encodeAssignmentTree enc h root depth { calls := [], out := [], torn := "" } =
        some (none, { calls := visited h root depth, out := records, torn := "" }) ∧
      (SaveAssignmentTreeToJSON (Except.ok ()) close enc h root depth).map
          (fun r => (r.err, r.file)) =
        some (none, some { calls := visited h root depth, out := records, torn := "" }) ∧
      records.length = (visited h root depth).length ∧
      ∀ (j : Nat) (hj : j < (visited h root depth).length) (hr : j < records.length),
        enc ((visited h root depth).take j) (visited h root depth)[j] = Except.ok records[j] := by
  obtain ⟨records, hrun, hlen, hrecs⟩ :=
    encodeInOrder_ok_records enc h (visited h root depth) { calls := [], out := [], torn := "" }
      (fun j hj => hencodes _ _)
  have henc := encode_eq_inOrder enc h depth root { calls := [], out := [], torn := "" }
  rw [hrun] at henc
  simp only [List.nil_append] at henc
  refine ⟨records, henc, ?_, hlen, by simpa using hrecs⟩
  simp only [SaveAssignmentTreeToJSON, henc, Option.map_some']

end Themis

namespace Themis

/-! ## The bounded pre-order lists the levels, each node once in a tree -/

theorem flatMap_swap_perm {α β γ : Type} (f : α → β → List γ) (cs : List α) (ks : List β) :
    (cs.flatMap (fun c => ks.flatMap (fun k => f c k))).Perm
      (ks.flatMap (fun k => cs.flatMap (fun c => f c k))) := by
  induction cs with
  | nil => simp
  | cons c rest ih =>
    have h1 : (c :: rest).flatMap (fun c => ks.flatMap (fun k => f c k)) =
        ks.flatMap (fun k => f c k) ++ rest.flatMap (fun c => ks.flatMap (fun k => f c k)) :=
      List.flatMap_cons _ _ _
    have h2 : (ks.flatMap (fun k => (c :: rest).flatMap (fun c => f c k))) =
        ks.flatMap (fun k => f c k ++ rest.flatMap (fun c => f c k)) := rfl
    rw [h1, h2]
    exact (List.Perm.append_left _ ih).trans (List.flatMap_append_perm ks _ _)

/-- The nodes of the bounded pre-order are the nodes of the levels `0..d`. -/
theorem preorder_perm_levels (h : Nat → AssignmentNode) :
    ∀ (d p : Nat),
      (preorderWithin h p d).Perm ((List.range (d + 1)).flatMap (fun k => levelNodes h p k)) := by
  intro d
  induction d with
  | zero => intro p; simp [preorderWithin, levelNodes, List.range_succ]
  | succ d ih =>
    intro p
    have h1 : preorderWithin h p (d + 1) =
        p :: (h p).children.flatMap (fun c => preorderWithin h c d) := rfl
    have h2 : (List.range (d + 1 + 1)).flatMap (fun k => levelNodes h p k) =
        p :: (List.range (d + 1)).flatMap
          (fun k => (h p).children.flatMap (fun c => levelNodes h c k)) := by
      rw [List.range_succ_eq_map (d + 1), List.flatMap_cons, List.flatMap_map]
      rfl
    rw [h1, h2]
    refine List.Perm.cons p ?_
    exact (List.Perm.flatMap_left _ (fun c _ => ih c)).trans
      (flatMap_swap_perm (fun c k => levelNodes h c k) _ _)

theorem levelNodes_lt {h : Nat → AssignmentNode} {r n : Nat} (ht : TreeShaped h r n) :
    ∀ k, ∀ q ∈ levelNodes h r k, q < n := by
  intro k
  induction k with
  | zero =>
    intro q hq
    simp only [levelNodes, List.mem_singleton] at hq
    subst hq
    exact ht.1
  | succ k ih =>
    intro q hq
    rw [levelNodes_succ_right, List.mem_flatMap] at hq
    obtain ⟨a, ha, hqa⟩ := hq
    exact ht.2.1 a (ih a ha) q hqa

theorem levelNodes_nodup {h : Nat → AssignmentNode} {r n : Nat} (ht : TreeShaped h r n) :
    ∀ k, (levelNodes h r k).Nodup := by
  intro k
  induction k with
  | zero => simp [levelNodes]
  | succ k ih =>
    rw [levelNodes_succ_right, List.nodup_flatMap]
    refine ⟨fun a ha => ht.2.2.1 a (levelNodes_lt ht k a ha), ?_⟩
    refine List.Nodup.pairwise_of_forall_ne ih ?_
    intro a ha b hb hab
    simp only [Function.onFun]
    intro x hxa hxb
    exact hab (ht.2.2.2.1 a (levelNodes_lt ht k a ha) b (levelNodes_lt ht k b hb) x hxa hxb)

theorem levelNodes_disjoint {h : Nat → AssignmentNode} {r n : Nat} (ht : TreeShaped h r n) :
    ∀ (i j : Nat), i < j → List.Disjoint (levelNodes h r i) (levelNodes h r j) := by
  intro i
  induction i with
  | zero =>
    intro j hj x hxi hxj
    obtain ⟨m, rfl⟩ : ∃ m, j = m + 1 := ⟨j - 1, by omega⟩
    simp only [levelNodes, List.mem_singleton] at hxi
    subst hxi
    rw [levelNodes_succ_right, List.mem_flatMap] at hxj
    obtain ⟨a, ham, ha⟩ := hxj
    exact ht.2.2.2.2 a (levelNodes_lt ht m a ham) ha
  | succ i ih =>
    intro j hj x hxi hxj
    obtain ⟨m, rfl⟩ : ∃ m, j = m + 1 := ⟨j - 1, by omega⟩
    rw [levelNodes_succ_right, List.mem_flatMap] at hxi hxj
    obtain ⟨a, hai, hxa⟩ := hxi
    obtain ⟨b, hbj, hxb⟩ := hxj
    have hab := ht.2.2.2.1 a (levelNodes_lt ht i a hai) b (levelNodes_lt ht m b hbj) x hxa hxb
    subst hab
    exact ih m (by omega) hai hbj

/-- In a tree the bounded pre-order lists no node twice. -/
theorem preorder_nodup {h : Nat → AssignmentNode} {r n : Nat} (ht : TreeShaped h r n) (d : Nat) :
    (preorderWithin h r d).Nodup := by
  rw [(preorder_perm_levels h d r).nodup_iff, List.nodup_flatMap]
  refine ⟨fun k _ => levelNodes_nodup ht k, ?_⟩
  refine List.Pairwise.imp ?_ (List.pairwise_lt_range (d + 1))
  intro i j hij
  exact levelNodes_disjoint ht i j hij

end Themis

namespace Themis

/-! ## Properties of the tree builder -/

theorem courseStart_wf : WF courseStart := by
  intro p hp c hc
  have h1 : p = 0 := by
    change p < 1 at hp
    omega
  subst h1
  change c ∈ [] at hc
  simp at hc

theorem grownWorld_wf : WF grownWorld := by
  intro p hp c hc
  change p < 2 at hp
  have h1 : p = 0 ∨ p = 1 := by omega
  rcases h1 with h | h
  · subst h
    change c ∈ [1] at hc
    simp only [List.mem_singleton] at hc
    subst hc
    decide
  · subst h
    change c ∈ [] at hc
    simp at hc

theorem grownWorld_acyclic : ∀ c ∈ (grownWorld.heap 0).children, ¬ Reach grownWorld.heap c 0 := by
  intro c hc hreach
  change c ∈ [1] at hc
  simp only [List.mem_singleton] at hc
  subst hc
  have h := @reach_childless grownWorld.heap 1 0 rfl hreach
  omega

/-- C1: after a successful `PullAssignmentsFromThemisAndBuildTree` on a root
that had no children, every node `depth + 1` levels below the root is
childless and there is no node further down, so no root-to-leaf path has more
than `depth + 1` edges, whatever the fetch would list for the deeper pages.
For `depth >= 0` the level `depth.toNat + 1` is `depth + 1`. -/
theorem build_depth_bound (fetch : Fetch) (url : String) (root : Nat) (depth : Int)
    (w w2 : World) (x : Nat) (hw : WF w) (hroot : root < w.next)
    (hchildless : (w.heap root).children = [])
    (hok : PullAssignmentsFromThemisAndBuildTree fetch url root depth w =
      some (Except.ok x, w2)) :
    (∀ p ∈ levelNodes w2.heap root (depth.toNat + 1), (w2.heap p).children = []) ∧
    (∀ k, depth.toNat + 1 < k → levelNodes w2.heap root k = []) := by
  have h := (pull_childless fetch depth url root w x w2 hw hroot hchildless hok).1
  exact ⟨h, levelNodes_nil_of_childless w2.heap root (depth.toNat + 1) h⟩

/-- Witness of C1: a remote whose pages list themselves for ever, built with
`depth = 2`: the only node at level 3 is childless and level 4 is empty. -/
theorem build_depth_bound_witness :
    WF courseStart ∧ 0 < courseStart.next ∧ (courseStart.heap 0).children = [] ∧
    selfBuilt = some (Except.ok 0, worldOf selfBuilt) ∧
    levelNodes (worldOf selfBuilt).heap 0 3 = [3] ∧
    ((∀ p ∈ levelNodes (worldOf selfBuilt).heap 0 ((2 : Int).toNat + 1),
        ((worldOf selfBuilt).heap p).children = []) ∧
      (∀ k, (2 : Int).toNat + 1 < k → levelNodes (worldOf selfBuilt).heap 0 k = [])) :=
  ⟨courseStart_wf, by decide, rfl, rfl, by decide,
    build_depth_bound selfFetch "/cs101" 0 2 courseStart (worldOf selfBuilt) 0
      courseStart_wf (by decide) rfl rfl⟩

/-- C2: after a successful `PullAssignmentsFromThemisAndBuildTree` on a root
that had no children, the requests made by the call are as many as the nodes
of the resulting tree at levels `0..depth`: one per such node, none for the
nodes at level `depth + 1`. -/
theorem build_fetch_count (fetch : Fetch) (url : String) (root : Nat) (depth : Int)
    (w w2 : World) (x : Nat) (hw : WF w) (hroot : root < w.next)
    (hchildless : (w.heap root).children = [])
    (hok : PullAssignmentsFromThemisAndBuildTree fetch url root depth w =
      some (Except.ok x, w2)) :
    ∃ made, w2.requests = w.requests ++ made ∧
      made.length = countWithin w2.heap root depth.toNat ∧
      made.length = ((List.range (depth.toNat + 1)).map
        (fun k => (levelNodes w2.heap root k).length)).sum := by
  obtain ⟨made, hmade⟩ := (pull_grows_frame fetch depth url root w _ w2 hw hroot hok).1.reqs
  have hlen := (pull_childless fetch depth url root w x w2 hw hroot hchildless hok).2
  rw [← hmade, List.length_append] at hlen
  exact ⟨made, hmade.symm, by omega, by unfold countWithin at hlen; omega⟩

/-- Witness of C2: the scenario's course built with `depth = 1`: three
requests for the three nodes at levels 0 and 1, none for the two submissions
at level 2. -/
theorem build_fetch_count_witness :
    WF courseStart ∧ 0 < courseStart.next ∧ (courseStart.heap 0).children = [] ∧
    (worldOf (PullAssignmentsFromThemisAndBuildTree courseFetch "/cs101" 0 1 courseStart)).requests
      = ["/cs101", "/hw1", "/hw2"] ∧
    (levelNodes (worldOf
      (PullAssignmentsFromThemisAndBuildTree courseFetch "/cs101" 0 1 courseStart)).heap 0 2).length
      = 2 ∧
    ∃ made, (worldOf
        (PullAssignmentsFromThemisAndBuildTree courseFetch "/cs101" 0 1 courseStart)).requests =
        courseStart.requests ++ made ∧
      made.length = countWithin (worldOf
        (PullAssignmentsFromThemisAndBuildTree courseFetch "/cs101" 0 1 courseStart)).heap 0
          (1 : Int).toNat ∧
      made.length = ((List.range ((1 : Int).toNat + 1)).map
        (fun k => (levelNodes (worldOf
          (PullAssignmentsFromThemisAndBuildTree courseFetch "/cs101" 0 1 courseStart)).heap 0
            k).length)).sum :=
  ⟨courseStart_wf, by decide, rfl, by decide, by decide,
    build_fetch_count courseFetch "/cs101" 0 1 courseStart _ 0 courseStart_wf (by decide) rfl rfl⟩

/-- C3: a successful `PullAssignmentsFromThemisAndBuildTree` returns the node
it was given, with its name and URL, and the children this call appended to it
are one new node per listed pair, in listing order, each with the pair's name
and URL and with the root as parent; nothing is dropped, repeated or
reordered.  The children list of the root ends up as the former children, then
these nodes, then `extra`; `extra` is empty for a root that its own children
do not reach, as in every tree. -/
theorem build_appends_listing (fetch : Fetch) (url : String) (root : Nat) (depth : Int)
    (w w2 : World) (x : Nat) (assignments : List Assignment) (hw : WF w)
    (hroot : root < w.next)
    (hlisting : fetch w.requests url = Except.ok assignments)
    (hok : PullAssignmentsFromThemisAndBuildTree fetch url root depth w =
      some (Except.ok x, w2)) :
    x = root ∧ (w2.heap root).Name = (w.heap root).Name ∧
    (w2.heap root).URL = (w.heap root).URL ∧
    (∃ extra, (w2.heap root).children =
        (w.heap root).children ++ List.range' w.next assignments.length ++ extra ∧
      ((∀ c ∈ (w.heap root).children, ¬ Reach w.heap c root) → extra = [])) ∧
    ∀ (i : Nat) (hi : i < assignments.length),
      (w2.heap (w.next + i)).Name = assignments[i] "name" ∧
      (w2.heap (w.next + i)).URL = assignments[i] "url" ∧
      (w2.heap (w.next + i)).Parent = some root := by
  obtain ⟨hn, hu, -, hkids, hnew⟩ :=
    pull_root_state fetch depth url root w _ w2 assignments hw hroot hlisting hok
  exact ⟨pull_ok_root fetch depth url root w x w2 hok, hn, hu, hkids, hnew⟩

/-- Witness of C3: a root that already has a child `Old`, built with
`depth = 1`: the root keeps `Old` and gains `HW1` and `HW2`, in this order. -/
theorem build_appends_listing_witness :
    WF grownWorld ∧ 0 < grownWorld.next ∧
    courseFetch grownWorld.requests "/cs101" =
      Except.ok [entry "HW1" "/hw1", entry "HW2" "/hw2"] ∧
    (∀ c ∈ (grownWorld.heap 0).children, ¬ Reach grownWorld.heap c 0) ∧
    ((worldOf (PullAssignmentsFromThemisAndBuildTree courseFetch "/cs101" 0 1 grownWorld)).heap
      0).children = [1, 2, 3] ∧
    (0 = 0 ∧
     ((worldOf (PullAssignmentsFromThemisAndBuildTree courseFetch "/cs101" 0 1 grownWorld)).heap
        0).Name = (grownWorld.heap 0).Name ∧
     ((worldOf (PullAssignmentsFromThemisAndBuildTree courseFetch "/cs101" 0 1 grownWorld)).heap
        0).URL = (grownWorld.heap 0).URL ∧
     (∃ extra,
      ((worldOf (PullAssignmentsFromThemisAndBuildTree courseFetch "/cs101" 0 1 grownWorld)).heap
        0).children = (grownWorld.heap 0).children ++
          List.range' grownWorld.next [entry "HW1" "/hw1", entry "HW2" "/hw2"].length ++ extra ∧
      ((∀ c ∈ (grownWorld.heap 0).children, ¬ Reach grownWorld.heap c 0) → extra = [])) ∧
     ∀ (i : Nat) (hi : i < [entry "HW1" "/hw1", entry "HW2" "/hw2"].length),
      ((worldOf (PullAssignmentsFromThemisAndBuildTree courseFetch "/cs101" 0 1 grownWorld)).heap
        (grownWorld.next + i)).Name = [entry "HW1" "/hw1", entry "HW2" "/hw2"][i] "name" ∧
      ((worldOf (PullAssignmentsFromThemisAndBuildTree courseFetch "/cs101" 0 1 grownWorld)).heap
        (grownWorld.next + i)).URL = [entry "HW1" "/hw1", entry "HW2" "/hw2"][i] "url" ∧
      ((worldOf (PullAssignmentsFromThemisAndBuildTree courseFetch "/cs101" 0 1 grownWorld)).heap
        (grownWorld.next + i)).Parent = some 0) :=
  ⟨grownWorld_wf, by decide, rfl, grownWorld_acyclic, by decide,
    build_appends_listing courseFetch "/cs101" 0 1 grownWorld _ 0
      [entry "HW1" "/hw1", entry "HW2" "/hw2"] grownWorld_wf (by decide) rfl rfl⟩

/-- C4: when the fetch fails for the root URL,
`PullAssignmentsFromThemisAndBuildTree` returns no node and an error whose
message ends with the cause; the fetch was requested once, and the heap is
the one before the call: no node was created, no child list changed. -/
theorem build_fetch_error (fetch : Fetch) (url : String) (root : Nat) (depth : Int)
    (w : World) (cause : String) (hfail : fetch w.requests url = Except.error cause) :
    ∃ w2, PullAssignmentsFromThemisAndBuildTree fetch url root depth w =
        some (Except.error ("error getting assignments on page: " ++ cause), w2) ∧
      w2.requests = w.requests ++ [url] ∧ w2.heap = w.heap ∧ w2.next = w.next ∧
      (w2.heap root).children = (w.heap root).children :=
  ⟨{ w with requests := w.requests ++ [url] },
    pull_of_fetch_error fetch url root depth w cause hfail, rfl, rfl, rfl, rfl⟩

/-- Witness of C4: the remote that cannot be reached, asked with `depth = 2`. -/
theorem build_fetch_error_witness :
    downFetch courseStart.requests "/cs101" = Except.error "connection refused" ∧
    ∃ w2, PullAssignmentsFromThemisAndBuildTree downFetch "/cs101" 0 2 courseStart =
        some (Except.error ("error getting assignments on page: " ++ "connection refused"), w2) ∧
      w2.requests = courseStart.requests ++ ["/cs101"] ∧ w2.heap = courseStart.heap ∧
      w2.next = courseStart.next ∧
      (w2.heap 0).children = (courseStart.heap 0).children :=
  ⟨rfl, build_fetch_error downFetch "/cs101" 0 2 courseStart "connection refused" rfl⟩

/-- C5: with `depth > 0`, when the children before some child were built
without error and the build of that child fails, the whole call returns no
node and the error `error building tree: ` followed by the child's error, and
the world it leaves is the one the failed call left: nothing is requested
after the failure, neither for the later siblings nor again for the child. -/
theorem build_child_failure (fetch : Fetch) (url : String) (root : Nat) (depth : Int)
    (w v v2 : World) (assignments : List Assignment) (before after : List Nat) (child : Nat)
    (cause : String) (hdepth : depth > 0)
    (hlisting : fetch w.requests url = Except.ok assignments)
    (hchildren : ((appendAssignments root assignments
        { w with requests := w.requests ++ [url] }).heap root).children =
      before ++ child :: after)
    (hbefore : buildChildren
        (fun u c => PullAssignmentsFromThemisAndBuildTree fetch u c (depth - 1)) before
        (appendAssignments root assignments { w with requests := w.requests ++ [url] }) =
      some (none, v))
    (hfail : PullAssignmentsFromThemisAndBuildTree fetch (v.heap child).URL child (depth - 1) v =
      some (Except.error cause, v2)) :
    PullAssignmentsFromThemisAndBuildTree fetch url root depth w =
      some (Except.error ("error building tree: " ++ cause), v2) := by
  rw [pull_of_step fetch url root depth w assignments hlisting hdepth, hchildren,
    buildChildren_append, hbefore]
  simp only
  rw [buildChildren_cons, hfail]

end Themis

namespace Themis

/-- Witness of C5: the page of the second of three assignments fails, with
`depth = 1`: the requests are those for the root, the first and the second
child, and none for the third. -/
theorem build_child_failure_witness :
    (1 : Int) > 0 ∧
    flakyFetch courseStart.requests "/cs101" =
      Except.ok [entry "HW1" "/hw1", entry "HW2" "/hw2", entry "HW3" "/hw3"] ∧
    (flakyListed.heap 0).children = [1] ++ 2 :: [3] ∧
    flakyFailed.requests = ["/cs101", "/hw1", "/hw2"] ∧
    PullAssignmentsFromThemisAndBuildTree flakyFetch "/cs101" 0 1 courseStart =
      some (Except.error ("error building tree: " ++
        "error getting assignments on page: timeout"), flakyFailed) :=
  ⟨by decide, rfl, by decide, by decide,
    build_child_failure flakyFetch "/cs101" 0 1 courseStart flakyFirst flakyFailed
      [entry "HW1" "/hw1", entry "HW2" "/hw2", entry "HW3" "/hw3"] [1] [3] 2
      "error getting assignments on page: timeout" (by decide) rfl rfl rfl rfl⟩

/-! ## Properties of saving -/

/-- C6: when every node to visit encodes, `encodeAssignmentTree` and
`SaveAssignmentTreeToJSON` (once the file is created) pass to the encoder the
nodes at levels `0..depth` below the root in pre-order and nothing else, write
one record for each and return no error; these nodes are the nodes of the
levels `0..depth`, and in a tree none of them occurs twice. -/
theorem save_visits_preorder (close : Except String Unit) (enc : Encode)
    (h : Nat → AssignmentNode) (root : Nat) (depth : Int)
    (hencodes : ∀ calls, ∀ p ∈ visited h root depth, ∃ record, enc calls p = Except.ok record) :
    ∃ records,
      encodeAssignmentTree enc h root depth { calls := [], out := [], torn := "" } =
        some (none, { calls := visited h root depth, out := records, torn := "" }) ∧
      (SaveAssignmentTreeToJSON (Except.ok ()) close enc h root depth).map
          (fun r => (r.err, r.file)) =
        some (none, some { calls := visited h root depth, out := records, torn := "" }) ∧
      records.length = (visited h root depth).length ∧
      (visited h root depth).Perm
        (if depth < 0 then []
         else (List.range (depth.toNat + 1)).flatMap (fun k => levelNodes h root k)) ∧
      (∀ n, TreeShaped h root n → (visited h root depth).Nodup) := by
  obtain ⟨records, hrun, hlen⟩ :=
    encodeInOrder_ok enc h (visited h root depth) { calls := [], out := [], torn := "" } hencodes
  have henc := encode_eq_inOrder enc h depth root { calls := [], out := [], torn := "" }
  rw [hrun] at henc
  simp only [List.nil_append] at henc
  refine ⟨records, henc, ?_, hlen, ?_, ?_⟩
  · simp only [SaveAssignmentTreeToJSON, henc, Option.map_some']
  · unfold visited
    by_cases hd : depth < 0
    · simp [hd]
    · simp only [if_neg hd]
      exact preorder_perm_levels h depth.toNat root
  · intro n ht
    unfold visited
    by_cases hd : depth < 0
    · simp [hd]
    · simp only [if_neg hd]
      exact preorder_nodup ht depth.toNat

/-- Witness of C6: the scenario's tree saved with `depth = 2`: the five nodes
in pre-order. -/
theorem save_visits_preorder_witness :
    (∀ calls, ∀ p ∈ visited courseWorld.heap 0 2,
      ∃ record, nameEncode courseWorld.heap calls p = Except.ok record) ∧
    visited courseWorld.heap 0 2 = [0, 1, 3, 2, 4] ∧
    TreeShaped courseWorld.heap 0 5 ∧
    ∃ records,
      encodeAssignmentTree (nameEncode courseWorld.heap) courseWorld.heap 0 2
          { calls := [], out := [], torn := "" } =
        some (none, { calls := visited courseWorld.heap 0 2, out := records, torn := "" }) ∧
      (SaveAssignmentTreeToJSON (Except.ok ()) (Except.ok ()) (nameEncode courseWorld.heap)
          courseWorld.heap 0 2).map (fun r => (r.err, r.file)) =
        some (none, some { calls := visited courseWorld.heap 0 2, out := records, torn := "" }) ∧
      records.length = (visited courseWorld.heap 0 2).length ∧
      (visited courseWorld.heap 0 2).Perm
        (if (2 : Int) < 0 then []
         else (List.range ((2 : Int).toNat + 1)).flatMap
          (fun k => levelNodes courseWorld.heap 0 k)) ∧
      (∀ n, TreeShaped courseWorld.heap 0 n → (visited courseWorld.heap 0 2).Nodup) :=
  ⟨fun _ p _ => ⟨(courseWorld.heap p).Name, rfl⟩, by decide, by unfold TreeShaped; decide,
    save_visits_preorder (Except.ok ()) (nameEncode courseWorld.heap) courseWorld.heap 0 2
      (fun _ p _ => ⟨(courseWorld.heap p).Name, rfl⟩)⟩

/-- C7: with a negative depth `encodeAssignmentTree` returns no error without
touching the encoder, so `SaveAssignmentTreeToJSON` (once the file is created)
passes no node to the encoder, not even the root, writes no record and returns
no error. -/
theorem save_negative_depth (close : Except String Unit) (enc : Encode)
    (h : Nat → AssignmentNode) (root : Nat) (depth : Int) (e : Encoder) (hneg : depth < 0) :
    encodeAssignmentTree enc h root depth e = some (none, e) ∧
    (SaveAssignmentTreeToJSON (Except.ok ()) close enc h root depth).map
        (fun r => (r.err, r.file)) =
      some (none, some { calls := [], out := [], torn := "" }) := by
  refine ⟨encode_of_negative enc h root depth e hneg, ?_⟩
  simp only [SaveAssignmentTreeToJSON, encode_of_negative enc h root depth _ hneg,
    Option.map_some']

/-- Witness of C7: the scenario's tree saved with `depth = -1`. -/
theorem save_negative_depth_witness :
    (-1 : Int) < 0 ∧
    encodeAssignmentTree (nameEncode courseWorld.heap) courseWorld.heap 0 (-1)
        { calls := [], out := [], torn := "" } = some (none, { calls := [], out := [], torn := "" }) ∧
    (SaveAssignmentTreeToJSON (Except.ok ()) (Except.ok ()) (nameEncode courseWorld.heap)
        courseWorld.heap 0 (-1)).map (fun r => (r.err, r.file)) =
      some (none, some { calls := [], out := [], torn := "" }) :=
  ⟨by decide, save_negative_depth (Except.ok ()) (nameEncode courseWorld.heap) courseWorld.heap 0
    (-1) { calls := [], out := [], torn := "" } (by decide)⟩

set_option maxRecDepth 100000

/-- A counterexample to C8 as stated: the scenario's tree saved with
`depth = 2` through the JSON encoder on a file that runs full in the third
write, after seven characters.  The first two nodes encode, the third call
fails, the save returns the error that names the third node, `Submission`,
and the file holds the two records followed by the beginning of the third:
not exactly the first two records. -/
theorem save_failure_leaves_fragment :
    visited courseWorld.heap 0 2 = [0, 1, 3, 2, 4] ∧
    tornWrite (jsonEncode plainQuote courseWorld.heap 5) 2 7 [] 0 =
      Except.ok (recordOf plainQuote courseWorld.heap 5 0) ∧
    tornWrite (jsonEncode plainQuote courseWorld.heap 5) 2 7 [0] 1 =
      Except.ok (recordOf plainQuote courseWorld.heap 5 1) ∧
    tornWrite (jsonEncode plainQuote courseWorld.heap 5) 2 7 [0, 1] 3 =
      Except.error { err := "write assignment_tree.json: no space left on device",
                     written := "\x7b\n    \"" } ∧
    SaveAssignmentTreeToJSON (Except.ok ()) (Except.ok ())
        (tornWrite (jsonEncode plainQuote courseWorld.heap 5) 2 7) courseWorld.heap 0 2 =
      some { err := some ("error encoding assignment tree: error encoding node Submission: " ++
                      "write assignment_tree.json: no space left on device"),
             file := some { calls := [0, 1, 3],
                            out := [recordOf plainQuote courseWorld.heap 5 0,
                                    recordOf plainQuote courseWorld.heap 5 1],
                            torn := "\x7b\n    \"" },
             log := [] } ∧
    (SaveAssignmentTreeToJSON (Except.ok ()) (Except.ok ())
        (tornWrite (jsonEncode plainQuote courseWorld.heap 5) 2 7) courseWorld.heap 0 2).map
        (fun r => r.file.map fileText) =
      some (some (recordOf plainQuote courseWorld.heap 5 0 ++
        recordOf plainQuote courseWorld.heap 5 1 ++ "\x7b\n    \"")) ∧
    (SaveAssignmentTreeToJSON (Except.ok ()) (Except.ok ())
        (tornWrite (jsonEncode plainQuote courseWorld.heap 5) 2 7) courseWorld.heap 0 2).map
        (fun r => r.file.map fileText) ≠
      some (some (String.join [recordOf plainQuote courseWorld.heap 5 0,
        recordOf plainQuote courseWorld.heap 5 1])) := by
  refine ⟨by decide, rfl, rfl, rfl, rfl, rfl, by decide⟩

/-- C8, amended: when the node at position `i` of the depth-bounded pre-order
is the first whose encoding fails (`i = k - 1`), `SaveAssignmentTreeToJSON`
has written the complete records of the `i` nodes before it, followed by what
the failed call wrote of its own record and by nothing else, has passed no
node after it to the encoder, and returns an error that names the node.  When
the failed call wrote nothing, as when the node cannot be marshalled, the
file holds exactly the `i` records. -/
theorem save_stops_at_failure (close : Except String Unit) (enc : Encode)
    (h : Nat → AssignmentNode) (root : Nat) (depth : Int) (i : Nat) (cause : EncodeFailure)
    (hi : i < (visited h root depth).length)
    (hbefore : ∀ (j : Nat) (hj : j < i),
      ∃ record, enc ((visited h root depth).take j) (visited h root depth)[j] = Except.ok record)
    (hfail : enc ((visited h root depth).take i) (visited h root depth)[i] = Except.error cause) :
    ∃ records,
      (SaveAssignmentTreeToJSON (Except.ok ()) close enc h root depth).map
          (fun r => (r.err, r.file)) =
        some (some ("error encoding assignment tree: " ++ ("error encoding node " ++
                (h (visited h root depth)[i]).Name ++ ": " ++ cause.err)),
              some { calls := (visited h root depth).take (i + 1), out := records,
                     torn := cause.written }) ∧
      records.length = i ∧
      (∀ (j : Nat) (hj : j < i) (hr : j < records.length),
        enc ((visited h root depth).take j) (visited h root depth)[j] = Except.ok records[j]) ∧
      (SaveAssignmentTreeToJSON (Except.ok ()) close enc h root depth).map
          (fun r => r.file.map fileText) =
        some (some (String.join records ++ cause.written)) ∧
      (cause.written = "" →
        (SaveAssignmentTreeToJSON (Except.ok ()) close enc h root depth).map
            (fun r => r.file.map fileText) =
          some (some (String.join records))) := by
  obtain ⟨records, hrun, hlen, hrecs⟩ :=
    encodeInOrder_fail enc h cause (visited h root depth) { calls := [], out := [], torn := "" } i hi
      (by simpa using hbefore) (by simpa using hfail)
  have henc := encode_eq_inOrder enc h depth root { calls := [], out := [], torn := "" }
  rw [hrun] at henc
  simp only [List.nil_append, String.empty_append] at henc
  have hfile : (SaveAssignmentTreeToJSON (Except.ok ()) close enc h root depth).map
      (fun r => r.file.map fileText) = some (some (String.join records ++ cause.written)) := by
    simp only [SaveAssignmentTreeToJSON, henc, Option.map_some', fileText]
  refine ⟨records, ?_, hlen, by simpa using hrecs, hfile, ?_⟩
  · simp only [SaveAssignmentTreeToJSON, henc, Option.map_some']
  · intro hnone
    rw [hfile, hnone, String.append_empty]

/-- Witness of C8: the scenario's tree saved with `depth = 2` through an
encoder whose third call fails before it writes: two records and nothing
else, and the error names the third node of the pre-order, the first
`Submission`. -/
theorem save_stops_at_failure_witness :
    2 < (visited courseWorld.heap 0 2).length ∧
    thirdFails courseWorld.heap ((visited courseWorld.heap 0 2).take 2) 3 =
      Except.error { err := "disk full", written := "" } ∧
    (SaveAssignmentTreeToJSON (Except.ok ()) (Except.ok ()) (thirdFails courseWorld.heap)
        courseWorld.heap 0 2) =
      some { err := some "error encoding assignment tree: error encoding node Submission: disk full",
             file := some { calls := [0, 1, 3], out := ["CS101", "HW1"], torn := "" },
             log := [] } ∧
    ∃ records,
      (SaveAssignmentTreeToJSON (Except.ok ()) (Except.ok ()) (thirdFails courseWorld.heap)
          courseWorld.heap 0 2).map (fun r => (r.err, r.file)) =
        some (some ("error encoding assignment tree: " ++ ("error encoding node " ++
                (courseWorld.heap 3).Name ++ ": " ++ "disk full")),
              some { calls := (visited courseWorld.heap 0 2).take (2 + 1), out := records,
                     torn := "" }) ∧
      records.length = 2 ∧
      (SaveAssignmentTreeToJSON (Except.ok ()) (Except.ok ()) (thirdFails courseWorld.heap)
          courseWorld.heap 0 2).map (fun r => r.file.map fileText) =
        some (some (String.join records)) :=
  ⟨by decide, rfl, by decide,
    (save_stops_at_failure (Except.ok ()) (thirdFails courseWorld.heap) courseWorld.heap 0 2 2
      { err := "disk full", written := "" } (by decide)
      (fun j hj => by
        have h2 : j = 0 ∨ j = 1 := by omega
        rcases h2 with h | h <;> subst h <;> exact ⟨_, rfl⟩)
      rfl).imp (fun _ hr => ⟨hr.1, hr.2.1, hr.2.2.2.2 rfl⟩)⟩

/-- C9: after `AppendChild(p, c)` the parent of `c` is `p`, the children of
`p` are the former children, unchanged and in the same order, followed by
`c`: `c` is the last child and the list is longer by one. -/
theorem appendChild_effect (p c : Nat) (w : World) :
    ((AppendChild p c w).heap c).Parent = some p ∧
    ((AppendChild p c w).heap p).children = (w.heap p).children ++ [c] ∧
    ((AppendChild p c w).heap p).children.getLast? = some c ∧
    ((AppendChild p c w).heap p).children.length = (w.heap p).children.length + 1 ∧
    ((AppendChild p c w).heap p).children.take (w.heap p).children.length =
      (w.heap p).children := by
  have hkids : ((AppendChild p c w).heap p).children = (w.heap p).children ++ [c] := by
    by_cases hpc : p = c
    · subst hpc
      simp [AppendChild, setNode]
    · simp [AppendChild, setNode, hpc]
  refine ⟨?_, hkids, ?_, ?_, ?_⟩
  · by_cases hcp : c = p
    · subst hcp
      simp [AppendChild, setNode]
    · simp [AppendChild, setNode, hcp]
  · rw [hkids]; simp
  · rw [hkids]; simp
  · rw [hkids]; simp

/-- C10: the scenario.  Root `CS101`, the fetch lists `HW1` and `HW2` for the
root, one `Submission` for each of them and nothing for a submission; the
build with `depth = 2` succeeds and yields five nodes whose pre-order of names
is `CS101, HW1, Submission, HW2, Submission`; saving that tree with
`depth = 1` passes three nodes to the encoder, `CS101, HW1, HW2`, in this
order, and writes their three records. -/
theorem course_scenario :
    courseBuilt = some (Except.ok 0, courseWorld) ∧
    courseWorld.next = 5 ∧
    (preorderWithin courseWorld.heap 0 2).length = 5 ∧
    (preorderWithin courseWorld.heap 0 2).map (fun p => (courseWorld.heap p).Name) =
      ["CS101", "HW1", "Submission", "HW2", "Submission"] ∧
    levelNodes courseWorld.heap 0 3 = [] ∧
    (SaveAssignmentTreeToJSON (Except.ok ()) (Except.ok ()) (nameEncode courseWorld.heap)
        courseWorld.heap 0 1).map
        (fun r => (r.err, r.file.map (fun e =>
          (e.calls.map (fun p => (courseWorld.heap p).Name), e.out)))) =
      some (none, some (["CS101", "HW1", "HW2"], ["CS101", "HW1", "HW2"])) :=
  ⟨rfl, by decide, by decide, by decide, by decide, by decide⟩

end Themis

namespace Themis

/-! ## Requests only grow -/

theorem buildChildren_requests
    (recur : String → Nat → World → Option (Except String Nat × World))
    (hrec : ∀ u c v res v1, recur u c v = some (res, v1) → v.requests <+: v1.requests) :
    ∀ (cs : List Nat) (v : World) (res : Option String) (v2 : World),
      buildChildren recur cs v = some (res, v2) → v.requests <+: v2.requests := by
  intro cs
  induction cs with
  | nil =>
    intro v res v2 hb
    rw [buildChildren_nil] at hb
    simp only [Option.some.injEq, Prod.mk.injEq] at hb
    obtain ⟨-, rfl⟩ := hb
    exact List.prefix_refl _
  | cons c rest ih =>
    intro v res v2 hb
    rw [buildChildren_cons] at hb
    cases hcall : recur (v.heap c).URL c v with
    | none => rw [hcall] at hb; simp at hb
    | some pr =>
      obtain ⟨res1, v1⟩ := pr
      have h1 := hrec _ c v res1 v1 hcall
      rw [hcall] at hb
      cases res1 with
      | error e =>
        simp only [Option.some.injEq, Prod.mk.injEq] at hb
        obtain ⟨-, rfl⟩ := hb
        exact h1
      | ok x =>
        simp only at hb
        exact List.IsPrefix.trans h1 (ih v1 res v2 hb)

/-- The requests a build adds start with the URL it was given. -/
theorem pull_requests (fetch : Fetch) (depth : Int) :
    ∀ (url : String) (r : Nat) (w : World) (res : Except String Nat) (w2 : World),
      PullAssignmentsFromThemisAndBuildTree fetch url r depth w = some (res, w2) →
      ∃ rest, w2.requests = w.requests ++ url :: rest := by
  generalize hn : depth.toNat = n
  induction n using Nat.strong_induction_on generalizing depth with
  | _ n ih =>
    intro url r w res w2 hp
    cases hf : fetch w.requests url with
    | error e =>
      rw [pull_of_fetch_error fetch url r depth w e hf] at hp
      simp only [Option.some.injEq, Prod.mk.injEq] at hp
      obtain ⟨-, rfl⟩ := hp
      exact ⟨[], rfl⟩
    | ok as =>
      have hreqs := appendAssignments_requests r as { w with requests := w.requests ++ [url] }
      simp only at hreqs
      by_cases hd : depth > 0
      · rw [pull_of_step fetch url r depth w as hf hd] at hp
        have hloop := buildChildren_requests
          (fun u c => PullAssignmentsFromThemisAndBuildTree fetch u c (depth - 1))
          (fun u c v res v1 hcall => by
            obtain ⟨rest, hrest⟩ :=
              ih (depth - 1).toNat (by omega) (depth - 1) rfl u c v res v1 hcall
            exact ⟨u :: rest, hrest.symm⟩)
          ((appendAssignments r as { w with requests := w.requests ++ [url] }).heap r).children
          (appendAssignments r as { w with requests := w.requests ++ [url] })
        have hfin : ∀ resb v2,
            buildChildren (fun u c => PullAssignmentsFromThemisAndBuildTree fetch u c (depth - 1))
              ((appendAssignments r as { w with requests := w.requests ++ [url] }).heap r).children
              (appendAssignments r as { w with requests := w.requests ++ [url] }) = some (resb, v2) →
            ∃ rest, v2.requests = w.requests ++ url :: rest := by
          intro resb v2 hb
          obtain ⟨t, ht⟩ := hloop resb v2 hb
          rw [hreqs] at ht
          exact ⟨t, by rw [← ht]; simp⟩
        cases hb : buildChildren
            (fun u c => PullAssignmentsFromThemisAndBuildTree fetch u c (depth - 1))
            ((appendAssignments r as { w with requests := w.requests ++ [url] }).heap r).children
            (appendAssignments r as { w with requests := w.requests ++ [url] }) with
        | none => rw [hb] at hp; simp at hp
        | some pr =>
          obtain ⟨resb, v2⟩ := pr
          rw [hb] at hp
          cases resb with
          | none =>
            simp only [Option.some.injEq, Prod.mk.injEq] at hp
            obtain ⟨-, rfl⟩ := hp
            exact hfin _ _ hb
          | some e =>
            simp only [Option.some.injEq, Prod.mk.injEq] at hp
            obtain ⟨-, rfl⟩ := hp
            exact hfin _ _ hb
      · rw [pull_of_leaf fetch url r depth w as hf hd] at hp
        simp only [Option.some.injEq, Prod.mk.injEq] at hp
        obtain ⟨-, rfl⟩ := hp
        exact ⟨[], by rw [hreqs]⟩

/-! ## Properties of the constructors and of the depth bound -/

/-- C12: `BuildAssignmentNode(parent, name, url)` returns a new node whose
name, URL and parent are the ones given (a nil parent included) and whose
children list is empty; no node that existed before the call is changed, so
the new node is not attached: the children list of the parent is what it was.
`BuildRootAssignmentNode(name, url)` returns such a node with a nil parent. -/
theorem buildNode_effect (parent : Option Nat) (name url : String) (w : World) :
    (BuildAssignmentNode parent name url w).1 = w.next ∧
    (BuildAssignmentNode parent name url w).2.next = w.next + 1 ∧
    (BuildAssignmentNode parent name url w).2.heap (BuildAssignmentNode parent name url w).1 =
      { Parent := parent, Name := name, URL := url, children := [] } ∧
    (∀ q, q < w.next → (BuildAssignmentNode parent name url w).2.heap q = w.heap q) ∧
    (∀ q, parent = some q → q < w.next →
      ((BuildAssignmentNode parent name url w).2.heap q).children = (w.heap q).children) ∧
    (BuildRootAssignmentNode name url w).2.heap (BuildRootAssignmentNode name url w).1 =
      { Parent := none, Name := name, URL := url, children := [] } := by
  have hold : ∀ q, q < w.next → (BuildAssignmentNode parent name url w).2.heap q = w.heap q := by
    intro q hq
    have hne : q ≠ w.next := by omega
    simp [BuildAssignmentNode, setNode, hne]
  refine ⟨rfl, rfl, ?_, hold, ?_, ?_⟩
  · simp [BuildAssignmentNode, setNode]
  · intro q _ hq
    rw [hold q hq]
  · simp [BuildRootAssignmentNode, BuildAssignmentNode, setNode]

/-- Witness of C12: a node `HW1` built with the root `CS101` as parent: the
root still has no children. -/
theorem buildNode_effect_witness :
    ((BuildAssignmentNode (some 0) "HW1" "/hw1" courseStart).2.heap 0).children = [] ∧
    ((BuildAssignmentNode (some 0) "HW1" "/hw1" courseStart).2.heap 1).Parent = some 0 ∧
    (BuildAssignmentNode (some 0) "HW1" "/hw1" courseStart).2.heap 1 =
      { Parent := some 0, Name := "HW1", URL := "/hw1", children := [] } :=
  ⟨by decide, by decide, (buildNode_effect (some 0) "HW1" "/hw1" courseStart).2.2.1⟩

/-- C15: `PullAssignmentsFromThemisAndBuildTree` returns for every integer
depth, every fetch (also one whose pages list themselves) and every world:
the nesting of calls never exceeds `depth + 1` (one call for a depth that is
not positive), so any larger bound gives the same result, and the requests it
made are a finite list added to those made before. -/
theorem build_terminates (fetch : Fetch) (url : String) (root : Nat) (depth : Int) (w : World) :
    ∃ res w2,
      PullAssignmentsFromThemisAndBuildTree fetch url root depth w = some (res, w2) ∧
      (∀ fuel, depth.toNat < fuel → pullFuel fetch fuel url root depth w = some (res, w2)) ∧
      ∃ rest, w2.requests = w.requests ++ url :: rest := by
  have htotal := pull_total fetch depth url root w
  cases hp : PullAssignmentsFromThemisAndBuildTree fetch url root depth w with
  | none => rw [hp] at htotal; simp at htotal
  | some pr =>
    obtain ⟨res, w2⟩ := pr
    refine ⟨res, w2, rfl, ?_, pull_requests fetch depth url root w res w2 hp⟩
    intro fuel hfuel
    rw [pullFuel_enough fetch fuel url root depth w hfuel]
    exact hp

/-- Witness of C15: the remote whose every page lists itself, built with
`depth = 2`, returns after three requests. -/
theorem build_terminates_witness :
    (worldOf selfBuilt).requests = ["/cs101", "/cs101", "/cs101"] ∧
    ∃ res w2,
      PullAssignmentsFromThemisAndBuildTree selfFetch "/cs101" 0 2 courseStart = some (res, w2) ∧
      (∀ fuel, (2 : Int).toNat < fuel →
        pullFuel selfFetch fuel "/cs101" 0 2 courseStart = some (res, w2)) ∧
      ∃ rest, w2.requests = courseStart.requests ++ "/cs101" :: rest :=
  ⟨by decide, build_terminates selfFetch "/cs101" 0 2 courseStart⟩

/-- C18: a depth that is not positive is not a no-op: for every `depth <= 0`
the call is the call with `depth = 0`.  When the fetch lists `assignments`,
it returns the root, has made the one request for `url`, has allocated one
childless node per listed pair and appended them to the root in order, and
has made no recursive call. -/
theorem build_nonpositive_depth (fetch : Fetch) (url : String) (root : Nat) (depth : Int)
    (w : World) (hdepth : depth ≤ 0) :
    PullAssignmentsFromThemisAndBuildTree fetch url root depth w =
      PullAssignmentsFromThemisAndBuildTree fetch url root 0 w ∧
    ∀ assignments, fetch w.requests url = Except.ok assignments →
      ∃ w2, PullAssignmentsFromThemisAndBuildTree fetch url root depth w =
          some (Except.ok root, w2) ∧
        w2 = appendAssignments root assignments { w with requests := w.requests ++ [url] } ∧
        w2.requests = w.requests ++ [url] ∧ w2.next = w.next + assignments.length ∧
        (root < w.next →
          (w2.heap root).children =
            (w.heap root).children ++ List.range' w.next assignments.length ∧
          ∀ (i : Nat) (hi : i < assignments.length),
            w2.heap (w.next + i) =
              { Parent := some root, Name := assignments[i] "name",
                URL := assignments[i] "url", children := [] }) := by
  constructor
  · cases hf : fetch w.requests url with
    | error e =>
      rw [pull_of_fetch_error fetch url root depth w e hf,
        pull_of_fetch_error fetch url root 0 w e hf]
    | ok as =>
      rw [pull_of_leaf fetch url root depth w as hf (by omega),
        pull_of_leaf fetch url root 0 w as hf (by omega)]
  · intro as hf
    refine ⟨_, pull_of_leaf fetch url root depth w as hf (by omega), rfl,
      appendAssignments_requests root as _, appendAssignments_next root as _, ?_⟩
    intro hroot
    refine ⟨?_, ?_⟩
    · rw [appendAssignments_root root as { w with requests := w.requests ++ [url] } hroot]
    · intro i hi
      exact appendAssignments_new root as { w with requests := w.requests ++ [url] } hroot i hi

/-- Witness of C18: the scenario's course built with `depth = -3`: one
request, the two assignments of the root appended, nothing below them. -/
theorem build_nonpositive_depth_witness :
    (-3 : Int) ≤ 0 ∧
    (worldOf (PullAssignmentsFromThemisAndBuildTree courseFetch "/cs101" 0 (-3)
      courseStart)).requests = ["/cs101"] ∧
    ((worldOf (PullAssignmentsFromThemisAndBuildTree courseFetch "/cs101" 0 (-3)
      courseStart)).heap 0).children = [1, 2] ∧
    ((worldOf (PullAssignmentsFromThemisAndBuildTree courseFetch "/cs101" 0 (-3)
      courseStart)).heap 1).children = [] ∧
    PullAssignmentsFromThemisAndBuildTree courseFetch "/cs101" 0 (-3) courseStart =
      PullAssignmentsFromThemisAndBuildTree courseFetch "/cs101" 0 0 courseStart :=
  ⟨by decide, by decide, by decide, by decide,
    (build_nonpositive_depth courseFetch "/cs101" 0 (-3) courseStart (by decide)).1⟩

end Themis

namespace Themis

/-! ## Which children the builder recurses into -/

/-- A relation between two lists that holds elementwise carries over to any
relation it implies on the elements of the first list. -/
theorem forall2_imp_of_mem {α β : Type} {R S : α → β → Prop} :
    ∀ {l : List α} {m : List β}, List.Forall₂ R l m →
      (∀ a ∈ l, ∀ b, R a b → S a b) → List.Forall₂ S l m := by
  intro l m h
  induction h with
  | nil => intro _; exact List.Forall₂.nil
  | @cons a b l1 l2 hab _ ih =>
    intro himp
    exact List.Forall₂.cons (himp a (List.mem_cons_self _ _) b hab)
      (ih (fun a1 h1 b1 hr => himp a1 (List.mem_cons_of_mem _ h1) b1 hr))

/-- The second loop, when it meets no error, adds one run of requests per
listed child, in order, and each run starts with the URL of its child. -/
theorem buildChildren_segments
    (recur : String → Nat → World → Option (Except String Nat × World))
    (hrec : ∀ u c v res v1, WF v → c < v.next → recur u c v = some (res, v1) →
      Grows v v1 ∧ ∃ rest, v1.requests = v.requests ++ u :: rest) :
    ∀ (cs : List Nat) (v v2 : World), WF v → (∀ c ∈ cs, c < v.next) →
      buildChildren recur cs v = some (none, v2) →
      Grows v v2 ∧
      ∃ runs : List (List String),
        List.Forall₂ (fun c run => ∃ rest, run = (v.heap c).URL :: rest) cs runs ∧
        v2.requests = v.requests ++ runs.flatten := by
  intro cs
  induction cs with
  | nil =>
    intro v v2 _ _ hb
    rw [buildChildren_nil] at hb
    simp only [Option.some.injEq, Prod.mk.injEq, true_and] at hb
    subst hb
    exact ⟨grows_refl v, [], List.Forall₂.nil, by simp⟩
  | cons c rest ih =>
    intro v v2 hv hlt hb
    rw [buildChildren_cons] at hb
    cases hcall : recur (v.heap c).URL c v with
    | none => rw [hcall] at hb; simp at hb
    | some pr =>
      obtain ⟨res1, v1⟩ := pr
      rw [hcall] at hb
      cases res1 with
      | error e => simp at hb
      | ok x =>
        simp only at hb
        obtain ⟨hg1, tail1, hreq1⟩ := hrec _ c v _ v1 hv (hlt c (List.mem_cons_self _ _)) hcall
        have hv1 := wf_of_grows hv hg1
        have hlt1 : ∀ c1 ∈ rest, c1 < v1.next := fun c1 h1 =>
          lt_of_lt_of_le (hlt c1 (List.mem_cons_of_mem _ h1)) hg1.next_le
        obtain ⟨hg2, runs, hruns, hreq2⟩ := ih v1 v2 hv1 hlt1 hb
        refine ⟨grows_trans hg1 hg2, ((v.heap c).URL :: tail1) :: runs, ?_, ?_⟩
        · refine List.Forall₂.cons ⟨tail1, rfl⟩ ?_
          have hurl : ∀ c1 ∈ rest, (v1.heap c1).URL = (v.heap c1).URL := fun c1 h1 =>
            (hg1.old c1 (hlt c1 (List.mem_cons_of_mem _ h1))).2.1
          refine forall2_imp_of_mem hruns ?_
          intro c1 h1 run hrun
          obtain ⟨t, ht⟩ := hrun
          exact ⟨t, by rw [ht, hurl c1 h1]⟩
        · rw [hreq2, hreq1]
          simp

/-- With `depth > 0` the second loop of the build runs over the whole
children list of the node as the first loop left it: the children the node
had, then the nodes the first loop allocated. -/
theorem pull_step_children (fetch : Fetch) (url : String) (r : Nat) (depth : Int) (w : World)
    (as : List Assignment) (hr : r < w.next) (hf : fetch w.requests url = Except.ok as)
    (hd : depth > 0) :
    PullAssignmentsFromThemisAndBuildTree fetch url r depth w =
      match buildChildren (fun u c => PullAssignmentsFromThemisAndBuildTree fetch u c (depth - 1))
          ((w.heap r).children ++ List.range' w.next as.length)
          (appendAssignments r as { w with requests := w.requests ++ [url] }) with
      | none => none
      | some (some err, w2) => some (Except.error err, w2)
      | some (none, w2) => some (Except.ok r, w2) := by
  rw [pull_of_step fetch url r depth w as hf hd,
    appendAssignments_root r as { w with requests := w.requests ++ [url] } hr]

/-- C13 as stated fails: a root that already has the child `Old`, built with
`depth = 1`.  The call appends `HW1` and `HW2` (addresses 2 and 3), yet it
recurses into `Old` as well, and first: it requests `/old`.  The builder of
the specification's words does not. -/
theorem build_recurses_into_old_children :
    (grownWorld.heap 0).children = [1] ∧ (grownWorld.heap 1).URL = "/old" ∧
    ((worldOf (PullAssignmentsFromThemisAndBuildTree courseFetch "/cs101" 0 1
      grownWorld)).heap 0).children = [1, 2, 3] ∧
    (worldOf (PullAssignmentsFromThemisAndBuildTree courseFetch "/cs101" 0 1
      grownWorld)).requests = ["/cs101", "/old", "/hw1", "/hw2"] ∧
    (worldOf (pullNewChildrenOnly courseFetch "/cs101" 0 1 grownWorld)).requests =
      ["/cs101", "/hw1", "/hw2"] ∧
    PullAssignmentsFromThemisAndBuildTree courseFetch "/cs101" 0 1 grownWorld ≠
      pullNewChildrenOnly courseFetch "/cs101" 0 1 grownWorld := by
  refine ⟨by decide, by decide, by decide, by decide, by decide, ?_⟩
  intro h
  have h2 := congrArg (fun r => (worldOf r).requests) h
  revert h2
  decide

/-- C13, amended: with `depth > 0` the call recurses into every child in the
children list of the root as it stands after the first loop (the children the
root already had, then the children appended by this call), each once, with
`depth - 1` and the child's own URL, one after the other in list order.  On
success the requests made are the one for `url` followed by one run per child,
in order, each starting with the URL of its child.  For a root that had no
children these are the children appended by this call, and the call is the
builder of the specification's words. -/
theorem build_recurses_into_all_children (fetch : Fetch) (url : String) (root : Nat)
    (depth : Int) (w : World) (assignments : List Assignment) (hw : WF w)
    (hroot : root < w.next) (hdepth : depth > 0)
    (hlisting : fetch w.requests url = Except.ok assignments) :
    PullAssignmentsFromThemisAndBuildTree fetch url root depth w =
      (match buildChildren
          (fun u c => PullAssignmentsFromThemisAndBuildTree fetch u c (depth - 1))
          ((w.heap root).children ++ List.range' w.next assignments.length)
          (appendAssignments root assignments { w with requests := w.requests ++ [url] }) with
        | none => none
        | some (some err, w2) => some (Except.error err, w2)
        | some (none, w2) => some (Except.ok root, w2)) ∧
    (∀ x w2, PullAssignmentsFromThemisAndBuildTree fetch url root depth w =
        some (Except.ok x, w2) →
      ∃ runs : List (List String),
        List.Forall₂ (fun c run => ∃ rest, run = (w2.heap c).URL :: rest)
          ((w.heap root).children ++ List.range' w.next assignments.length) runs ∧
        w2.requests = w.requests ++ url :: runs.flatten) ∧
    ((w.heap root).children = [] →
      PullAssignmentsFromThemisAndBuildTree fetch url root depth w =
        pullNewChildrenOnly fetch url root depth w) := by
  have hstep := pull_step_children fetch url root depth w assignments hroot hlisting hdepth
  have hg1 : Grows w (appendAssignments root assignments
      { w with requests := w.requests ++ [url] }) :=
    grows_trans (grows_request w url)
      (appendAssignments_grows root assignments { w with requests := w.requests ++ [url] } hroot)
  have hw1 := wf_of_grows hw hg1
  have hrootkids := appendAssignments_root root assignments
    { w with requests := w.requests ++ [url] } hroot
  have hreqs := appendAssignments_requests root assignments
    { w with requests := w.requests ++ [url] }
  simp only at hrootkids hreqs
  refine ⟨hstep, ?_, ?_⟩
  · intro x w2 hok
    rw [hstep] at hok
    cases hb : buildChildren
        (fun u c => PullAssignmentsFromThemisAndBuildTree fetch u c (depth - 1))
        ((w.heap root).children ++ List.range' w.next assignments.length)
        (appendAssignments root assignments { w with requests := w.requests ++ [url] }) with
    | none => rw [hb] at hok; simp at hok
    | some pr =>
      obtain ⟨resb, v2⟩ := pr
      rw [hb] at hok
      cases resb with
      | some e => simp at hok
      | none =>
        simp only [Option.some.injEq, Prod.mk.injEq] at hok
        obtain ⟨-, rfl⟩ := hok
        have hlt : ∀ c ∈ (w.heap root).children ++ List.range' w.next assignments.length,
            c < (appendAssignments root assignments
              { w with requests := w.requests ++ [url] }).next := by
          intro c hc
          refine hw1 root (lt_of_lt_of_le hroot hg1.next_le) c ?_
          rw [hrootkids]
          exact hc
        obtain ⟨hg2, runs, hruns, hreq⟩ := buildChildren_segments
          (fun u c => PullAssignmentsFromThemisAndBuildTree fetch u c (depth - 1))
          (fun u c v res v1 hv hcv hcall =>
            ⟨(pull_grows_frame fetch (depth - 1) u c v res v1 hv hcv hcall).1,
              pull_requests fetch (depth - 1) u c v res v1 hcall⟩)
          _ _ v2 hw1 hlt hb
        refine ⟨runs, ?_, by rw [hreq, hreqs]; simp⟩
        have hurl : ∀ c ∈ (w.heap root).children ++ List.range' w.next assignments.length,
            (v2.heap c).URL = ((appendAssignments root assignments
              { w with requests := w.requests ++ [url] }).heap c).URL :=
          fun c hc => (hg2.old c (hlt c hc)).2.1
        refine forall2_imp_of_mem hruns ?_
        intro c1 h1 run hrun
        obtain ⟨t, ht⟩ := hrun
        exact ⟨t, by rw [ht, hurl c1 h1]⟩
  · intro hnone
    rw [hstep, hnone, List.nil_append]
    simp only [pullNewChildrenOnly, hlisting, if_pos hdepth]

/-- Witness of C13, amended: the root with the child `Old`, built with
`depth = 1`: one run of requests for each of `Old`, `HW1` and `HW2`. -/
theorem build_recurses_into_all_children_witness :
    WF grownWorld ∧ 0 < grownWorld.next ∧ (1 : Int) > 0 ∧
    courseFetch grownWorld.requests "/cs101" =
      Except.ok [entry "HW1" "/hw1", entry "HW2" "/hw2"] ∧
    (worldOf (PullAssignmentsFromThemisAndBuildTree courseFetch "/cs101" 0 1
      grownWorld)).requests = "/cs101" :: [["/old"], ["/hw1"], ["/hw2"]].flatten ∧
    PullAssignmentsFromThemisAndBuildTree courseFetch "/cs101" 0 1 grownWorld =
      (match buildChildren
          (fun u c => PullAssignmentsFromThemisAndBuildTree courseFetch u c (1 - 1))
          ((grownWorld.heap 0).children ++
            List.range' grownWorld.next [entry "HW1" "/hw1", entry "HW2" "/hw2"].length)
          (appendAssignments 0 [entry "HW1" "/hw1", entry "HW2" "/hw2"]
            { grownWorld with requests := grownWorld.requests ++ ["/cs101"] }) with
        | none => none
        | some (some err, w2) => some (Except.error err, w2)
        | some (none, w2) => some (Except.ok 0, w2)) :=
  ⟨grownWorld_wf, by decide, by decide, rfl, by decide,
    (build_recurses_into_all_children courseFetch "/cs101" 0 1 grownWorld
      [entry "HW1" "/hw1", entry "HW2" "/hw2"] grownWorld_wf (by decide) (by decide) rfl).1⟩

end Themis

namespace Themis

/-! ## What a failed build leaves behind -/

/-- The world a build leaves when the children before some child were built
and the build of that child failed: the root lists its former children and
one node for every listed pair, and every node that existed when the failing
call started keeps its parent and all its children. -/
theorem pull_failure_state (fetch : Fetch) (url : String) (root : Nat) (depth : Int)
    (w v v2 : World) (assignments : List Assignment) (before after : List Nat) (child : Nat)
    (cause : String) (hw : WF w) (hroot : root < w.next) (hdepth : depth > 0)
    (hlisting : fetch w.requests url = Except.ok assignments)
    (hchildren : ((appendAssignments root assignments
        { w with requests := w.requests ++ [url] }).heap root).children =
      before ++ child :: after)
    (hbefore : buildChildren
        (fun u c => PullAssignmentsFromThemisAndBuildTree fetch u c (depth - 1)) before
        (appendAssignments root assignments { w with requests := w.requests ++ [url] }) =
      some (none, v))
    (hfail : PullAssignmentsFromThemisAndBuildTree fetch (v.heap child).URL child (depth - 1) v =
      some (Except.error cause, v2)) :
    PullAssignmentsFromThemisAndBuildTree fetch url root depth w =
      some (Except.error ("error building tree: " ++ cause), v2) ∧
    (∃ extra, (v2.heap root).children =
        (w.heap root).children ++ List.range' w.next assignments.length ++ extra ∧
      ((∀ c ∈ (w.heap root).children, ¬ Reach w.heap c root) → extra = [])) ∧
    (∀ (i : Nat) (hi : i < assignments.length),
      (v2.heap (w.next + i)).Name = assignments[i] "name" ∧
      (v2.heap (w.next + i)).URL = assignments[i] "url" ∧
      (v2.heap (w.next + i)).Parent = some root) ∧
    (∀ p, p < v.next →
      (v2.heap p).Parent = (v.heap p).Parent ∧ (v2.heap p).Name = (v.heap p).Name ∧
      (v2.heap p).URL = (v.heap p).URL ∧ ∀ c ∈ (v.heap p).children, c ∈ (v2.heap p).children) := by
  have hres : PullAssignmentsFromThemisAndBuildTree fetch url root depth w =
      some (Except.error ("error building tree: " ++ cause), v2) := by
    rw [pull_of_step fetch url root depth w assignments hlisting hdepth, hchildren,
      buildChildren_append, hbefore]
    simp only
    rw [buildChildren_cons, hfail]
  obtain ⟨-, -, -, hkids, hnew⟩ :=
    pull_root_state fetch depth url root w _ v2 assignments hw hroot hlisting hres
  refine ⟨hres, hkids, hnew, ?_⟩
  have hg1 : Grows w (appendAssignments root assignments
      { w with requests := w.requests ++ [url] }) :=
    grows_trans (grows_request w url)
      (appendAssignments_grows root assignments { w with requests := w.requests ++ [url] } hroot)
  have hw1 := wf_of_grows hw hg1
  have hroot1 := lt_of_lt_of_le hroot hg1.next_le
  have hltall : ∀ c ∈ before ++ child :: after,
      c < (appendAssignments root assignments
        { w with requests := w.requests ++ [url] }).next := by
    intro c hc
    refine hw1 root hroot1 c ?_
    rw [hchildren]
    exact hc
  obtain ⟨hgv, -⟩ := buildChildren_frame
    (fun u c => PullAssignmentsFromThemisAndBuildTree fetch u c (depth - 1))
    (fun u c v res v1 hv hcv hcall =>
      pull_grows_frame fetch (depth - 1) u c v res v1 hv hcv hcall)
    before _ none v hw1 (fun c hc => hltall c (List.mem_append_left _ hc)) hbefore
  have hwv := wf_of_grows hw1 hgv
  have hchild : child < v.next :=
    lt_of_lt_of_le (hltall child (List.mem_append_right _ (List.mem_cons_self _ _))) hgv.next_le
  obtain ⟨hg2, -⟩ :=
    pull_grows_frame fetch (depth - 1) (v.heap child).URL child v _ v2 hwv hchild hfail
  intro p hp
  obtain ⟨hn, hu, hpar, extra, hc, -⟩ := hg2.old p hp
  refine ⟨hpar, hn, hu, ?_⟩
  intro c hcm
  rw [hc]
  exact List.mem_append_left _ hcm

/-- The second loop that ends with an error: some child failed after the
children before it were built, and the error is the wrapped error of that
child. -/
theorem buildChildren_error_split
    (recur : String → Nat → World → Option (Except String Nat × World)) :
    ∀ (cs : List Nat) (v : World) (err : String) (v2 : World),
      buildChildren recur cs v = some (some err, v2) →
      ∃ before child after vmid cause,
        cs = before ++ child :: after ∧
        buildChildren recur before v = some (none, vmid) ∧
        recur (vmid.heap child).URL child vmid = some (Except.error cause, v2) ∧
        err = "error building tree: " ++ cause := by
  intro cs
  induction cs with
  | nil =>
    intro v err v2 hb
    rw [buildChildren_nil] at hb
    simp at hb
  | cons c rest ih =>
    intro v err v2 hb
    rw [buildChildren_cons] at hb
    cases hcall : recur (v.heap c).URL c v with
    | none => rw [hcall] at hb; simp at hb
    | some pr =>
      obtain ⟨res1, v1⟩ := pr
      rw [hcall] at hb
      cases res1 with
      | error e =>
        simp only [Option.some.injEq, Prod.mk.injEq] at hb
        obtain ⟨he, rfl⟩ := hb
        exact ⟨[], c, rest, v, e, rfl, rfl, hcall, he.symm⟩
      | ok x =>
        simp only at hb
        obtain ⟨before, child, after, vmid, cause, hcs, hbefore, hfail, herr⟩ := ih v1 err v2 hb
        refine ⟨c :: before, child, after, vmid, cause, by rw [hcs]; rfl, ?_, hfail, herr⟩
        rw [buildChildren_cons, hcall]
        exact hbefore

/-- C14: when the root fetch succeeds and the call fails all the same, the
failure is that of the build of a child (`depth > 0`), and the call returns no
node although the root was changed in place: in the world the call leaves, the
children list of the root holds the former children followed by one node for
every listed pair, all of them and not only those up to the failing child,
each with the pair's name and URL and the root as parent; and every node that
existed when the failing call started, so every node of the subtrees built
before, keeps its parent and all its children. -/
theorem build_failure_keeps_mutation (fetch : Fetch) (url : String) (root : Nat) (depth : Int)
    (w w2 : World) (assignments : List Assignment) (err : String) (hw : WF w)
    (hroot : root < w.next) (hlisting : fetch w.requests url = Except.ok assignments)
    (hfailed : PullAssignmentsFromThemisAndBuildTree fetch url root depth w =
      some (Except.error err, w2)) :
    depth > 0 ∧
    (∃ extra, (w2.heap root).children =
        (w.heap root).children ++ List.range' w.next assignments.length ++ extra ∧
      ((∀ c ∈ (w.heap root).children, ¬ Reach w.heap c root) → extra = [])) ∧
    (∀ (i : Nat) (hi : i < assignments.length),
      (w2.heap (w.next + i)).Name = assignments[i] "name" ∧
      (w2.heap (w.next + i)).URL = assignments[i] "url" ∧
      (w2.heap (w.next + i)).Parent = some root) ∧
    ∃ before child after v cause,
      ((appendAssignments root assignments
          { w with requests := w.requests ++ [url] }).heap root).children =
        before ++ child :: after ∧
      buildChildren (fun u c => PullAssignmentsFromThemisAndBuildTree fetch u c (depth - 1))
          before (appendAssignments root assignments
            { w with requests := w.requests ++ [url] }) = some (none, v) ∧
      PullAssignmentsFromThemisAndBuildTree fetch (v.heap child).URL child (depth - 1) v =
        some (Except.error cause, w2) ∧
      err = "error building tree: " ++ cause ∧
      ∀ p, p < v.next →
        (w2.heap p).Parent = (v.heap p).Parent ∧ (w2.heap p).Name = (v.heap p).Name ∧
        (w2.heap p).URL = (v.heap p).URL ∧
        ∀ c ∈ (v.heap p).children, c ∈ (w2.heap p).children := by
  have hdepth : depth > 0 := by
    by_contra hd
    rw [pull_of_leaf fetch url root depth w assignments hlisting hd] at hfailed
    simp at hfailed
  have hstep := hfailed
  rw [pull_of_step fetch url root depth w assignments hlisting hdepth] at hstep
  cases hb : buildChildren
      (fun u c => PullAssignmentsFromThemisAndBuildTree fetch u c (depth - 1))
      ((appendAssignments root assignments
        { w with requests := w.requests ++ [url] }).heap root).children
      (appendAssignments root assignments { w with requests := w.requests ++ [url] }) with
  | none => rw [hb] at hstep; simp at hstep
  | some pr =>
    obtain ⟨resb, v2⟩ := pr
    rw [hb] at hstep
    cases resb with
    | none => simp at hstep
    | some e =>
      simp only [Option.some.injEq, Prod.mk.injEq, Except.error.injEq] at hstep
      obtain ⟨rfl, rfl⟩ := hstep
      obtain ⟨before, child, after, v, cause, hcs, hbefore, hfail, herr⟩ :=
        buildChildren_error_split _ _ _ _ _ hb
      obtain ⟨-, hkids, hnew, hkeep⟩ :=
        pull_failure_state fetch url root depth w v v2 assignments before after child cause
          hw hroot hdepth hlisting hcs hbefore hfail
      exact ⟨hdepth, hkids, hnew, before, child, after, v, cause, hcs, hbefore, hfail, herr,
        hkeep⟩

/-- Witness of C14: the page of the second of three assignments fails, with
`depth = 1`: the root has its three children, and the first of them, built
before the failure, still has its `Submission`. -/
theorem build_failure_keeps_mutation_witness :
    WF courseStart ∧ 0 < courseStart.next ∧
    flakyFetch courseStart.requests "/cs101" =
      Except.ok [entry "HW1" "/hw1", entry "HW2" "/hw2", entry "HW3" "/hw3"] ∧
    PullAssignmentsFromThemisAndBuildTree flakyFetch "/cs101" 0 1 courseStart =
      some (Except.error "error building tree: error getting assignments on page: timeout",
        flakyFailed) ∧
    (flakyFailed.heap 0).children = [1, 2, 3] ∧
    (flakyFirst.heap 1).children = [4] ∧ (flakyFailed.heap 1).children = [4] ∧
    (flakyFailed.heap 4).Name = "Submission" ∧ (flakyFailed.heap 4).Parent = some 1 ∧
    (1 : Int) > 0 ∧
    ∃ extra, (flakyFailed.heap 0).children =
        (courseStart.heap 0).children ++
          List.range' courseStart.next
            [entry "HW1" "/hw1", entry "HW2" "/hw2", entry "HW3" "/hw3"].length ++ extra ∧
      ((∀ c ∈ (courseStart.heap 0).children, ¬ Reach courseStart.heap c 0) → extra = []) :=
  ⟨courseStart_wf, by decide, rfl, rfl, by decide, by decide, by decide, by decide, by decide,
    (build_failure_keeps_mutation flakyFetch "/cs101" 0 1 courseStart flakyFailed
      [entry "HW1" "/hw1", entry "HW2" "/hw2", entry "HW3" "/hw3"]
      "error building tree: error getting assignments on page: timeout"
      courseStart_wf (by decide) rfl rfl).1,
    (build_failure_keeps_mutation flakyFetch "/cs101" 0 1 courseStart flakyFailed
      [entry "HW1" "/hw1", entry "HW2" "/hw2", entry "HW3" "/hw3"]
      "error building tree: error getting assignments on page: timeout"
      courseStart_wf (by decide) rfl rfl).2.1⟩

end Themis

namespace Themis

/-! ## A build below a childless node leaves a tree -/

theorem buildNode_wf (parent : Option Nat) (name url : String) {w : World} (hw : WF w) :
    WF (BuildAssignmentNode parent name url w).2 := by
  intro p hp c hc
  change p < w.next + 1 at hp
  change c < w.next + 1
  by_cases hpn : p = w.next
  · subst hpn
    simp [BuildAssignmentNode, setNode] at hc
  · have hc2 : c ∈ (w.heap p).children := by
      simpa [BuildAssignmentNode, setNode, hpn] using hc
    have := hw p (by omega) c hc2
    omega

/-- One more subtree: the tree below `r` in `v`, in which `c` is a childless
node, after a call that changed `c` only and left a tree below `c`. -/
theorem built_extend {v v1 : World} {r lo c : Nat} (hb : Built v.heap r lo v.next)
    (hc : lo ≤ c ∧ c < v.next) (hg : Grows v v1)
    (hsame : ∀ p, p < v.next → p ≠ c → v1.heap p = v.heap p)
    (hbc : Built v1.heap c v.next v1.next) : Built v1.heap r lo v1.next := by
  obtain ⟨hrlo, hnodes, hlisted⟩ := hb
  obtain ⟨-, hnodesc, hlistedc⟩ := hbc
  have hle := hg.next_le
  refine ⟨hrlo, ?_, ?_⟩
  · intro q hq
    by_cases hqc : q = c
    · subst hqc
      obtain ⟨hnd, hkids⟩ := hnodesc q (Or.inl rfl)
      refine ⟨hnd, fun c1 h1 => ?_⟩
      obtain ⟨h2, h3, h4, h5⟩ := hkids c1 h1
      exact ⟨by omega, h3, h4, h5⟩
    · by_cases hfresh : v.next ≤ q
      · have hq2 : q < v1.next := by
          rcases hq with h | h
          · omega
          · exact h.2
        obtain ⟨hnd, hkids⟩ := hnodesc q (Or.inr ⟨hfresh, hq2⟩)
        refine ⟨hnd, fun c1 h1 => ?_⟩
        obtain ⟨h2, h3, h4, h5⟩ := hkids c1 h1
        exact ⟨by omega, h3, h4, h5⟩
      · have hqv : q < v.next := by omega
        have hq3 : q = r ∨ (lo ≤ q ∧ q < v.next) := by
          rcases hq with h | h
          · exact Or.inl h
          · exact Or.inr ⟨h.1, hqv⟩
        rw [hsame q hqv hqc]
        obtain ⟨hnd, hkids⟩ := hnodes q hq3
        refine ⟨hnd, fun c1 h1 => ?_⟩
        obtain ⟨h2, h3, h4, h5⟩ := hkids c1 h1
        refine ⟨h2, by omega, h4, ?_⟩
        rw [(hg.old c1 h3).2.2.1]
        exact h5
  · intro p hp1 hp2
    by_cases hpv : p < v.next
    · obtain ⟨q, hq, hmem⟩ := hlisted p hp1 hpv
      have hqv : q < v.next := by
        rcases hq with h | h
        · omega
        · exact h.2
      refine ⟨q, ?_, ?_⟩
      · rcases hq with h | h
        · exact Or.inl h
        · exact Or.inr ⟨h.1, by omega⟩
      · obtain ⟨_, _, _, extra, hkids, _⟩ := hg.old q hqv
        rw [hkids]
        exact List.mem_append_left _ hmem
    · obtain ⟨q, hq, hmem⟩ := hlistedc p (by omega) hp2
      refine ⟨q, ?_, hmem⟩
      rcases hq with h | h
      · exact Or.inr ⟨by omega, by omega⟩
      · exact Or.inr ⟨by omega, h.2⟩

/-- The second loop over children that are childless nodes of the tree below
`r` keeps a tree below `r`, whether it meets an error or not. -/
theorem buildChildren_built
    (recur : String → Nat → World → Option (Except String Nat × World)) (r lo : Nat)
    (hframe : ∀ u c v res v1, WF v → c < v.next → recur u c v = some (res, v1) →
      Grows v v1 ∧ ∀ p, p < v.next → ¬ Reach v.heap c p → v1.heap p = v.heap p)
    (hrec : ∀ u c v res v1, WF v → c < v.next → (v.heap c).children = [] →
      recur u c v = some (res, v1) → Built v1.heap c v.next v1.next) :
    ∀ (cs : List Nat) (v : World) (res : Option String) (v2 : World), WF v → cs.Nodup →
      (∀ c ∈ cs, lo ≤ c ∧ c < v.next ∧ (v.heap c).children = []) →
      Built v.heap r lo v.next →
      buildChildren recur cs v = some (res, v2) → Built v2.heap r lo v2.next := by
  intro cs
  induction cs with
  | nil =>
    intro v res v2 _ _ _ hb hrun
    rw [buildChildren_nil] at hrun
    simp only [Option.some.injEq, Prod.mk.injEq] at hrun
    obtain ⟨-, rfl⟩ := hrun
    exact hb
  | cons c rest ih =>
    intro v res v2 hv hnd hcs hb hrun
    rw [buildChildren_cons] at hrun
    obtain ⟨hclo, hcv, hcc⟩ := hcs c (List.mem_cons_self _ _)
    obtain ⟨hcrest, hndrest⟩ := List.nodup_cons.mp hnd
    cases hcall : recur (v.heap c).URL c v with
    | none => rw [hcall] at hrun; simp at hrun
    | some pr =>
      obtain ⟨res1, v1⟩ := pr
      rw [hcall] at hrun
      obtain ⟨hg1, hf1⟩ := hframe _ c v _ v1 hv hcv hcall
      have hsame1 : ∀ p, p < v.next → p ≠ c → v1.heap p = v.heap p := fun p hp hpc =>
        hf1 p hp (fun hreach => hpc (reach_childless hcc hreach))
      have hb1 : Built v1.heap r lo v1.next :=
        built_extend hb ⟨hclo, hcv⟩ hg1 hsame1 (hrec _ c v _ v1 hv hcv hcc hcall)
      cases res1 with
      | error e =>
        simp only [Option.some.injEq, Prod.mk.injEq] at hrun
        obtain ⟨-, rfl⟩ := hrun
        exact hb1
      | ok x =>
        simp only at hrun
        refine ih v1 res v2 (wf_of_grows hv hg1) hndrest ?_ hb1 hrun
        intro c1 h1
        obtain ⟨h2, h3, h4⟩ := hcs c1 (List.mem_cons_of_mem _ h1)
        have hne : c1 ≠ c := fun h => hcrest (h ▸ h1)
        exact ⟨h2, lt_of_lt_of_le h3 hg1.next_le, by rw [hsame1 c1 h3 hne]; exact h4⟩

/-- A build below a childless node leaves a tree of the node and the nodes it
allocated, whether it meets an error or not. -/
theorem pull_built (fetch : Fetch) (depth : Int) :
    ∀ (url : String) (r : Nat) (w : World) (res : Except String Nat) (w2 : World),
      WF w → r < w.next → (w.heap r).children = [] →
      PullAssignmentsFromThemisAndBuildTree fetch url r depth w = some (res, w2) →
      Built w2.heap r w.next w2.next := by
  generalize hn : depth.toNat = n
  induction n using Nat.strong_induction_on generalizing depth with
  | _ n ih =>
    intro url r w res w2 hw hr hc hp
    cases hf : fetch w.requests url with
    | error e =>
      rw [pull_of_fetch_error fetch url r depth w e hf] at hp
      simp only [Option.some.injEq, Prod.mk.injEq] at hp
      obtain ⟨-, rfl⟩ := hp
      refine ⟨hr, ?_, ?_⟩
      · intro q hq
        have hqr : q = r := by
          rcases hq with h | h
          · exact h
          · simp only at h; omega
        subst hqr
        simp only
        rw [hc]
        exact ⟨List.nodup_nil, fun c h => by simp at h⟩
      · intro p h1 h2
        simp only at h2
        omega
    | ok as =>
      have hroot := appendAssignments_root r as { w with requests := w.requests ++ [url] } hr
      have hnew := appendAssignments_new r as { w with requests := w.requests ++ [url] } hr
      have hnext := appendAssignments_next r as { w with requests := w.requests ++ [url] }
      have hg1 := appendAssignments_grows r as { w with requests := w.requests ++ [url] } hr
      have hw1 : WF (appendAssignments r as { w with requests := w.requests ++ [url] }) :=
        wf_of_grows (wf_request hw url) hg1
      simp only at hroot hnew hnext
      rw [hc, List.nil_append] at hroot
      have hnode : ∀ c, w.next ≤ c → c < w.next + as.length →
          ((appendAssignments r as { w with requests := w.requests ++ [url] }).heap c).children
            = [] ∧
          ((appendAssignments r as { w with requests := w.requests ++ [url] }).heap c).Parent
            = some r := by
        intro c h1 h2
        have hi : c - w.next < as.length := by omega
        have := hnew (c - w.next) hi
        rw [show w.next + (c - w.next) = c by omega] at this
        rw [this]
        exact ⟨rfl, rfl⟩
      have hb1 : Built (appendAssignments r as { w with requests := w.requests ++ [url] }).heap
          r w.next (appendAssignments r as { w with requests := w.requests ++ [url] }).next := by
        rw [hnext]
        refine ⟨hr, ?_, ?_⟩
        · intro q hq
          rcases hq with h | h
          · subst h
            rw [hroot]
            refine ⟨List.nodup_range' _ _, fun c hcm => ?_⟩
            rw [List.mem_range'_1] at hcm
            exact ⟨hcm.1, hcm.2, by omega, (hnode c hcm.1 hcm.2).2⟩
          · rw [(hnode q h.1 h.2).1]
            exact ⟨List.nodup_nil, fun c h => by simp at h⟩
        · intro p h1 h2
          refine ⟨r, Or.inl rfl, ?_⟩
          rw [hroot, List.mem_range'_1]
          exact ⟨h1, h2⟩
      by_cases hd : depth > 0
      · rw [pull_of_step fetch url r depth w as hf hd] at hp
        have hfin : ∀ resb v2,
            buildChildren (fun u c => PullAssignmentsFromThemisAndBuildTree fetch u c (depth - 1))
              ((appendAssignments r as { w with requests := w.requests ++ [url] }).heap r).children
              (appendAssignments r as { w with requests := w.requests ++ [url] }) = some (resb, v2) →
            Built v2.heap r w.next v2.next := by
          intro resb v2 hb
          rw [hroot] at hb
          refine buildChildren_built
            (fun u c => PullAssignmentsFromThemisAndBuildTree fetch u c (depth - 1)) r w.next
            (fun u c v res v1 hv hcv hcall =>
              pull_grows_frame fetch (depth - 1) u c v res v1 hv hcv hcall)
            (fun u c v res v1 hv hcv hcc hcall =>
              ih (depth - 1).toNat (by omega) (depth - 1) rfl u c v res v1 hv hcv hcc hcall)
            (List.range' w.next as.length) _ resb v2 hw1 (List.nodup_range' _ _) ?_ hb1 hb
          intro c hcm
          rw [List.mem_range'_1] at hcm
          exact ⟨hcm.1, by rw [hnext]; exact hcm.2, (hnode c hcm.1 hcm.2).1⟩
        cases hb : buildChildren
            (fun u c => PullAssignmentsFromThemisAndBuildTree fetch u c (depth - 1))
            ((appendAssignments r as { w with requests := w.requests ++ [url] }).heap r).children
            (appendAssignments r as { w with requests := w.requests ++ [url] }) with
        | none => rw [hb] at hp; simp at hp
        | some pr =>
          obtain ⟨resb, v2⟩ := pr
          rw [hb] at hp
          cases resb with
          | none =>
            simp only [Option.some.injEq, Prod.mk.injEq] at hp
            obtain ⟨-, rfl⟩ := hp
            exact hfin _ _ hb
          | some e =>
            simp only [Option.some.injEq, Prod.mk.injEq] at hp
            obtain ⟨-, rfl⟩ := hp
            exact hfin _ _ hb
      · rw [pull_of_leaf fetch url r depth w as hf hd] at hp
        simp only [Option.some.injEq, Prod.mk.injEq] at hp
        obtain ⟨-, rfl⟩ := hp
        exact hb1

end Themis

namespace Themis

/-! ## Trees: levels, reachability, back-references -/

/-- Levels of a tree given by a set of nodes `T`: closed under children, no
child listed twice or by two parents, the root listed by none. -/
theorem levels_of_tree (h : Nat → AssignmentNode) (r : Nat) (T : Nat → Prop) (hr : T r)
    (hclosed : ∀ a, T a → ∀ c ∈ (h a).children, T c)
    (hnodup : ∀ a, T a → (h a).children.Nodup)
    (huniq : ∀ a b, T a → T b → ∀ c, c ∈ (h a).children → c ∈ (h b).children → a = b)
    (hnoroot : ∀ a, T a → r ∉ (h a).children) :
    (∀ k, ∀ q ∈ levelNodes h r k, T q) ∧ (∀ k, (levelNodes h r k).Nodup) ∧
    (∀ i j, i < j → List.Disjoint (levelNodes h r i) (levelNodes h r j)) ∧
    ∀ d, (preorderWithin h r d).Nodup := by
  have hin : ∀ k, ∀ q ∈ levelNodes h r k, T q := by
    intro k
    induction k with
    | zero =>
      intro q hq
      simp only [levelNodes, List.mem_singleton] at hq
      subst hq
      exact hr
    | succ k ih =>
      intro q hq
      rw [levelNodes_succ_right, List.mem_flatMap] at hq
      obtain ⟨a, ha, hqa⟩ := hq
      exact hclosed a (ih a ha) q hqa
  have hnd : ∀ k, (levelNodes h r k).Nodup := by
    intro k
    induction k with
    | zero => simp [levelNodes]
    | succ k ih =>
      rw [levelNodes_succ_right, List.nodup_flatMap]
      refine ⟨fun a ha => hnodup a (hin k a ha), ?_⟩
      refine List.Nodup.pairwise_of_forall_ne ih ?_
      intro a ha b hb hab
      simp only [Function.onFun]
      intro x hxa hxb
      exact hab (huniq a b (hin k a ha) (hin k b hb) x hxa hxb)
  have hdis : ∀ i j, i < j → List.Disjoint (levelNodes h r i) (levelNodes h r j) := by
    intro i
    induction i with
    | zero =>
      intro j hj x hxi hxj
      obtain ⟨m, rfl⟩ : ∃ m, j = m + 1 := ⟨j - 1, by omega⟩
      simp only [levelNodes, List.mem_singleton] at hxi
      subst hxi
      rw [levelNodes_succ_right, List.mem_flatMap] at hxj
      obtain ⟨a, ham, ha⟩ := hxj
      exact hnoroot a (hin m a ham) ha
    | succ i ih =>
      intro j hj x hxi hxj
      obtain ⟨m, rfl⟩ : ∃ m, j = m + 1 := ⟨j - 1, by omega⟩
      rw [levelNodes_succ_right, List.mem_flatMap] at hxi hxj
      obtain ⟨a, hai, hxa⟩ := hxi
      obtain ⟨b, hbj, hxb⟩ := hxj
      have hab := huniq a b (hin i a hai) (hin m b hbj) x hxa hxb
      subst hab
      exact ih m (by omega) hai hbj
  refine ⟨hin, hnd, hdis, ?_⟩
  intro d
  rw [(preorder_perm_levels h d r).nodup_iff, List.nodup_flatMap]
  refine ⟨fun k _ => hnd k, ?_⟩
  refine List.Pairwise.imp ?_ (List.pairwise_lt_range (d + 1))
  intro i j hij
  exact hdis i j hij

/-- The levels of the tree a build leaves. -/
theorem built_levels {h : Nat → AssignmentNode} {r lo hi : Nat} (hb : Built h r lo hi) :
    (∀ k, ∀ q ∈ levelNodes h r k, q = r ∨ (lo ≤ q ∧ q < hi)) ∧
    (∀ k, (levelNodes h r k).Nodup) ∧
    (∀ i j, i < j → List.Disjoint (levelNodes h r i) (levelNodes h r j)) ∧
    ∀ d, (preorderWithin h r d).Nodup := by
  obtain ⟨hrlo, hnodes, -⟩ := hb
  refine levels_of_tree h r (fun q => q = r ∨ (lo ≤ q ∧ q < hi)) (Or.inl rfl) ?_ ?_ ?_ ?_
  · intro a ha c hc
    obtain ⟨h1, h2, _, _⟩ := (hnodes a ha).2 c hc
    exact Or.inr ⟨h1, h2⟩
  · intro a ha
    exact (hnodes a ha).1
  · intro a b ha hb2 c hca hcb
    have h1 := ((hnodes a ha).2 c hca).2.2.2
    have h2 := ((hnodes b hb2).2 c hcb).2.2.2
    rw [h1] at h2
    exact Option.some.inj h2
  · intro a ha hmem
    have := ((hnodes a ha).2 r hmem).1
    omega

theorem reach_mem_level {h : Nat → AssignmentNode} {a b : Nat} (hab : Reach h a b) :
    ∃ k, b ∈ levelNodes h a k := by
  induction hab with
  | refl => exact ⟨0, by simp [levelNodes]⟩
  | @tail c d _ hstep ih =>
    obtain ⟨k, hk⟩ := ih
    refine ⟨k + 1, ?_⟩
    rw [levelNodes_succ_right, List.mem_flatMap]
    exact ⟨c, hk, hstep⟩

/-- Every node a build allocated is reached from the node it was given. -/
theorem built_reach {h : Nat → AssignmentNode} {r lo hi : Nat} (hb : Built h r lo hi) :
    ∀ p, lo ≤ p → p < hi → Reach h r p := by
  intro p
  induction p using Nat.strong_induction_on with
  | _ p ih =>
    intro h1 h2
    obtain ⟨q, hq, hmem⟩ := hb.2.2 p h1 h2
    have hqp := ((hb.2.1 q hq).2 p hmem).2.2.1
    rcases hq with h | h
    · subst h
      exact Relation.ReflTransGen.single hmem
    · exact Relation.ReflTransGen.tail (ih q hqp h.1 h.2) hmem

/-- In the tree a build leaves, what is reached from a node of the tree is a
node of the tree at the same or a later address. -/
theorem built_reach_le {h : Nat → AssignmentNode} {r lo hi : Nat} (hb : Built h r lo hi)
    {a b : Nat} (ha : a = r ∨ (lo ≤ a ∧ a < hi)) (hab : Reach h a b) :
    a ≤ b ∧ (b = r ∨ (lo ≤ b ∧ b < hi)) := by
  induction hab with
  | refl => exact ⟨le_refl _, ha⟩
  | @tail c d _ hstep ih =>
    obtain ⟨hle, hc⟩ := ih
    obtain ⟨h1, h2, h3, _⟩ := (hb.2.1 c hc).2 d hstep
    exact ⟨by omega, Or.inr ⟨h1, h2⟩⟩

/-- C16: after a successful `PullAssignmentsFromThemisAndBuildTree` on a root
made by `BuildRootAssignmentNode`, the root and the nodes allocated since (the
addresses from the root's up to the allocation pointer) are a rooted tree with
consistent back-references: the root is returned and is the only one of them
whose `Parent` is nil; every other one has a `Parent` among them, allocated
before it, which lists it exactly once, and no other of them lists it; no
node lists the root; a child is never an ancestor of its parent (no cycle);
and every one of them is reached from the root. -/
theorem build_yields_tree (fetch : Fetch) (name url fetchURL : String) (depth : Int)
    (w0 w2 : World) (x : Nat) (hw : WF w0)
    (hok : PullAssignmentsFromThemisAndBuildTree fetch fetchURL
        (BuildRootAssignmentNode name url w0).1 depth (BuildRootAssignmentNode name url w0).2 =
      some (Except.ok x, w2)) :
    (BuildRootAssignmentNode name url w0).1 = w0.next ∧ x = w0.next ∧ w0.next < w2.next ∧
    (∀ p, w0.next ≤ p → p < w2.next → ((w2.heap p).Parent = none ↔ p = w0.next)) ∧
    (∀ p, w0.next < p → p < w2.next →
      ∃ q, w0.next ≤ q ∧ q < p ∧ (w2.heap p).Parent = some q ∧
        (w2.heap q).children.count p = 1 ∧
        ∀ q2, w0.next ≤ q2 → q2 < w2.next → p ∈ (w2.heap q2).children → q2 = q) ∧
    (∀ q, w0.next ≤ q → q < w2.next →
      w0.next ∉ (w2.heap q).children ∧
      ∀ c ∈ (w2.heap q).children, q < c ∧ c < w2.next ∧ ¬ Reach w2.heap c q) ∧
    (∀ p, w0.next ≤ p → p < w2.next → Reach w2.heap w0.next p) := by
  have hw1 : WF (BuildRootAssignmentNode name url w0).2 := buildNode_wf none name url hw
  have hr1 : (BuildRootAssignmentNode name url w0).1 < (BuildRootAssignmentNode name url w0).2.next :=
    Nat.lt_succ_self _
  have hnode : (BuildRootAssignmentNode name url w0).2.heap w0.next =
      { Parent := none, Name := name, URL := url, children := [] } := by
    simp [BuildRootAssignmentNode, BuildAssignmentNode, setNode]
  have hb := pull_built fetch depth fetchURL _ _ _ w2 hw1 hr1 (by
    show ((BuildRootAssignmentNode name url w0).2.heap w0.next).children = []
    rw [hnode]) hok
  obtain ⟨hg, -⟩ := pull_grows_frame fetch depth fetchURL _ _ _ w2 hw1 hr1 hok
  have hx := pull_ok_root fetch depth fetchURL _ _ x w2 hok
  change Built w2.heap w0.next (w0.next + 1) w2.next at hb
  change x = w0.next at hx
  have hle : w0.next + 1 ≤ w2.next := hg.next_le
  have hpar : (w2.heap w0.next).Parent = none := by
    have := (hg.old w0.next (Nat.lt_succ_self _)).2.2.1
    rw [this, hnode]
  have hT : ∀ q, w0.next ≤ q → q < w2.next → (q = w0.next ∨ (w0.next + 1 ≤ q ∧ q < w2.next)) := by
    intro q h1 h2
    by_cases h : q = w0.next
    · exact Or.inl h
    · exact Or.inr ⟨by omega, h2⟩
  have hparent : ∀ p, w0.next < p → p < w2.next →
      ∃ q, w0.next ≤ q ∧ q < p ∧ (w2.heap p).Parent = some q ∧
        (w2.heap q).children.count p = 1 ∧
        ∀ q2, w0.next ≤ q2 → q2 < w2.next → p ∈ (w2.heap q2).children → q2 = q := by
    intro p h1 h2
    obtain ⟨q, hq, hmem⟩ := hb.2.2 p h1 h2
    obtain ⟨hnd, hkids⟩ := hb.2.1 q hq
    obtain ⟨_, _, hqp, hpq⟩ := hkids p hmem
    refine ⟨q, ?_, hqp, hpq, List.count_eq_one_of_mem hnd hmem, ?_⟩
    · rcases hq with h | h
      · omega
      · omega
    · intro q2 h3 h4 hmem2
      have := ((hb.2.1 q2 (hT q2 h3 h4)).2 p hmem2).2.2.2
      rw [hpq] at this
      exact (Option.some.inj this).symm
  refine ⟨rfl, hx, by omega, ?_, hparent, ?_, ?_⟩
  · intro p h1 h2
    constructor
    · intro hnone
      by_contra hne
      obtain ⟨q, _, _, hq, _⟩ := hparent p (by omega) h2
      rw [hnone] at hq
      simp at hq
    · intro h
      rw [h]
      exact hpar
  · intro q h1 h2
    obtain ⟨_, hkids⟩ := hb.2.1 q (hT q h1 h2)
    refine ⟨fun hmem => ?_, fun c hc => ?_⟩
    · have := (hkids w0.next hmem).1
      omega
    · obtain ⟨h3, h4, h5, _⟩ := hkids c hc
      refine ⟨h5, h4, fun hreach => ?_⟩
      have := (built_reach_le hb (Or.inr ⟨h3, h4⟩) hreach).1
      omega
  · intro p h1 h2
    rcases hT p h1 h2 with h | h
    · rw [h]
      exact Relation.ReflTransGen.refl
    · exact built_reach hb p h.1 h.2

/-- Witness of C16: the scenario's course, root made in the empty world and
built with `depth = 2`: five nodes, `HW1` at address 1 has the root as parent
and is listed once by the root. -/
theorem build_yields_tree_witness :
    WF emptyWorld ∧
    PullAssignmentsFromThemisAndBuildTree courseFetch "/cs101"
        (BuildRootAssignmentNode "CS101" "/cs101" emptyWorld).1 2
        (BuildRootAssignmentNode "CS101" "/cs101" emptyWorld).2 =
      some (Except.ok 0, courseWorld) ∧
    courseWorld.next = 5 ∧ (courseWorld.heap 1).Parent = some 0 ∧
    (courseWorld.heap 0).children.count 1 = 1 ∧
    ∀ p, emptyWorld.next ≤ p → p < courseWorld.next → Reach courseWorld.heap emptyWorld.next p :=
  ⟨fun p hp => absurd hp (Nat.not_lt_zero p), rfl, by decide, by decide, by decide,
    (build_yields_tree courseFetch "CS101" "/cs101" "/cs101" 2 emptyWorld courseWorld 0
      (fun p hp => absurd hp (Nat.not_lt_zero p)) rfl).2.2.2.2.2.2⟩

end Themis

namespace Themis

/-! ## The depth of the build against the depth of the save -/

theorem mem_preorder_of_mem_level (h : Nat → AssignmentNode) (r : Nat) {p k d : Nat}
    (hk : k ≤ d) (hp : p ∈ levelNodes h r k) : p ∈ preorderWithin h r d := by
  rw [(preorder_perm_levels h d r).mem_iff, List.mem_flatMap]
  exact ⟨k, List.mem_range.mpr (by omega), hp⟩

theorem mem_level_of_mem_preorder (h : Nat → AssignmentNode) (r : Nat) {p d : Nat}
    (hp : p ∈ preorderWithin h r d) : ∃ k, k ≤ d ∧ p ∈ levelNodes h r k := by
  rw [(preorder_perm_levels h d r).mem_iff, List.mem_flatMap] at hp
  obtain ⟨k, hk, hpk⟩ := hp
  exact ⟨k, by have := List.mem_range.mp hk; omega, hpk⟩

/-- C19: the depths of build and save are one level apart.  After a
successful build with `depth >= 0` below a childless root, a save with the
same depth (through an encoder that does not fail) returns no error and
writes one record for each node at the levels `0..depth`, the record the
encoder returned for it, each node once, and none for a node at level
`depth + 1`, while a save with `depth + 1` or more writes in the same way one
record for every node reached from the root and for no other: for the root
and every node the build allocated. -/
theorem save_depth_off_by_one (fetch : Fetch) (url : String) (root : Nat) (depth : Int)
    (w w2 : World) (x : Nat) (close : Except String Unit) (enc : Encode)
    (hw : WF w) (hroot : root < w.next)
    (hchildless : (w.heap root).children = []) (hdepth : 0 ≤ depth)
    (hok : PullAssignmentsFromThemisAndBuildTree fetch url root depth w =
      some (Except.ok x, w2))
    (hencodes : ∀ calls p, ∃ record, enc calls p = Except.ok record) :
    (∃ records,
      encodeAssignmentTree enc w2.heap root depth { calls := [], out := [], torn := "" } =
        some (none, { calls := visited w2.heap root depth, out := records, torn := "" }) ∧
      (SaveAssignmentTreeToJSON (Except.ok ()) close enc w2.heap root depth).map
          (fun r => (r.err, r.file)) =
        some (none, some { calls := visited w2.heap root depth, out := records, torn := "" }) ∧
      records.length = (visited w2.heap root depth).length ∧
      ∀ (j : Nat) (hj : j < (visited w2.heap root depth).length) (hr : j < records.length),
        enc ((visited w2.heap root depth).take j) (visited w2.heap root depth)[j] =
          Except.ok records[j]) ∧
    (visited w2.heap root depth).Nodup ∧
    (visited w2.heap root depth).Perm
      ((List.range (depth.toNat + 1)).flatMap (fun k => levelNodes w2.heap root k)) ∧
    (∀ p ∈ levelNodes w2.heap root (depth.toNat + 1), p ∉ visited w2.heap root depth) ∧
    ∀ larger : Int, depth + 1 ≤ larger →
      (∃ records,
        encodeAssignmentTree enc w2.heap root larger { calls := [], out := [], torn := "" } =
          some (none, { calls := visited w2.heap root larger, out := records, torn := "" }) ∧
        (SaveAssignmentTreeToJSON (Except.ok ()) close enc w2.heap root larger).map
            (fun r => (r.err, r.file)) =
          some (none, some { calls := visited w2.heap root larger, out := records,
                             torn := "" }) ∧
        records.length = (visited w2.heap root larger).length ∧
        ∀ (j : Nat) (hj : j < (visited w2.heap root larger).length) (hr : j < records.length),
          enc ((visited w2.heap root larger).take j) (visited w2.heap root larger)[j] =
            Except.ok records[j]) ∧
      (visited w2.heap root larger).Nodup ∧
      (∀ q, q ∈ visited w2.heap root larger ↔ Reach w2.heap root q) ∧
      root ∈ visited w2.heap root larger ∧
      ∀ p, w.next ≤ p → p < w2.next → p ∈ visited w2.heap root larger := by
  have hb := pull_built fetch depth url root w _ w2 hw hroot hchildless hok
  obtain ⟨-, -, hdis, hnodup⟩ := built_levels hb
  have hdeep := levelNodes_nil_of_childless w2.heap root (depth.toNat + 1)
    (pull_childless fetch depth url root w x w2 hw hroot hchildless hok).1
  have hvis : ∀ d : Int, 0 ≤ d → visited w2.heap root d = preorderWithin w2.heap root d.toNat := by
    intro d hd
    simp [visited, not_lt.mpr hd]
  refine ⟨save_ok_records close enc w2.heap root depth hencodes, ?_, ?_, ?_, ?_⟩
  · rw [hvis depth hdepth]
    exact hnodup _
  · rw [hvis depth hdepth]
    exact preorder_perm_levels w2.heap depth.toNat root
  · intro p hp hmem
    rw [hvis depth hdepth] at hmem
    obtain ⟨k, hk, hpk⟩ := mem_level_of_mem_preorder w2.heap root hmem
    exact hdis k (depth.toNat + 1) (by omega) hpk hp
  · intro larger hl
    have hall : ∀ q, Reach w2.heap root q → q ∈ visited w2.heap root larger := by
      intro q hq
      rw [hvis larger (by omega)]
      obtain ⟨k, hk⟩ := reach_mem_level hq
      have hkd : k ≤ depth.toNat + 1 := by
        by_contra hgt
        rw [hdeep k (by omega)] at hk
        simp at hk
      exact mem_preorder_of_mem_level w2.heap root (by omega) hk
    refine ⟨save_ok_records close enc w2.heap root larger hencodes, ?_, ?_,
      hall root Relation.ReflTransGen.refl, fun p h1 h2 => hall p (built_reach hb p h1 h2)⟩
    · rw [hvis larger (by omega)]
      exact hnodup _
    · intro q
      refine ⟨fun hq => ?_, hall q⟩
      rw [hvis larger (by omega)] at hq
      obtain ⟨k, -, hk⟩ := mem_level_of_mem_preorder w2.heap root hq
      exact mem_levelNodes_reach k root q hk

/-- Witness of C19: the scenario's course built with `depth = 1` has the two
submissions at level 2; the save with `depth = 1` writes the records of
`CS101, HW1, HW2`, the save with `depth = 2` those of all five nodes. -/
theorem save_depth_off_by_one_witness :
    WF courseStart ∧ 0 < courseStart.next ∧ (courseStart.heap 0).children = [] ∧
    (0 : Int) ≤ 1 ∧
    (∀ calls p, ∃ record, nameEncode (worldOf (PullAssignmentsFromThemisAndBuildTree
      courseFetch "/cs101" 0 1 courseStart)).heap calls p = Except.ok record) ∧
    levelNodes (worldOf (PullAssignmentsFromThemisAndBuildTree courseFetch "/cs101" 0 1
      courseStart)).heap 0 2 = [3, 4] ∧
    SaveAssignmentTreeToJSON (Except.ok ()) (Except.ok ())
        (nameEncode (worldOf (PullAssignmentsFromThemisAndBuildTree courseFetch "/cs101" 0 1
          courseStart)).heap)
        (worldOf (PullAssignmentsFromThemisAndBuildTree courseFetch "/cs101" 0 1
          courseStart)).heap 0 1 =
      some { err := none,
             file := some { calls := [0, 1, 2], out := ["CS101", "HW1", "HW2"], torn := "" },
             log := [] } ∧
    SaveAssignmentTreeToJSON (Except.ok ()) (Except.ok ())
        (nameEncode (worldOf (PullAssignmentsFromThemisAndBuildTree courseFetch "/cs101" 0 1
          courseStart)).heap)
        (worldOf (PullAssignmentsFromThemisAndBuildTree courseFetch "/cs101" 0 1
          courseStart)).heap 0 2 =
      some { err := none,
             file := some { calls := [0, 1, 3, 2, 4],
                            out := ["CS101", "HW1", "Submission", "HW2", "Submission"],
                            torn := "" },
             log := [] } ∧
    ∀ p ∈ levelNodes (worldOf (PullAssignmentsFromThemisAndBuildTree courseFetch "/cs101" 0 1
        courseStart)).heap 0 ((1 : Int).toNat + 1),
      p ∉ visited (worldOf (PullAssignmentsFromThemisAndBuildTree courseFetch "/cs101" 0 1
        courseStart)).heap 0 1 :=
  ⟨courseStart_wf, by decide, rfl, by decide, fun _ _ => ⟨_, rfl⟩, by decide, by decide,
    by decide,
    (save_depth_off_by_one courseFetch "/cs101" 0 1 courseStart _ 0 (Except.ok ())
      (nameEncode (worldOf (PullAssignmentsFromThemisAndBuildTree courseFetch "/cs101" 0 1
        courseStart)).heap)
      courseStart_wf (by decide) rfl (by decide) rfl (fun _ _ => ⟨_, rfl⟩)).2.2.2.1⟩

end Themis

namespace Themis

/-! ## The text of the records -/

/-- When every node of the list encodes to `f` of the node, whatever was
encoded before, all of them are passed to the encoder and their records are
written in order. -/
theorem encodeInOrder_map (enc : Encode) (h : Nat → AssignmentNode) (f : Nat → String) :
    ∀ (l : List Nat) (e : Encoder),
      (∀ calls, ∀ p ∈ l, enc calls p = Except.ok (f p)) →
      encodeInOrder enc h l e = (none, { e with calls := e.calls ++ l, out := e.out ++ l.map f }) := by
  intro l
  induction l with
  | nil => intro e _; simp [encodeInOrder]
  | cons p rest ih =>
    intro e hok
    rw [encodeInOrder_cons, hok e.calls p (List.mem_cons_self _ _)]
    simp only
    rw [ih _ (fun calls q hq => hok calls q (List.mem_cons_of_mem _ hq))]
    simp

theorem lineCount_append (a b : String) : lineCount (a ++ b) = lineCount a + lineCount b := by
  simp [lineCount, String.data_append, List.count_append]

theorem lineCount_join (l : List String) :
    lineCount (String.join l) = (l.map lineCount).sum := by
  rw [lineCount, String.join_eq]
  simp only [List.count_flatten, List.map_map]
  rfl

theorem five_le_sum (l : List String) (hl : ∀ s ∈ l, 5 ≤ lineCount s) :
    5 * l.length ≤ (l.map lineCount).sum := by
  induction l with
  | nil => simp
  | cons s rest ih =>
    have h1 := hl s (List.mem_cons_self _ _)
    have h2 := ih (fun t ht => hl t (List.mem_cons_of_mem _ ht))
    simp only [List.length_cons, List.map_cons, List.sum_cons]
    omega

/-- The text of a node that is marshalled at the outermost level: an opening
brace, the three fields on a line each, a closing brace. -/
theorem marshalNode_shape (quote : String → String) (h : Nat → AssignmentNode) (limit p : Nat)
    (text : String) (hm : marshalNode quote h limit 0 (some p) = Except.ok text) :
    ∃ parent, text = "\x7b\n    \"Parent\": " ++ parent ++ ",\n    \"Name\": " ++
        quote (h p).Name ++ ",\n    \"URL\": " ++ quote (h p).URL ++ "\n\x7d" := by
  cases limit with
  | zero => simp [marshalNode] at hm
  | succ limit =>
    simp only [marshalNode] at hm
    cases hpar : marshalNode quote h limit (0 + 1) (h p).Parent with
    | error e => rw [hpar] at hm; simp at hm
    | ok parent =>
      rw [hpar] at hm
      simp only [Except.ok.injEq] at hm
      refine ⟨parent, ?_⟩
      rw [← hm]
      apply String.ext
      simp [String.data_append, indent, String.join]

/-- The record of a node that is marshalled: the text and a newline, on at
least five lines. -/
theorem recordOf_shape (quote : String → String) (h : Nat → AssignmentNode) (limit p : Nat)
    (hm : ∃ text, marshalNode quote h limit 0 (some p) = Except.ok text) :
    (∀ calls, jsonEncode quote h limit calls p = Except.ok (recordOf quote h limit p)) ∧
    (∃ parent, recordOf quote h limit p = "\x7b\n    \"Parent\": " ++ parent ++
        ",\n    \"Name\": " ++ quote (h p).Name ++ ",\n    \"URL\": " ++ quote (h p).URL ++
        "\n\x7d\n") ∧
    5 ≤ lineCount (recordOf quote h limit p) := by
  obtain ⟨text, htext⟩ := hm
  obtain ⟨parent, hparent⟩ := marshalNode_shape quote h limit p text htext
  have hrec : recordOf quote h limit p = text ++ "\n" := by
    simp only [recordOf, htext]
  have hshape : text ++ "\n" = "\x7b\n    \"Parent\": " ++ parent ++
      ",\n    \"Name\": " ++ quote (h p).Name ++ ",\n    \"URL\": " ++ quote (h p).URL ++
      "\n\x7d\n" := by
    rw [hparent]
    apply String.ext
    simp [String.data_append]
  refine ⟨?_, ⟨parent, by rw [hrec, hshape]⟩, ?_⟩
  · intro calls
    simp only [jsonEncode, htext, hrec]
  · rw [hrec, hshape]
    simp only [lineCount_append]
    have h1 : lineCount "\x7b\n    \"Parent\": " = 1 := by decide
    have h2 : lineCount ",\n    \"Name\": " = 1 := by decide
    have h3 : lineCount ",\n    \"URL\": " = 1 := by decide
    have h4 : lineCount "\n\x7d\n" = 2 := by decide
    omega

/-! ## Properties of the output file -/

set_option maxRecDepth 100000

/-- C17 as stated fails: the scenario's tree saved with `depth = 0` through
the indenting JSON encoder.  One node is visited and one record is written,
and this record takes five lines of the file; with `depth = 1` the three
records take 23 lines. -/
theorem save_record_spans_lines :
    (SaveAssignmentTreeToJSON (Except.ok ()) (Except.ok ())
        (jsonEncode plainQuote courseWorld.heap 5) courseWorld.heap 0 0).map
        (fun r => (r.err, r.file)) =
      some (none, some { calls := [0], torn := "", out :=
        ["\x7b\n    \"Parent\": null,\n    \"Name\": \"CS101\",\n    \"URL\": \"/cs101\"\n\x7d\n"] }) ∧
    lineCount (String.join
      ["\x7b\n    \"Parent\": null,\n    \"Name\": \"CS101\",\n    \"URL\": \"/cs101\"\n\x7d\n"])
      = 5 ∧
    lineCount (String.join
      ["\x7b\n    \"Parent\": null,\n    \"Name\": \"CS101\",\n    \"URL\": \"/cs101\"\n\x7d\n"])
      ≠ ["\x7b\n    \"Parent\": null,\n    \"Name\": \"CS101\",\n    \"URL\": \"/cs101\"\n\x7d\n"].length ∧
    (SaveAssignmentTreeToJSON (Except.ok ()) (Except.ok ())
        (jsonEncode plainQuote courseWorld.heap 5) courseWorld.heap 0 1).map
        (fun r => r.file.map (fun e => (e.out.length, lineCount (String.join e.out)))) =
      some (some (3, 23)) :=
  ⟨rfl, by decide, by decide, by decide⟩

/-- C17, amended: the file written by `SaveAssignmentTreeToJSON` is a sequence
of JSON objects, one per visited node in visiting order, each followed by a
newline: every visited node produces exactly one record, which holds the
node's `Parent`, `Name` and `URL` fields, so the number of records equals the
number of nodes visited.  A record is indented by four spaces and takes at
least five lines, so the file has at least five times as many lines as
records. -/
theorem save_writes_indented_records (close : Except String Unit) (quote : String → String)
    (h : Nat → AssignmentNode) (limit root : Nat) (depth : Int)
    (hmarshal : ∀ p ∈ visited h root depth,
      ∃ text, marshalNode quote h limit 0 (some p) = Except.ok text) :
    (SaveAssignmentTreeToJSON (Except.ok ()) close (jsonEncode quote h limit) h root depth).map
        (fun r => (r.err, r.file)) =
      some (none, some { calls := visited h root depth,
                         out := (visited h root depth).map (recordOf quote h limit),
                         torn := "" }) ∧
    ((visited h root depth).map (recordOf quote h limit)).length =
      (visited h root depth).length ∧
    (∀ p ∈ visited h root depth,
      (∃ parent, recordOf quote h limit p = "\x7b\n    \"Parent\": " ++ parent ++
        ",\n    \"Name\": " ++ quote (h p).Name ++ ",\n    \"URL\": " ++ quote (h p).URL ++
        "\n\x7d\n") ∧
      5 ≤ lineCount (recordOf quote h limit p)) ∧
    5 * ((visited h root depth).map (recordOf quote h limit)).length ≤
      lineCount (String.join ((visited h root depth).map (recordOf quote h limit))) := by
  have hrun := encodeInOrder_map (jsonEncode quote h limit) h (recordOf quote h limit)
    (visited h root depth) { calls := [], out := [], torn := "" }
    (fun calls p hp => (recordOf_shape quote h limit p (hmarshal p hp)).1 calls)
  have henc := encode_eq_inOrder (jsonEncode quote h limit) h depth root { calls := [], out := [], torn := "" }
  rw [hrun] at henc
  simp only [List.nil_append] at henc
  refine ⟨?_, by simp, ?_, ?_⟩
  · simp only [SaveAssignmentTreeToJSON, henc, Option.map_some']
  · intro p hp
    exact (recordOf_shape quote h limit p (hmarshal p hp)).2
  · rw [lineCount_join]
    refine five_le_sum _ ?_
    intro s hs
    obtain ⟨p, hp, rfl⟩ := List.mem_map.mp hs
    exact (recordOf_shape quote h limit p (hmarshal p hp)).2.2

/-- Witness of C17, amended: the scenario's tree saved with `depth = 1`: three
records for the three nodes visited, on 23 lines. -/
theorem save_writes_indented_records_witness :
    visited courseWorld.heap 0 1 = [0, 1, 2] ∧
    (∀ p ∈ visited courseWorld.heap 0 1,
      ∃ text, marshalNode plainQuote courseWorld.heap 5 0 (some p) = Except.ok text) ∧
    lineCount (String.join ((visited courseWorld.heap 0 1).map
      (recordOf plainQuote courseWorld.heap 5))) = 23 ∧
    5 * ((visited courseWorld.heap 0 1).map (recordOf plainQuote courseWorld.heap 5)).length ≤
      lineCount (String.join ((visited courseWorld.heap 0 1).map
        (recordOf plainQuote courseWorld.heap 5))) :=
  ⟨by decide,
    fun p hp => by
      have hv : visited courseWorld.heap 0 1 = [0, 1, 2] := by decide
      rw [hv] at hp
      simp only [List.mem_cons, List.mem_singleton, List.not_mem_nil, or_false] at hp
      rcases hp with h | h | h <;> subst h <;> exact ⟨_, rfl⟩,
    by decide,
    (save_writes_indented_records (Except.ok ()) plainQuote courseWorld.heap 5 0 1
      (fun p hp => by
        have hv : visited courseWorld.heap 0 1 = [0, 1, 2] := by decide
        rw [hv] at hp
        simp only [List.mem_cons, List.mem_singleton, List.not_mem_nil, or_false] at hp
        rcases hp with h | h | h <;> subst h <;> exact ⟨_, rfl⟩)).2.2.2⟩

end Themis

namespace Themis

/-! ## Loading what was saved -/

set_option maxRecDepth 100000

/-- The loader fails, with an error that says why: on a file that is missing;
on the file of a save that wrote no record; on the file of a save whose third
write failed after seven characters, which ends with a text that is no record;
and on a file whose second record is nested two levels below the first. -/
theorem load_failures :
    BuildTreeFromJSON plainDecode (courseFiles (jsonEncode plainQuote courseWorld.heap 5) 2)
        "other.json" emptyWorld =
      Except.error "error opening file other.json" ∧
    BuildTreeFromJSON plainDecode (courseFiles (jsonEncode plainQuote courseWorld.heap 5) (-1))
        "assignment_tree.json" emptyWorld =
      Except.error "error reading file assignment_tree.json: no record" ∧
    BuildTreeFromJSON plainDecode
        (courseFiles (tornWrite (jsonEncode plainQuote courseWorld.heap 5) 2 7) 2)
        "assignment_tree.json" emptyWorld =
      Except.error "error decoding record: malformed record" ∧
    BuildTreeFromJSON plainDecode
        (fun _ => some { calls := [0, 3], torn := "",
                         out := [recordOf plainQuote courseWorld.heap 5 0,
                                 recordOf plainQuote courseWorld.heap 5 3] })
        "assignment_tree.json" emptyWorld =
      Except.error ("inconsistent record Submission: " ++
        "nested deeper than the depth of its predecessor + 1") :=
  ⟨rfl, rfl, rfl, rfl⟩

end Themis
